import Mathlib

/-!
Verification of the anon-tool pseudonymization core (backend/app/services).

Python strings are modelled as `List Char` (`Str`), Python dicts that the code
relies on for insertion order as ordered association lists, the mapping files
on disk as an association list from mapping id to mapping data, and the two
external capabilities (the spaCy recognizer and the stdlib regex engine) as
function parameters.  `datetime.now()` is passed in as an explicit `now : Nat`
timestamp.  Confidence scores (floats 0.60 .. 0.95 in the source, all exact
multiples of 0.05 and only ever compared, never combined arithmetically) are
represented in hundredths (60 .. 95) so that every comparison the code makes
is preserved exactly and remains kernel-computable.

Recursions that Python writes as `while` loops are given as structural
recursions over an explicit fuel argument (always called with enough fuel, as
the accompanying lemmas prove), so that all definitions evaluate by `decide`.
-/

set_option maxRecDepth 10000

abbrev Str : Type := List Char

/-- Python slice `t[s:e]` for nonnegative bounds (clamping included). -/
def pySlice (t : Str) (s e : Nat) : Str := (t.take e).drop s

/-- Ordered-dict lookup: first (and by key uniqueness, only) binding of `k`. -/
def dlookup {β : Type} : List (Str × β) → Str → Option β
  | [], _ => none
  | kv :: rest, k => if kv.1 == k then some kv.2 else dlookup rest k

/-- Ordered-dict write `d[k] = v`: overwrite in place, else append (Python
dict semantics: an overwritten key keeps its original position). -/
def dinsert {β : Type} (d : List (Str × β)) (k : Str) (v : β) : List (Str × β) :=
  if (dlookup d k).isSome then
    d.map (fun kv => if kv.1 == k then (k, v) else kv)
  else d ++ [(k, v)]

/-! ### mapping_store.py -/

/-- One value of the `entries` dict: `{"pseudonym": ..., "type": ...}`. -/
structure MapEntry where
  pseudonym : Str
  type : String
deriving DecidableEq, Repr

/-- The `_data` dict of a mapping JSON file. -/
structure MappingData where
  mapping_id : Str
  created : Nat
  updated : Nat
  entries : List (Str × MapEntry)
deriving DecidableEq, Repr

/-- The mappings directory on disk: mapping id ↦ persisted mapping data. -/
abbrev MappingFS := List (Str × MappingData)

/-- The mutable state of a `MappingStore` object: `_mapping_id` and `_data`. -/
structure MappingStore where
  mapping_id : Option Str
  data : MappingData
deriving DecidableEq, Repr

/-- A freshly constructed `MappingStore` (`_mapping_id = None`, `_data = {}`). -/
def initStore : MappingStore := ⟨none, ⟨[], 0, 0, []⟩⟩

/-- `MappingStore.create_or_load`. -/
def create_or_load (fs : MappingFS) (mid : Str) (now : Nat) : MappingStore :=
  match dlookup fs mid with
  | some d => { mapping_id := some mid, data := d }
  | none =>
    { mapping_id := some mid,
      data := { mapping_id := mid, created := now, updated := now, entries := [] } }

def lettersUpper : Str := "ABCDEFGHIJKLMNOPQRSTUVWXYZ".data

/-- The `while` loop of `_next_letter_label` (fuel-structural; one iteration
emits `letters[i % 26]` at the front and continues with `i // 26 - 1`,
stopping when that would be negative, i.e. when `i < 26`). -/
def letterLoopF : Nat → Nat → Str
  | 0, i => [lettersUpper.getD (i % 26) 'A']
  | fuel+1, i =>
    if i < 26 then [lettersUpper.getD (i % 26) 'A']
    else letterLoopF fuel (i / 26 - 1) ++ [lettersUpper.getD (i % 26) 'A']

/-- `_next_letter_label`: 0→A, 25→Z, 26→AA, 27→AB, ... -/
def next_letter_label (index : Nat) : Str :=
  if index < 26 then [lettersUpper.getD index 'A']
  else letterLoopF index index

/-- Decimal rendering of a natural number (Python `f"{n}"`), fuel-structural. -/
def natToStrF : Nat → Nat → Str
  | 0, n => [Nat.digitChar (n % 10)]
  | fuel+1, n =>
    if n < 10 then [Nat.digitChar (n % 10)]
    else natToStrF fuel (n / 10) ++ [Nat.digitChar (n % 10)]

def natToStr (n : Nat) : Str := natToStrF n n

/-- `MappingStore._generate_pseudonym`. -/
def generate_pseudonym (entity_type : String) (index : Nat) : Str :=
  if entity_type = "PERSON" then "Person_".data ++ next_letter_label index
  else if entity_type = "ORG" then "Company_".data ++ natToStr (index + 1)
  else if entity_type = "EMAIL" then "Email_".data ++ natToStr (index + 1)
  else if entity_type = "PHONE" then "Phone_".data ++ natToStr (index + 1)
  else "Entity_".data ++ natToStr (index + 1)

/-- `sum(1 for e in entries.values() if e["type"] == entity_type)`. -/
def countType (entries : List (Str × MapEntry)) (entity_type : String) : Nat :=
  (entries.filter (fun kv => kv.2.type == entity_type)).length

/-- `MappingStore.get_pseudonym` (returns the pseudonym and the new state). -/
def get_pseudonym (st : MappingStore) (real_name : Str) (entity_type : String)
    (now : Nat) : Str × MappingStore :=
  let entries := st.data.entries
  match dlookup entries real_name with
  | some e => (e.pseudonym, st)
  | none =>
    let existing_count := countType entries entity_type
    let pseudonym := generate_pseudonym entity_type existing_count
    let entries2 := entries ++ [(real_name, ⟨pseudonym, entity_type⟩)]
    (pseudonym,
     { st with data := { st.data with entries := entries2, updated := now } })

/-- Python exceptions that the modelled functions can raise. -/
inductive PyError where
  | fileNotFound : Str → PyError
  | valueError : Str → PyError
deriving DecidableEq, Repr

/-- The path `self._mappings_dir / f"{mapping_id}.json"` (relative part). -/
def savePath (mid : Str) : Str := "mappings/".data ++ mid ++ ".json".data

/-- `MappingStore.save`: note the Python guard is `if not self._mapping_id`,
which is also taken for the empty string (falsy), not only for `None`. -/
def save (fs : MappingFS) (st : MappingStore) (now : Nat) :
    Except PyError (Str × MappingFS × MappingStore) :=
  match st.mapping_id with
  | none => .error (.valueError "No mapping loaded. Call create_or_load() first.".data)
  | some mid =>
    if mid.isEmpty then
      .error (.valueError "No mapping loaded. Call create_or_load() first.".data)
    else
      let st2 : MappingStore := { st with data := { st.data with updated := now } }
      .ok (savePath mid, dinsert fs mid st2.data, st2)

/-- `MappingStore.get_entries`. -/
def get_entries (st : MappingStore) : List (Str × MapEntry) := st.data.entries

/-- `MappingStore.get_reverse_lookup`: `{v["pseudonym"]: k for k, v in entries}`
(dict comprehension: later entries overwrite earlier on a pseudonym clash). -/
def get_reverse_lookup (st : MappingStore) : List (Str × Str) :=
  st.data.entries.foldl (fun acc kv => dinsert acc kv.2.pseudonym kv.1) []

/-! ### detector.py -/

/-- `DetectedEntity` (confidence in hundredths, see the header note). -/
structure DetectedEntity where
  text : Str
  entity_type : String
  start : Nat
  end_ : Nat
  confidence : Nat
  source : String
deriving DecidableEq, Repr

/-- `_detect_regex`: the stdlib `re` engine is consumed as a capability; a
match object is its `(start, end)` pair and `match.group()` is by the `re`
contract exactly `text[start:end]`. -/
def detect_regex (emailMatches phoneMatches : Str → List (Nat × Nat))
    (text : Str) : List DetectedEntity :=
  (emailMatches text).map (fun m =>
    { text := pySlice text m.1 m.2, entity_type := "EMAIL", start := m.1,
      end_ := m.2, confidence := 95, source := "regex" })
  ++ (phoneMatches text).map (fun m =>
    { text := pySlice text m.1 m.2, entity_type := "PHONE", start := m.1,
      end_ := m.2, confidence := 90, source := "regex" })

/-- ASCII whitespace recognized by Python `str.split()` / `str.strip()`. -/
def isSpaceChar (c : Char) : Bool :=
  c == ' ' || c == '\t' || c == '\n' || c == '\r' || c == Char.ofNat 11 || c == Char.ofNat 12

/-- Python `t.strip()`. -/
def pyStrip (t : Str) : Str :=
  ((t.dropWhile isSpaceChar).reverse.dropWhile isSpaceChar).reverse

/-- Python `t.split()` (split on whitespace runs, no empty words). -/
def pySplitF : Nat → Str → List Str
  | 0, _ => []
  | fuel+1, t =>
    let t2 := t.dropWhile isSpaceChar
    match t2 with
    | [] => []
    | _ =>
      t2.takeWhile (fun c => !isSpaceChar c) ::
        pySplitF fuel (t2.dropWhile (fun c => !isSpaceChar c))

def pySplit (t : Str) : List Str := pySplitF t.length t

/-- `_estimate_confidence` (ASCII `isupper` on the first character). -/
def estimate_confidence (text : Str) : Nat :=
  let words := pySplit (pyStrip text)
  if 2 ≤ words.length then 90
  else if words.length == 1 && (text.headD ' ').isUpper then 80
  else 60

def MAX_CHUNK_SIZE : Nat := 900000

/-- Python `text.rfind("\n", s, e)`: largest index `j` with `s ≤ j < e` and
`text[j] = '\n'` (structural downward scan over `e`; `none` for `-1`). -/
def rfindNlF (text : Str) (s : Nat) : Nat → Option Nat
  | 0 => none
  | e+1 =>
    if s ≤ e then
      (if text.getD e ' ' == '\n' then some e else rfindNlF text s e)
    else none

/-- The `split_at` computation of `_split_into_chunks`: the last newline in
`[start, start + ceiling)` when one exists strictly after `start` (included
in the chunk, hence `+ 1`), else a hard cut at the ceiling. -/
def chunkSplitAt (text : Str) (start : Nat) : Nat :=
  match rfindNlF text start (start + MAX_CHUNK_SIZE) with
  | none => start + MAX_CHUNK_SIZE
  | some j => if j ≤ start then start + MAX_CHUNK_SIZE else j + 1

/-- The `while` loop of `_split_into_chunks` (fuel-structural). -/
def split_into_chunksF (text : Str) : Nat → Nat → List (Str × Nat)
  | 0, _ => []
  | fuel+1, start =>
    if text.length ≤ start then []
    else
      if text.length ≤ start + MAX_CHUNK_SIZE then [(text.drop start, start)]
      else
        ((text.drop start).take (chunkSplitAt text start - start), start) ::
          split_into_chunksF text fuel (chunkSplitAt text start)

/-- `_split_into_chunks`. -/
def split_into_chunks (text : Str) : List (Str × Nat) :=
  if text.length ≤ MAX_CHUNK_SIZE then [(text, 0)]
  else split_into_chunksF text text.length 0

/-- A span returned by the recognizer capability for one chunk, offsets
relative to the chunk (spaCy `ent.label_`, `ent.start_char`, `ent.end_char`;
`ent.text` is by the spaCy span contract `chunk[start_char:end_char]`). -/
structure RawEnt where
  label : String
  start_char : Nat
  end_char : Nat
deriving DecidableEq, Repr

/-- `_detect_ner`: run the recognizer per chunk and re-offset each span by the
chunk's start position in the original text. -/
def detect_ner (ner : Str → List RawEnt) (text : Str) : List DetectedEntity :=
  ((split_into_chunks text).map (fun chunk =>
    ((ner chunk.1).filter (fun r => r.label == "PERSON" || r.label == "ORG")).map
      (fun r =>
        let etext := pySlice chunk.1 r.start_char r.end_char
        { text := etext, entity_type := r.label, start := r.start_char + chunk.2,
          end_ := r.end_char + chunk.2, confidence := estimate_confidence etext,
          source := "spacy" }))).flatten

def isAsciiLetterCh (c : Char) : Bool :=
  ('A' ≤ c && c ≤ 'Z') || ('a' ≤ c && c ≤ 'z')

def isWordCh (c : Char) : Bool :=
  isAsciiLetterCh c || ('0' ≤ c && c ≤ '9') || c == '_'

/-- `re.match(r"\.[A-Za-z]{2,}\b", after) is not None`: a dot, at least two
ASCII letters, then a word boundary (the greedy letter run must not be
followed by another word character). -/
def tldMatch (after : Str) : Bool :=
  match after with
  | [] => false
  | c :: rest =>
    c == '.' &&
      (let letters := rest.takeWhile isAsciiLetterCh
       decide (2 ≤ letters.length) &&
         (match rest.drop letters.length with
          | [] => true
          | d :: _ => !isWordCh d))

/-- `_is_inside_email`. -/
def is_inside_email (ent : DetectedEntity) (text : Str) : Bool :=
  if ent.entity_type == "EMAIL" || ent.entity_type == "PHONE" then false
  else
    let before := pySlice text (ent.start - 50) ent.start
    let after := pySlice text ent.end_ (ent.end_ + 10)
    let has_at_before :=
      before.contains '@' &&
        !((before.reverse.takeWhile (fun c => c != '@')).contains ' ')
    let has_tld_after := tldMatch after
    has_at_before && has_tld_after

def entLenInt (e : DetectedEntity) : Int := (e.end_ : Int) - (e.start : Int)

/-- The sort order of `_deduplicate`: Python key
`(e.start, -(e.end - e.start), -e.confidence)`, ascending lexicographically. -/
def EntKeyLE (a b : DetectedEntity) : Prop :=
  a.start < b.start ∨
    (a.start = b.start ∧
      (entLenInt b < entLenInt a ∨
        (entLenInt a = entLenInt b ∧ b.confidence ≤ a.confidence)))

instance : DecidableRel EntKeyLE := fun a b => by
  unfold EntKeyLE; exact inferInstance

instance : IsTotal DetectedEntity EntKeyLE :=
  ⟨by intro a b; unfold EntKeyLE entLenInt; omega⟩

instance : IsTrans DetectedEntity EntKeyLE :=
  ⟨by intro a b c; unfold EntKeyLE entLenInt; omega⟩

/-- The overlap test of `_deduplicate`:
`ent.start < accepted.end and ent.end > accepted.start`. -/
def overlapsB (ent accepted : DetectedEntity) : Bool :=
  decide (ent.start < accepted.end_) && decide (accepted.start < ent.end_)

/-- `_deduplicate` (Python `sorted` is a stable sort by the key, realized here
by a stable insertion sort over the corresponding total preorder; the
`if text and _is_inside_email(...)` guard includes the truthiness of `text`). -/
def deduplicate (entities : List DetectedEntity) (text : Str) :
    List DetectedEntity :=
  match entities with
  | [] => []
  | _ :: _ =>
    let sorted_ents := List.insertionSort EntKeyLE entities
    sorted_ents.foldl (fun result ent =>
      if !text.isEmpty && is_inside_email ent text then result
      else if result.any (fun accepted => overlapsB ent accepted) then result
      else result ++ [ent]) []

def StartLE (a b : DetectedEntity) : Prop := a.start ≤ b.start

def StartGE (a b : DetectedEntity) : Prop := b.start ≤ a.start

instance : DecidableRel StartLE := fun a b => by unfold StartLE; exact inferInstance
instance : DecidableRel StartGE := fun a b => by unfold StartGE; exact inferInstance
instance : IsTotal DetectedEntity StartLE := ⟨by intro a b; unfold StartLE; omega⟩
instance : IsTrans DetectedEntity StartLE := ⟨by intro a b c; unfold StartLE; omega⟩
instance : IsTotal DetectedEntity StartGE := ⟨by intro a b; unfold StartGE; omega⟩
instance : IsTrans DetectedEntity StartGE := ⟨by intro a b c; unfold StartGE; omega⟩

/-- Length-descending order used by Python `sorted(key=len, reverse=True)`. -/
def LenGE (a b : Str) : Prop := b.length ≤ a.length

instance : DecidableRel LenGE := fun a b => by unfold LenGE; exact inferInstance
instance : IsTotal Str LenGE := ⟨by intro a b; unfold LenGE; omega⟩
instance : IsTrans Str LenGE := ⟨by intro a b c; unfold LenGE; omega⟩

/-- `detect_entities` (default `min_confidence=0.65` i.e. 65 hundredths). -/
def detect_entities (emailMatches phoneMatches : Str → List (Nat × Nat))
    (ner : Str → List RawEnt) (text : Str) (min_confidence : Nat) :
    List DetectedEntity :=
  let regex_entities := detect_regex emailMatches phoneMatches text
  let ner_entities := detect_ner ner text
  let all_entities := regex_entities ++ ner_entities
  let deduped := deduplicate all_entities text
  let filtered := deduped.filter (fun e =>
    decide (min_confidence ≤ e.confidence) || decide (1 < (pySplit e.text).length))
  List.insertionSort StartLE filtered

/-! ### anonymizer.py -/

/-- Python `s.replace(pat, rep)` (all non-overlapping occurrences, scanned
greedily left to right), fuel-structural.  The empty-pattern behaviour of
Python (`rep` interleaved at every position) is included for faithfulness
although the program only ever calls it with nonempty patterns. -/
def replaceAllF (pat rep : Str) : Nat → Str → Str
  | _, [] => if pat.isEmpty then rep else []
  | 0, s => s
  | fuel+1, c :: rest =>
    if pat.isPrefixOf (c :: rest) then
      match pat with
      | [] => rep ++ c :: replaceAllF [] rep fuel rest
      | _ :: ptail => rep ++ replaceAllF pat rep fuel (rest.drop ptail.length)
    else c :: replaceAllF pat rep fuel rest

def replaceAll (s pat rep : Str) : Str := replaceAllF pat rep s.length s

structure AnonymizeResult where
  anonymized_text : Str
  entities_found : List DetectedEntity
  mapping_id : Str
deriving DecidableEq, Repr

/-- `anonymize_text` (with `use_ollama=False`, the default; the optional
verification collaborator is external and absent here): detect, replace spans
right to left threading the store, second literal pass over all mapped names
sorted by length descending, then save. -/
def anonymize_text (emailMatches phoneMatches : Str → List (Nat × Nat))
    (ner : Str → List RawEnt) (fs : MappingFS) (text : Str) (mapping_id : Str)
    (now : Nat) : Except PyError (AnonymizeResult × MappingFS) :=
  let entities := detect_entities emailMatches phoneMatches ner text 65
  let store0 := create_or_load fs mapping_id now
  let sorted_entities := List.insertionSort StartGE entities
  let st_pair := sorted_entities.foldl (fun acc entity =>
    let p := get_pseudonym acc.2 entity.text entity.entity_type now
    ((acc.1.take entity.start) ++ p.1 ++ (acc.1.drop entity.end_), p.2))
    (text, store0)
  let entries := get_entries st_pair.2
  let sorted_names := List.insertionSort LenGE (entries.map Prod.fst)
  let result_text := sorted_names.foldl (fun rt real_name =>
    match dlookup entries real_name with
    | some e => replaceAll rt real_name e.pseudonym
    | none => rt) st_pair.1
  match save fs st_pair.2 now with
  | .error er => .error er
  | .ok saved =>
    .ok ({ anonymized_text := result_text, entities_found := entities,
           mapping_id := mapping_id }, saved.2.1)

/-- `deanonymize_text`: load (a missing id yields a fresh empty mapping, no
exception is raised on that path), return the input unchanged on an empty
entry set, else literal-replace each pseudonym, longest first. -/
def deanonymize_text (fs : MappingFS) (text : Str) (mapping_id : Str)
    (now : Nat) : Except PyError Str :=
  let store := create_or_load fs mapping_id now
  if store.data.entries.isEmpty then .ok text
  else
    let reverse := get_reverse_lookup store
    let sorted_pseudonyms := List.insertionSort LenGE (reverse.map Prod.fst)
    .ok (sorted_pseudonyms.foldl (fun result pseudonym =>
      match dlookup reverse pseudonym with
      | some real_name => replaceAll result pseudonym real_name
      | none => result) text)

/-! ### main.py (CLI layer, only the deanonymize guard) -/

/-- `cmd_deanonymize` from main.py: exit code 1 if the input file is missing
or if no mapping is persisted under the id (printing "Mapping not found"),
else run `deanonymize_file` and exit 0.  The input file is modelled as an
optional text. -/
def cmd_deanonymize (fs : MappingFS) (input_text : Option Str)
    (mapping_id : Str) (now : Nat) : Nat × Option Str :=
  match input_text with
  | none => (1, none)
  | some text =>
    if (dlookup fs mapping_id).isNone then (1, none)
    else
      match deanonymize_text fs text mapping_id now with
      | .ok restored => (0, some restored)
      | .error _ => (1, none)

/-! ### Bulk aggregation (anonymize_folder) -/

structure FolderSummary where
  output_sections : List Str
  total_entities : Nat
  files_processed : Nat
  files_failed : Nat
  failed_files : List (Str × Str)
deriving DecidableEq, Repr

/-- Section header `=== <filename> (Created: <date>) ===`. -/
def sectionHeader (name date : Str) : Str :=
  "=== ".data ++ name ++ " (Created: ".data ++ date ++ ") ===\n".data

/-- Modelled from the spec: `anonymize_folder` (the BulkAggregator of spec
§4.5) is imported by web.py and exercised by the test suite, but its
definition is not among the sources; this models its per-file loop from the
spec's words.  Files arrive already sorted by creation time as
`(filename, creation date, read result)`; for each file in order, a
successful read is anonymized under the shared mapping state (`proc` returns
the anonymized section body, the entity count, and the new state) and
appended to the merged output, while a failed read is recorded as
`(filename, error kind)` in the failure list and processing continues. -/
def anonymize_folder (proc : Str → MappingStore → (Str × Nat × MappingStore))
    (files : List (Str × Str × Except Str Str)) (st : MappingStore) :
    FolderSummary × MappingStore :=
  files.foldl (fun acc file =>
    match file.2.2 with
    | .error ekind =>
      ({ acc.1 with
          files_failed := acc.1.files_failed + 1,
          failed_files := acc.1.failed_files ++ [(file.1, ekind)] }, acc.2)
    | .ok content =>
      let r := proc content acc.2
      ({ acc.1 with
          output_sections := acc.1.output_sections ++ [sectionHeader file.1 file.2.1 ++ r.1],
          total_entities := acc.1.total_entities + r.2.1,
          files_processed := acc.1.files_processed + 1 }, r.2.2))
    (⟨[], 0, 0, 0, []⟩, st)

/-! ### Specification-side definitions used for refinement comparisons -/

/-- Spec-side overlap resolution, following the spec's words (§4.2 steps 4-5):
first suppress the email-embedded spans, then sort the remaining spans by
`(start ascending, length descending, confidence descending)` and greedily
accept each span that overlaps no already-accepted span. -/
def overlap_resolution_spec (entities : List DetectedEntity) (text : Str) :
    List DetectedEntity :=
  let remaining := entities.filter (fun ent => !(!text.isEmpty && is_inside_email ent text))
  let sorted := List.insertionSort EntKeyLE remaining
  sorted.foldl (fun accepted ent =>
    if accepted.any (fun a => overlapsB ent a) then accepted
    else accepted ++ [ent]) []

/-! ### Proof-support definitions for the round-trip analysis -/

/-- `c` occurs in `s` at position `i`. -/
def occursAt (c s : Str) (i : Nat) : Prop := c <+: s.drop i

/-- Splitting of `s` along the greedy non-overlapping occurrences of `pat`
(the pieces between occurrences), aligned with `replaceAllF`'s recursion. -/
def splitByPatF (pat : Str) : Nat → Str → List Str
  | 0, s => [s]
  | _+1, [] => [[]]
  | fuel+1, c :: rest =>
    if pat.isPrefixOf (c :: rest) && !pat.isEmpty then
      [] :: splitByPatF pat fuel (rest.drop (pat.length - 1))
    else
      match splitByPatF pat fuel rest with
      | [] => [[c]]
      | g :: gs => (c :: g) :: gs

def splitByPat (s pat : Str) : List Str := splitByPatF pat s.length s

/-- One replaced occurrence inside a working string: the original name and
the pseudonym currently standing in its place. -/
structure SlotInfo where
  name : Str
  pseud : Str
deriving DecidableEq, Repr

/-- A working string seen as alternating plain gaps and replaced slots:
`gap₁ ++ slot₁ ++ gap₂ ++ slot₂ ++ ... ++ tail`. -/
structure Sentence where
  segs : List (Str × SlotInfo)
  tail : Str
deriving DecidableEq, Repr

/-- The current (pseudonymized) string of a sentence. -/
def joinCur (S : Sentence) : Str :=
  (S.segs.map (fun ws => ws.1 ++ ws.2.pseud)).flatten ++ S.tail

/-- The original string of a sentence (slots restored to their names). -/
def joinOrig (S : Sentence) : Str :=
  (S.segs.map (fun ws => ws.1 ++ ws.2.name)).flatten ++ S.tail

/-- Re-segmenting of one gap after its occurrences of a name were replaced:
all pieces but the last become gaps before new `np` slots, the last piece
becomes the gap before the pre-existing following slot `s`. -/
def expandGapSegs (np s : SlotInfo) : List Str → List (Str × SlotInfo)
  | [] => [([], s)]
  | [u] => [(u, s)]
  | u :: v :: rest => (u, np) :: expandGapSegs np s (v :: rest)

/-- Re-segmenting of the trailing piece, analogously. -/
def expandTailSegs (np : SlotInfo) : List Str → List (Str × SlotInfo) × Str
  | [] => ([], [])
  | [u] => ([], u)
  | u :: v :: rest =>
    let r := expandTailSegs np (v :: rest)
    ((u, np) :: r.1, r.2)

/-- The sentence after the second-pass replacement of name `n` by `p` in
every gap. -/
def expandSent (S : Sentence) (n p : Str) : Sentence :=
  let np : SlotInfo := ⟨n, p⟩
  let tl := expandTailSegs np (splitByPat S.tail n)
  ⟨(S.segs.map (fun ws => expandGapSegs np ws.2 (splitByPat ws.1 n))).flatten ++ tl.1,
   tl.2⟩

/-- Restoring (to its name) every slot whose pseudonym is `p`, merging its
two surrounding gaps. -/
def restoreSegs (p : Str) : List (Str × SlotInfo) → Str → List (Str × SlotInfo) × Str
  | [], tl => ([], tl)
  | ws :: rest, tl =>
    let r := restoreSegs p rest tl
    if ws.2.pseud == p then
      match r.1 with
      | [] => ([], ws.1 ++ ws.2.name ++ r.2)
      | w2 :: r2 => ((ws.1 ++ ws.2.name ++ w2.1, w2.2) :: r2, r.2)
    else (ws :: r.1, r.2)

def restoreSlots (S : Sentence) (p : Str) : Sentence :=
  let r := restoreSegs p S.segs S.tail
  ⟨r.1, r.2⟩

/-- The sentence produced by the right-to-left span replacement pass, given
the ascending entity list paired with its assigned pseudonyms, starting at
position `pos` of `T`. -/
def entSent (T : Str) : List (DetectedEntity × Str) → Nat → Sentence
  | [], pos => ⟨[], T.drop pos⟩
  | ep :: rest, pos =>
    let S := entSent T rest ep.1.end_
    ⟨(pySlice T pos ep.1.start, ⟨ep.1.text, ep.2⟩) :: S.segs, S.tail⟩

/-- The pure text effect of the right-to-left span replacement pass. -/
def textRebuild (T : Str) (pairs : List (DetectedEntity × Str)) : Str :=
  pairs.foldr (fun ep J => (J.take ep.1.start) ++ ep.2 ++ (J.drop ep.1.end_)) T

/-- `(n, p)` is a binding of the entries dict. -/
def bindsIn (entries : List (Str × MapEntry)) (n p : Str) : Prop :=
  ∃ e, dlookup entries n = some e ∧ e.pseudonym = p

/-- Sentence well-formedness relative to the source text and the entries:
the original string is a contiguous part of `text` and every slot is an
entries binding. -/
def SentWF (text : Str) (entries : List (Str × MapEntry)) (S : Sentence) : Prop :=
  joinOrig S <:+: text ∧ ∀ ws ∈ S.segs, bindsIn entries ws.2.name ws.2.pseud

/-- No nonempty proper head of `c` found in `text` continues as a proper
prefix of the slot value `q` (blocks occurrences entering a slot from the
left). -/
def straddleFree1 (text c q : Str) : Bool :=
  (List.range c.length).all (fun m =>
    if m = 0 then true
    else !((c.drop m).isPrefixOf q && decide (c.length - m < q.length) &&
           decide ((c.take m) <:+: text)))

/-- No nonempty proper head of `c` equal to a proper suffix of the slot value
`q` continues with a tail found in `text` (blocks occurrences leaving a slot
to the right). -/
def straddleFree2 (text c q : Str) : Bool :=
  (List.range c.length).all (fun m =>
    if m = 0 then true
    else !(decide (m < q.length) && (c.take m == q.drop (q.length - m)) &&
           decide ((c.drop m) <:+: text)))

/-- No occurrence of `c` can leave slot `q` to the right, bridge a gap found
in `text`, and enter slot `r` from the left. -/
def straddleFree3 (text c q r : Str) : Bool :=
  (List.range c.length).all (fun m =>
    if m = 0 then true
    else (List.range (c.length - m)).all (fun j =>
      !(decide (m < q.length) && (c.take m == q.drop (q.length - m)) &&
        decide (((c.drop m).take j) <:+: text) &&
        (c.drop (m + j)).isPrefixOf r && decide (c.length - (m + j) < r.length))))

/-- The formalization of "no pseudonym-colliding literal substrings" for a
text and a final entry set: all names and pseudonyms are nonempty, the
pseudonyms are pairwise distinct and never occur literally in the text, no
name or foreign pseudonym occurs inside a pseudonym or vice versa, and no
name or pseudonym can straddle the boundary of an inserted pseudonym. -/
def collisionFree (text : Str) (entries : List (Str × MapEntry)) : Bool :=
  let N := entries.map Prod.fst
  let P := entries.map (fun kv => kv.2.pseudonym)
  let pats := N ++ P
  N.all (fun n => !n.isEmpty) &&
  P.all (fun p => !p.isEmpty && !(decide (p <:+: text))) &&
  N.all (fun n => P.all (fun p => !(n == p))) &&
  decide P.Nodup &&
  pats.all (fun c => P.all (fun q =>
    (c == q || !(decide (c <:+: q))) &&
    (q == c || !(decide (q <:+: c))) &&
    straddleFree1 text c q &&
    straddleFree2 text c q &&
    P.all (fun r => straddleFree3 text c q r)))

/-- The four entity kinds the pipeline produces. -/
def kinds4 : List String := ["PERSON", "ORG", "EMAIL", "PHONE"]

/-- A sequence of `get_pseudonym` calls, collecting the returned pseudonyms. -/
def run_calls_out : List (Str × String) → MappingStore → Nat → List Str × MappingStore
  | [], st, _ => ([], st)
  | c :: rest, st, now =>
    let r := get_pseudonym st c.1 c.2 now
    let rr := run_calls_out rest r.2 now
    (r.1 :: rr.1, rr.2)

/-- The reachable-state invariant of the entries dict (spec §3): for every
kind, the pseudonyms of that kind, in insertion order, are exactly the
generated labels for indices `0, 1, ...`. -/
def typeSeqOk (entries : List (Str × MapEntry)) : Prop :=
  ∀ t : String,
    (entries.filter (fun kv => kv.2.type == t)).map (fun kv => kv.2.pseudonym)
      = (List.range (countType entries t)).map (generate_pseudonym t)

/-- Chunk offsets chain up: each offset is the running sum of the lengths of
the chunks before it. -/
def chunksChain : Nat → List (Str × Nat) → Prop
  | _, [] => True
  | pos, c :: rest => c.2 = pos ∧ chunksChain (pos + c.1.length) rest

/-- Proposition form of `straddleFree1`: a head of `c` found in `text` never
continues as a proper prefix of the slot value `q`. -/
def SF1 (text c q : Str) : Prop :=
  ∀ m, 0 < m → m < c.length → c.drop m <+: q → c.length - m < q.length →
    ¬ (c.take m <:+: text)

/-- Proposition form of `straddleFree2`. -/
def SF2 (text c q : Str) : Prop :=
  ∀ m, 0 < m → m < c.length → m < q.length → c.take m = q.drop (q.length - m) →
    ¬ (c.drop m <:+: text)

/-- Proposition form of `straddleFree3`. -/
def SF3 (text c q r : Str) : Prop :=
  ∀ m j, 0 < m → m + j < c.length → m < q.length →
    c.take m = q.drop (q.length - m) → (c.drop m).take j <:+: text →
    c.drop (m + j) <+: r → ¬ (c.length - (m + j) < r.length)

/-- The collision conditions of one pattern `c` against the pseudonym pool
`P` of a mapping, as extracted from `collisionFree`. -/
def CFc (text : Str) (P : List Str) (c : Str) : Prop :=
  c ≠ [] ∧ ∀ q ∈ P, q ≠ [] ∧ (c = q ∨ ¬ c <:+: q) ∧ (q = c ∨ ¬ q <:+: c) ∧
    SF1 text c q ∧ SF2 text c q ∧ ∀ r ∈ P, SF3 text c q r

/-- Pseudonym assignment along a list of entities, threading the store (the
store effect of the right-to-left span replacement pass). -/
def assignPs (now : Nat) : List DetectedEntity → MappingStore →
    List (DetectedEntity × Str) × MappingStore
  | [], st => ([], st)
  | e :: rest, st =>
    let p := get_pseudonym st e.text e.entity_type now
    let r := assignPs now rest p.2
    ((e, p.1) :: r.1, r.2)

/-- Ascending, chained, in-bounds entity/pseudonym pairs for `entSent`:
each span starts no earlier than the running position, is well ordered, and
carries its own slice of `T` as its text. -/
def AscOK (T : Str) : Nat → List (DetectedEntity × Str) → Prop
  | _, [] => True
  | pos, ep :: rest => pos ≤ ep.1.start ∧ ep.1.start ≤ ep.1.end_ ∧
      ep.1.text = pySlice T ep.1.start ep.1.end_ ∧ AscOK T ep.1.end_ rest

/-! ## Dictionary lemmas -/

theorem dlookup_nil {β : Type} (k : Str) : dlookup ([] : List (Str × β)) k = none := rfl

theorem dlookup_cons {β : Type} (kv : Str × β) (d : List (Str × β)) (k : Str) :
    dlookup (kv :: d) k = if kv.1 == k then some kv.2 else dlookup d k := rfl

theorem dlookup_append {β : Type} (d1 d2 : List (Str × β)) (k : Str) :
    dlookup (d1 ++ d2) k = (dlookup d1 k).or (dlookup d2 k) := by
  induction d1 with
  | nil => simp [dlookup_nil]
  | cons kv d ih =>
    rw [List.cons_append, dlookup_cons, dlookup_cons]
    cases h : (kv.1 == k) <;> simp [h, ih]

theorem dlookup_append_left {β : Type} {d1 : List (Str × β)} {k : Str} {e : β}
    (h : dlookup d1 k = some e) (d2 : List (Str × β)) :
    dlookup (d1 ++ d2) k = some e := by
  rw [dlookup_append, h]; rfl

theorem dlookup_append_right {β : Type} {d1 : List (Str × β)} {k : Str}
    (h : dlookup d1 k = none) (d2 : List (Str × β)) :
    dlookup (d1 ++ d2) k = dlookup d2 k := by
  rw [dlookup_append, h]; cases dlookup d2 k <;> rfl

theorem dlookup_map_overwrite {β : Type} (d : List (Str × β)) (k : Str) (v : β)
    (hs : (dlookup d k).isSome = true) :
    dlookup (d.map (fun kv => if kv.1 == k then (k, v) else kv)) k = some v := by
  induction d with
  | nil => simp [dlookup] at hs
  | cons kv d ih =>
    cases h : (kv.1 == k) with
    | true =>
      have hk : kv.1 = k := by simpa using h
      subst hk
      simp [dlookup_cons]
    | false =>
      rw [dlookup_cons] at hs
      simp only [h, Bool.false_eq_true, if_false] at hs
      simp only [List.map_cons, h, Bool.false_eq_true, if_false]
      rw [dlookup_cons]
      simp only [h, Bool.false_eq_true, if_false]
      exact ih hs

theorem dlookup_dinsert_self {β : Type} (d : List (Str × β)) (k : Str) (v : β) :
    dlookup (dinsert d k v) k = some v := by
  unfold dinsert
  split
  next h => exact dlookup_map_overwrite d k v h
  next h =>
    have hn : dlookup d k = none := by
      cases hf : dlookup d k with
      | none => rfl
      | some e => rw [hf] at h; simp at h
    rw [dlookup_append_right hn, dlookup_cons]
    simp

/-! ## MappingStore lemmas -/

theorem get_pseudonym_hit {st : MappingStore} {n : Str} {e : MapEntry}
    (h : dlookup st.data.entries n = some e) (t : String) (now : Nat) :
    get_pseudonym st n t now = (e.pseudonym, st) := by
  simp only [get_pseudonym, h]

theorem get_pseudonym_miss {st : MappingStore} {n : Str}
    (h : dlookup st.data.entries n = none) (t : String) (now : Nat) :
    get_pseudonym st n t now =
      (generate_pseudonym t (countType st.data.entries t),
       { st with data := { st.data with
           entries := st.data.entries ++
             [(n, ⟨generate_pseudonym t (countType st.data.entries t), t⟩)],
           updated := now } }) := by
  simp only [get_pseudonym, h]

theorem get_pseudonym_mono {st : MappingStore} {m : Str} {e : MapEntry}
    (h : dlookup st.data.entries m = some e) (n : Str) (t : String) (now : Nat) :
    dlookup ((get_pseudonym st n t now).2.data.entries) m = some e := by
  cases hl : dlookup st.data.entries n with
  | some e2 => rw [get_pseudonym_hit hl]; exact h
  | none => rw [get_pseudonym_miss hl]; exact dlookup_append_left h _

theorem get_pseudonym_binds (st : MappingStore) (n : Str) (t : String) (now : Nat) :
    bindsIn (get_pseudonym st n t now).2.data.entries n (get_pseudonym st n t now).1 := by
  cases hl : dlookup st.data.entries n with
  | some e => rw [get_pseudonym_hit hl]; exact ⟨e, hl, rfl⟩
  | none =>
    rw [get_pseudonym_miss hl]
    exact ⟨⟨generate_pseudonym t (countType st.data.entries t), t⟩,
      by rw [dlookup_append_right hl, dlookup_cons]; simp, rfl⟩

theorem countType_append (d1 d2 : List (Str × MapEntry)) (t : String) :
    countType (d1 ++ d2) t = countType d1 t + countType d2 t := by
  unfold countType; rw [List.filter_append, List.length_append]

theorem countType_single_eq (n p : Str) (t : String) :
    countType [(n, ⟨p, t⟩)] t = 1 := by
  simp [countType]

theorem countType_single_ne {t t2 : String} (h : t ≠ t2) (n p : Str) :
    countType [(n, ⟨p, t⟩)] t2 = 0 := by
  simp [countType, h]

theorem get_pseudonym_countType_other {st : MappingStore} {t t2 : String}
    (hne : t2 ≠ t) (n : Str) (now : Nat) :
    countType (get_pseudonym st n t2 now).2.data.entries t
      = countType st.data.entries t := by
  cases hl : dlookup st.data.entries n with
  | some e => rw [get_pseudonym_hit hl]
  | none =>
    rw [get_pseudonym_miss hl]
    simp only
    rw [countType_append, countType_single_ne hne]
    omega

/-! ## Pseudonym label lemmas -/

theorem lettersUpper_getD_inj :
    ∀ i < 26, ∀ j < 26, lettersUpper.getD i 'A' = lettersUpper.getD j 'A' → i = j := by
  decide

theorem letterLoopF_small {f i : Nat} (h : i < 26) :
    letterLoopF f i = [lettersUpper.getD (i % 26) 'A'] := by
  cases f with
  | zero => rfl
  | succ g => simp [letterLoopF, h]

theorem letterLoopF_big {g i : Nat} (h : 26 ≤ i) :
    letterLoopF (g + 1) i
      = letterLoopF g (i / 26 - 1) ++ [lettersUpper.getD (i % 26) 'A'] := by
  simp [letterLoopF, Nat.not_lt.2 h]

theorem letterLoopF_length_pos (f i : Nat) : 0 < (letterLoopF f i).length := by
  cases f with
  | zero => simp [letterLoopF]
  | succ g =>
    by_cases h : i < 26
    · simp [letterLoopF, h]
    · rw [letterLoopF_big (Nat.not_lt.1 h)]; simp

theorem letterLoopF_len2 {f i : Nat} (h26 : 26 ≤ i) (hf : 0 < f) :
    2 ≤ (letterLoopF f i).length := by
  cases f with
  | zero => omega
  | succ g =>
    rw [letterLoopF_big h26, List.length_append]
    have := letterLoopF_length_pos g (i / 26 - 1)
    simp
    omega

theorem append_singleton_inj {α : Type} {xs ys : List α} {x y : α}
    (h : xs ++ [x] = ys ++ [y]) : xs = ys ∧ x = y := by
  have h2 := congrArg List.reverse h
  simp only [List.reverse_append, List.reverse_cons, List.reverse_nil,
    List.nil_append, List.singleton_append] at h2
  obtain ⟨hxy, hr⟩ := List.cons.inj h2
  exact ⟨by simpa using congrArg List.reverse hr, hxy⟩

theorem letterLoopF_inj :
    ∀ i fi fj j, i ≤ fi → j ≤ fj → letterLoopF fi i = letterLoopF fj j → i = j := by
  intro i
  induction i using Nat.strong_induction_on with
  | _ i IH =>
    intro fi fj j hfi hfj heq
    by_cases hi : i < 26 <;> by_cases hj : j < 26
    · rw [letterLoopF_small hi, letterLoopF_small hj] at heq
      have he := List.cons.inj heq
      have := lettersUpper_getD_inj (i % 26) (Nat.mod_lt _ (by omega)) (j % 26)
        (Nat.mod_lt _ (by omega)) he.1
      omega
    · exfalso
      rw [letterLoopF_small hi] at heq
      have h2 := letterLoopF_len2 (Nat.not_lt.1 hj) (show 0 < fj by omega)
      rw [← heq] at h2
      simp at h2
    · exfalso
      rw [letterLoopF_small hj] at heq
      have h2 := letterLoopF_len2 (Nat.not_lt.1 hi) (show 0 < fi by omega)
      rw [heq] at h2
      simp at h2
    · have hi26 : 26 ≤ i := Nat.not_lt.1 hi
      have hj26 : 26 ≤ j := Nat.not_lt.1 hj
      cases fi with
      | zero => omega
      | succ gi =>
        cases fj with
        | zero => omega
        | succ gj =>
          rw [letterLoopF_big hi26, letterLoopF_big hj26] at heq
          obtain ⟨hinit, hlast⟩ := append_singleton_inj heq
          have hm := lettersUpper_getD_inj (i % 26) (Nat.mod_lt _ (by omega)) (j % 26)
            (Nat.mod_lt _ (by omega)) hlast
          have hdivi : i / 26 ≤ i := Nat.div_le_self i 26
          have hdivj : j / 26 ≤ j := Nat.div_le_self j 26
          have hlt : i / 26 - 1 < i := by
            have := Nat.div_lt_self (show 0 < i by omega) (show 1 < 26 by norm_num)
            omega
          have hd := IH (i / 26 - 1) hlt gi gj (j / 26 - 1) (by omega) (by omega) hinit
          have d1 := Nat.div_add_mod i 26
          have d2 := Nat.div_add_mod j 26
          have m1 : i % 26 < 26 := Nat.mod_lt _ (by omega)
          have m2 : j % 26 < 26 := Nat.mod_lt _ (by omega)
          omega

theorem next_letter_label_eq_loop (i : Nat) : next_letter_label i = letterLoopF i i := by
  unfold next_letter_label
  split
  next h => rw [letterLoopF_small h, Nat.mod_eq_of_lt h]
  next => rfl

theorem next_letter_label_inj {i j : Nat} (h : next_letter_label i = next_letter_label j) :
    i = j := by
  rw [next_letter_label_eq_loop, next_letter_label_eq_loop] at h
  exact letterLoopF_inj i i j j le_rfl le_rfl h

theorem digitChar_inj :
    ∀ i < 10, ∀ j < 10, Nat.digitChar i = Nat.digitChar j → i = j := by
  decide

theorem natToStrF_small {f n : Nat} (h : n < 10) :
    natToStrF f n = [Nat.digitChar (n % 10)] := by
  cases f with
  | zero => rfl
  | succ g => simp [natToStrF, h]

theorem natToStrF_big {g n : Nat} (h : 10 ≤ n) :
    natToStrF (g + 1) n = natToStrF g (n / 10) ++ [Nat.digitChar (n % 10)] := by
  simp [natToStrF, Nat.not_lt.2 h]

theorem natToStrF_length_pos (f n : Nat) : 0 < (natToStrF f n).length := by
  cases f with
  | zero => simp [natToStrF]
  | succ g =>
    by_cases h : n < 10
    · simp [natToStrF, h]
    · rw [natToStrF_big (Nat.not_lt.1 h)]; simp

theorem natToStrF_len2 {f n : Nat} (h10 : 10 ≤ n) (hf : 0 < f) :
    2 ≤ (natToStrF f n).length := by
  cases f with
  | zero => omega
  | succ g =>
    rw [natToStrF_big h10, List.length_append]
    have := natToStrF_length_pos g (n / 10)
    simp
    omega

theorem natToStrF_inj :
    ∀ n fi fj m, n ≤ fi → m ≤ fj → natToStrF fi n = natToStrF fj m → n = m := by
  intro n
  induction n using Nat.strong_induction_on with
  | _ n IH =>
    intro fi fj m hfi hfj heq
    by_cases hn : n < 10 <;> by_cases hm : m < 10
    · rw [natToStrF_small hn, natToStrF_small hm] at heq
      have he := List.cons.inj heq
      have := digitChar_inj (n % 10) (Nat.mod_lt _ (by omega)) (m % 10)
        (Nat.mod_lt _ (by omega)) he.1
      omega
    · exfalso
      rw [natToStrF_small hn] at heq
      have h2 := natToStrF_len2 (Nat.not_lt.1 hm) (show 0 < fj by omega)
      rw [← heq] at h2
      simp at h2
    · exfalso
      rw [natToStrF_small hm] at heq
      have h2 := natToStrF_len2 (Nat.not_lt.1 hn) (show 0 < fi by omega)
      rw [heq] at h2
      simp at h2
    · have hn10 : 10 ≤ n := Nat.not_lt.1 hn
      have hm10 : 10 ≤ m := Nat.not_lt.1 hm
      cases fi with
      | zero => omega
      | succ gi =>
        cases fj with
        | zero => omega
        | succ gj =>
          rw [natToStrF_big hn10, natToStrF_big hm10] at heq
          obtain ⟨hinit, hlast⟩ := append_singleton_inj heq
          have hmod := digitChar_inj (n % 10) (Nat.mod_lt _ (by omega)) (m % 10)
            (Nat.mod_lt _ (by omega)) hlast
          have hdivi : n / 10 ≤ n := Nat.div_le_self n 10
          have hdivj : m / 10 ≤ m := Nat.div_le_self m 10
          have hlt : n / 10 < n := Nat.div_lt_self (by omega) (by norm_num)
          have hd := IH (n / 10) hlt gi gj (m / 10) (by omega) (by omega) hinit
          have d1 := Nat.div_add_mod n 10
          have d2 := Nat.div_add_mod m 10
          omega

theorem natToStr_inj {n m : Nat} (h : natToStr n = natToStr m) : n = m :=
  natToStrF_inj n n m m le_rfl le_rfl h

theorem append_take2_ne {xs ys as bs : Str} (hx : 2 ≤ xs.length) (hy : 2 ≤ ys.length)
    (hne : xs.take 2 ≠ ys.take 2) : xs ++ as ≠ ys ++ bs := by
  intro h
  apply hne
  have h2 := congrArg (List.take 2) h
  rwa [List.take_append_of_le_length hx, List.take_append_of_le_length hy] at h2

theorem generate_pseudonym_inj4 {t t2 : String} (h1 : t ∈ kinds4) (h2 : t2 ∈ kinds4)
    {i j : Nat} (he : generate_pseudonym t i = generate_pseudonym t2 j) :
    t = t2 ∧ i = j := by
  fin_cases h1 <;> fin_cases h2 <;>
    simp only [generate_pseudonym, if_true, if_false, reduceIte] at he <;>
    first
      | (exact ⟨rfl, next_letter_label_inj (List.append_cancel_left he)⟩)
      | (have hnum := natToStr_inj (List.append_cancel_left he)
         exact ⟨rfl, by omega⟩)
      | (exact absurd he (append_take2_ne (by decide) (by decide) (by decide)))

/-! ## Entries invariants -/

theorem typeSeqOk_nil : typeSeqOk [] := by
  intro t; simp [countType]

theorem typeSeqOk_get_pseudonym {st : MappingStore} (h : typeSeqOk st.data.entries)
    (n : Str) (t : String) (now : Nat) :
    typeSeqOk (get_pseudonym st n t now).2.data.entries := by
  cases hl : dlookup st.data.entries n with
  | some e => rw [get_pseudonym_hit hl]; exact h
  | none =>
    rw [get_pseudonym_miss hl]
    intro t2
    simp only
    rw [countType_append, List.filter_append, List.map_append]
    by_cases ht : t2 = t
    · subst ht
      rw [h t2, countType_single_eq]
      have hfs : (List.filter (fun kv => kv.2.type == t2)
          [(n, (⟨generate_pseudonym t2 (countType st.data.entries t2), t2⟩ : MapEntry))])
            = [(n, ⟨generate_pseudonym t2 (countType st.data.entries t2), t2⟩)] := by
        simp [List.filter]
      rw [hfs, List.range_succ, List.map_append]
      simp
    · have hne : t ≠ t2 := fun hh => ht hh.symm
      rw [countType_single_ne hne]
      have hfs : (List.filter (fun kv => kv.2.type == t2)
          [(n, (⟨generate_pseudonym t (countType st.data.entries t), t⟩ : MapEntry))]) = [] := by
        simp [List.filter, beq_eq_false_iff_ne.2 hne]
      rw [hfs, h t2]
      simp

theorem mem_pseud_of_typeSeqOk {entries : List (Str × MapEntry)} (h : typeSeqOk entries)
    {kv : Str × MapEntry} (hm : kv ∈ entries) :
    ∃ i, i < countType entries kv.2.type ∧ kv.2.pseudonym = generate_pseudonym kv.2.type i := by
  have hf : kv ∈ entries.filter (fun kv2 => kv2.2.type == kv.2.type) :=
    List.mem_filter.2 ⟨hm, by simp⟩
  have hmm : kv.2.pseudonym ∈
      (entries.filter (fun kv2 => kv2.2.type == kv.2.type)).map (fun kv2 => kv2.2.pseudonym) :=
    List.mem_map_of_mem _ hf
  rw [h kv.2.type] at hmm
  obtain ⟨i, hi, hee⟩ := List.mem_map.1 hmm
  exact ⟨i, List.mem_range.1 hi, hee.symm⟩

theorem pairwise_get_pseudonym {st : MappingStore}
    (hseq : typeSeqOk st.data.entries)
    (hkinds : ∀ kv ∈ st.data.entries, kv.2.type ∈ kinds4)
    (hpw : List.Pairwise (fun a b : Str × MapEntry => a.2.pseudonym ≠ b.2.pseudonym) st.data.entries)
    {t : String} (ht : t ∈ kinds4) (n : Str) (now : Nat) :
    List.Pairwise (fun a b : Str × MapEntry => a.2.pseudonym ≠ b.2.pseudonym)
        (get_pseudonym st n t now).2.data.entries ∧
      (∀ kv ∈ (get_pseudonym st n t now).2.data.entries, kv.2.type ∈ kinds4) := by
  cases hl : dlookup st.data.entries n with
  | some e => rw [get_pseudonym_hit hl]; exact ⟨hpw, hkinds⟩
  | none =>
    rw [get_pseudonym_miss hl]
    simp only
    constructor
    · rw [List.pairwise_append]
      refine ⟨hpw, by simp, ?_⟩
      intro a ha b hb
      have hbv : b = (n, ⟨generate_pseudonym t (countType st.data.entries t), t⟩) := by
        simpa using hb
      subst hbv
      obtain ⟨i, hi, hpe⟩ := mem_pseud_of_typeSeqOk hseq ha
      intro hcontra
      rw [hpe] at hcontra
      obtain ⟨hteq, hieq⟩ := generate_pseudonym_inj4 (hkinds a ha) ht hcontra
      rw [hteq] at hi
      omega
    · intro kv hkv
      rcases List.mem_append.1 hkv with hm | hm
      · exact hkinds kv hm
      · have : kv = (n, ⟨generate_pseudonym t (countType st.data.entries t), t⟩) := by
          simpa using hm
        rw [this]
        exact ht

theorem run_calls_invariant :
    ∀ (calls : List (Str × String)) (st : MappingStore) (now : Nat),
      (∀ c ∈ calls, c.2 ∈ kinds4) →
      typeSeqOk st.data.entries →
      (∀ kv ∈ st.data.entries, kv.2.type ∈ kinds4) →
      List.Pairwise (fun a b : Str × MapEntry => a.2.pseudonym ≠ b.2.pseudonym) st.data.entries →
      typeSeqOk (run_calls_out calls st now).2.data.entries ∧
        (∀ kv ∈ (run_calls_out calls st now).2.data.entries, kv.2.type ∈ kinds4) ∧
        List.Pairwise (fun a b : Str × MapEntry => a.2.pseudonym ≠ b.2.pseudonym)
          (run_calls_out calls st now).2.data.entries := by
  intro calls
  induction calls with
  | nil => intro st now _ h1 h2 h3; exact ⟨h1, h2, h3⟩
  | cons c rest ih =>
    intro st now hc h1 h2 h3
    have hck : c.2 ∈ kinds4 := hc c (List.mem_cons_self _ _)
    have hstep := pairwise_get_pseudonym h1 h2 h3 hck c.1 now
    have hseq2 := typeSeqOk_get_pseudonym h1 c.1 c.2 now
    exact ih (get_pseudonym st c.1 c.2 now).2 now
      (fun d hd => hc d (List.mem_cons_of_mem _ hd)) hseq2 hstep.2 hstep.1

/-! ## Reverse lookup lemmas -/

theorem dlookup_map_overwrite_ne {β : Type} (d : List (Str × β)) {k k2 : Str}
    (h : k ≠ k2) (v : β) :
    dlookup (d.map (fun kv => if kv.1 == k then (k, v) else kv)) k2 = dlookup d k2 := by
  induction d with
  | nil => rfl
  | cons kv rest ih =>
    rw [List.map_cons, dlookup_cons, dlookup_cons]
    by_cases hk : kv.1 = k
    · rw [if_pos (show (kv.1 == k) = true by simpa using hk)]
      rw [show ((k, v).1 == k2) = false from beq_eq_false_iff_ne.2 h,
          show (kv.1 == k2) = false from beq_eq_false_iff_ne.2 (hk ▸ h)]
      simp only [Bool.false_eq_true, if_false]
      exact ih
    · rw [if_neg (show ¬ (kv.1 == k) = true by simpa using hk)]
      by_cases hk3 : kv.1 = k2
      · rw [show (kv.1 == k2) = true from by simpa using hk3]; simp
      · rw [show (kv.1 == k2) = false from beq_eq_false_iff_ne.2 hk3]
        simp only [Bool.false_eq_true, if_false]
        exact ih

theorem dlookup_dinsert_ne {β : Type} (d : List (Str × β)) {k k2 : Str} (h : k ≠ k2) (v : β) :
    dlookup (dinsert d k v) k2 = dlookup d k2 := by
  unfold dinsert
  split
  · exact dlookup_map_overwrite_ne d h v
  · rw [dlookup_append]
    have hnone : dlookup [(k, v)] k2 = none := by
      rw [dlookup_cons]
      simp [beq_eq_false_iff_ne.2 h, dlookup_nil]
    rw [hnone]
    cases dlookup d k2 <;> rfl

theorem revfold_untouched :
    ∀ (l : List (Str × MapEntry)) (acc : List (Str × Str)) (p : Str),
      (∀ b ∈ l, b.2.pseudonym ≠ p) →
      dlookup (l.foldl (fun acc kv => dinsert acc kv.2.pseudonym kv.1) acc) p
        = dlookup acc p := by
  intro l
  induction l with
  | nil => intro acc p _; rfl
  | cons a rest ih =>
    intro acc p hb
    rw [List.foldl_cons]
    rw [ih _ p (fun b hbm => hb b (List.mem_cons_of_mem _ hbm))]
    exact dlookup_dinsert_ne _ (hb a (List.mem_cons_self _ _)) _

theorem revfold_lookup :
    ∀ (l : List (Str × MapEntry)) (acc : List (Str × Str)) (kv : Str × MapEntry),
      kv ∈ l →
      List.Pairwise (fun a b : Str × MapEntry => a.2.pseudonym ≠ b.2.pseudonym) l →
      dlookup (l.foldl (fun acc kv => dinsert acc kv.2.pseudonym kv.1) acc) kv.2.pseudonym
        = some kv.1 := by
  intro l
  induction l with
  | nil => intro acc kv h; simp at h
  | cons a rest ih =>
    intro acc kv hm hpw
    rw [List.foldl_cons]
    rcases List.mem_cons.1 hm with rfl | hmr
    · have hne : ∀ b ∈ rest, b.2.pseudonym ≠ kv.2.pseudonym :=
        fun b hbm => Ne.symm ((List.pairwise_cons.1 hpw).1 b hbm)
      rw [revfold_untouched rest _ _ hne]
      exact dlookup_dinsert_self _ _ _
    · exact ih _ kv hmr (List.pairwise_cons.1 hpw).2

/-- Reverse lookup is sound on a mapping with pairwise-distinct pseudonyms. -/
theorem reverse_lookup_sound {st : MappingStore}
    (hpw : List.Pairwise (fun a b : Str × MapEntry => a.2.pseudonym ≠ b.2.pseudonym)
      st.data.entries)
    {kv : Str × MapEntry} (hm : kv ∈ st.data.entries) :
    dlookup (get_reverse_lookup st) kv.2.pseudonym = some kv.1 :=
  revfold_lookup st.data.entries [] kv hm hpw

/-! ## Per-type sequencing helper -/

theorem person_seq_general :
    ∀ (ns : List Str) (st : MappingStore) (now : Nat),
      ns.Nodup → (∀ n ∈ ns, dlookup st.data.entries n = none) →
      ∀ i, i < ns.length →
        (run_calls_out (ns.map (fun n => (n, "PERSON"))) st now).1.getD i []
          = "Person_".data ++ next_letter_label (countType st.data.entries "PERSON" + i) := by
  intro ns
  induction ns with
  | nil => intro st now _ _ i hi; simp at hi
  | cons n rest ih =>
    intro st now hnd hnone i hi
    have hln : dlookup st.data.entries n = none := hnone n (List.mem_cons_self _ _)
    simp only [List.map_cons, run_calls_out]
    cases i with
    | zero =>
      rw [List.getD_cons_zero]
      have h1 : (get_pseudonym st n "PERSON" now).1
          = generate_pseudonym "PERSON" (countType st.data.entries "PERSON") := by
        rw [get_pseudonym_miss hln]
      rw [h1]
      simp [generate_pseudonym]
    | succ i2 =>
      rw [List.getD_cons_succ]
      have hst2e : (get_pseudonym st n "PERSON" now).2.data.entries
          = st.data.entries ++
            [(n, ⟨generate_pseudonym "PERSON" (countType st.data.entries "PERSON"), "PERSON"⟩)] := by
        rw [get_pseudonym_miss hln]
      have hnone2 : ∀ m ∈ rest, dlookup (get_pseudonym st n "PERSON" now).2.data.entries m = none := by
        intro m hm
        rw [hst2e, dlookup_append_right (hnone m (List.mem_cons_of_mem _ hm)), dlookup_cons]
        have hmn : n ≠ m := by
          intro hcontra
          exact (List.nodup_cons.1 hnd).1 (hcontra ▸ hm)
        rw [show ((n, (⟨generate_pseudonym "PERSON" (countType st.data.entries "PERSON"), "PERSON"⟩ : MapEntry)).1 == m) = false
          from beq_eq_false_iff_ne.2 hmn]
        simp [dlookup_nil]
      have hcount2 : countType (get_pseudonym st n "PERSON" now).2.data.entries "PERSON"
          = countType st.data.entries "PERSON" + 1 := by
        rw [hst2e, countType_append, countType_single_eq]
      rw [ih _ now (List.nodup_cons.1 hnd).2 hnone2 i2 (by simpa using hi)]
      rw [hcount2]
      congr 2
      omega

/-! ## Claim C4 -/

/-- C4: per-type sequencing.  The letter labels follow bijective base-26
numbering (0→A, 1→B, 25→Z, 26→AA, 27→AB); in a fresh mapping the i-th
distinct PERSON name resolves to `Person_<label i>` (so the 1st to Person_A,
the 2nd to Person_B and the 27th to Person_AA); the first ORG resolves to
Company_1, the first EMAIL to Email_1, the first PHONE to Phone_1; and a call
of one kind never changes another kind's entry count. -/
theorem C4_per_type_sequencing :
    (next_letter_label 0 = "A".data ∧ next_letter_label 1 = "B".data ∧
     next_letter_label 25 = "Z".data ∧ next_letter_label 26 = "AA".data ∧
     next_letter_label 27 = "AB".data) ∧
    (∀ (ns : List Str) (mid : Str) (now now2 : Nat), ns.Nodup →
      ∀ i, i < ns.length →
        (run_calls_out (ns.map (fun n => (n, "PERSON"))) (create_or_load [] mid now) now2).1.getD i []
          = "Person_".data ++ next_letter_label i) ∧
    (∀ (st : MappingStore) (n : Str) (now : Nat),
      dlookup st.data.entries n = none → countType st.data.entries "ORG" = 0 →
      (get_pseudonym st n "ORG" now).1 = "Company_1".data) ∧
    (∀ (st : MappingStore) (n : Str) (now : Nat),
      dlookup st.data.entries n = none → countType st.data.entries "EMAIL" = 0 →
      (get_pseudonym st n "EMAIL" now).1 = "Email_1".data) ∧
    (∀ (st : MappingStore) (n : Str) (now : Nat),
      dlookup st.data.entries n = none → countType st.data.entries "PHONE" = 0 →
      (get_pseudonym st n "PHONE" now).1 = "Phone_1".data) ∧
    (∀ (st : MappingStore) (n : Str) (t t2 : String) (now : Nat), t ≠ t2 →
      countType (get_pseudonym st n t2 now).2.data.entries t
        = countType st.data.entries t) := by
  refine ⟨by decide, ?_, ?_, ?_, ?_, ?_⟩
  · intro ns mid now now2 hnd i hi
    have h := person_seq_general ns (create_or_load [] mid now) now2 hnd
      (fun n _ => rfl) i hi
    rwa [show countType (create_or_load [] mid now).data.entries "PERSON" = 0 from rfl,
      Nat.zero_add] at h
  · intro st n now hl hc
    rw [get_pseudonym_miss hl]
    simp only
    rw [hc]
    decide
  · intro st n now hl hc
    rw [get_pseudonym_miss hl]
    simp only
    rw [hc]
    decide
  · intro st n now hl hc
    rw [get_pseudonym_miss hl]
    simp only
    rw [hc]
    decide
  · intro st n t t2 now hne
    exact get_pseudonym_countType_other (Ne.symm hne) n now

/-- C4 witness: twenty-seven concrete distinct PERSON names in a fresh
mapping; the 27th receives Person_AA. -/
theorem C4_witness :
    (run_calls_out (((List.range 27).map natToStr).map (fun n => (n, "PERSON")))
        (create_or_load [] "m".data 0) 0).1.getD 26 []
      = "Person_AA".data := by
  have h := C4_per_type_sequencing.2.1 ((List.range 27).map natToStr) "m".data 0 0
    (by decide) 26 (by decide)
  rw [h]
  decide

/-! ## Claim C7 -/

/-- C7: idempotent allocation.  A real name already present in the entries is
returned its stored pseudonym unchanged for any kind argument, with the whole
store state (entries and updated timestamp included) left untouched; and two
successive resolutions of the same name return the identical pseudonym. -/
theorem C7_idempotent_allocation :
    (∀ (st : MappingStore) (name : Str) (e : MapEntry) (kind : String) (now : Nat),
      dlookup st.data.entries name = some e →
      get_pseudonym st name kind now = (e.pseudonym, st)) ∧
    (∀ (st : MappingStore) (name : Str) (kind kind2 : String) (now now2 : Nat),
      (get_pseudonym (get_pseudonym st name kind now).2 name kind2 now2).1
        = (get_pseudonym st name kind now).1) := by
  constructor
  · intro st name e kind now h
    exact get_pseudonym_hit h kind now
  · intro st name kind kind2 now now2
    obtain ⟨e, he, hp⟩ := get_pseudonym_binds st name kind now
    rw [get_pseudonym_hit he, hp]

/-- C7 witness: a store already holding John Smith keeps its pseudonym and
its state under a second resolution, even with a different kind argument. -/
theorem C7_witness :
    get_pseudonym
        ⟨some "m".data, ⟨"m".data, 3, 4, [("John Smith".data, ⟨"Person_A".data, "PERSON"⟩)]⟩⟩
        "John Smith".data "ORG" 9
      = ("Person_A".data,
         ⟨some "m".data, ⟨"m".data, 3, 4, [("John Smith".data, ⟨"Person_A".data, "PERSON"⟩)]⟩⟩) :=
  C7_idempotent_allocation.1
    ⟨some "m".data, ⟨"m".data, 3, 4, [("John Smith".data, ⟨"Person_A".data, "PERSON"⟩)]⟩⟩
    "John Smith".data ⟨"Person_A".data, "PERSON"⟩ "ORG" 9 (by decide)

/-! ## Claim C2 -/

/-- C2: pseudonym uniqueness.  Starting from an empty mapping, after any
sequence of `get_pseudonym` calls whose kinds are among PERSON, ORG, EMAIL
and PHONE, no two entries of the mapping hold the same pseudonym, and the
reverse lookup maps each entry's pseudonym back to its own real name. -/
theorem C2_pseudonym_uniqueness (calls : List (Str × String)) (mid : Str) (now now2 : Nat)
    (hk : ∀ c ∈ calls, c.2 ∈ kinds4) :
    List.Pairwise (fun a b : Str × MapEntry => a.2.pseudonym ≠ b.2.pseudonym)
        (run_calls_out calls (create_or_load [] mid now) now2).2.data.entries ∧
      ∀ kv ∈ (run_calls_out calls (create_or_load [] mid now) now2).2.data.entries,
        dlookup (get_reverse_lookup (run_calls_out calls (create_or_load [] mid now) now2).2)
            kv.2.pseudonym = some kv.1 := by
  have h0 := run_calls_invariant calls (create_or_load [] mid now) now2 hk
    (by intro t; rfl) (by intro kv hkv; exact absurd hkv (List.not_mem_nil kv))
    (List.Pairwise.nil)
  refine ⟨h0.2.2, ?_⟩
  intro kv hkv
  exact reverse_lookup_sound h0.2.2 hkv

/-- C2 witness: a concrete call sequence mixing all four kinds and a repeated
name yields pairwise distinct pseudonyms. -/
theorem C2_witness :
    List.Pairwise (fun a b : Str × MapEntry => a.2.pseudonym ≠ b.2.pseudonym)
      (run_calls_out
        [("John Smith".data, "PERSON"), ("Acme Corp".data, "ORG"),
         ("jane@acme.com".data, "EMAIL"), ("555-123-4567".data, "PHONE"),
         ("Jane Doe".data, "PERSON"), ("John Smith".data, "PERSON")]
        (create_or_load [] "m".data 0) 1).2.data.entries :=
  (C2_pseudonym_uniqueness
    [("John Smith".data, "PERSON"), ("Acme Corp".data, "ORG"),
     ("jane@acme.com".data, "EMAIL"), ("555-123-4567".data, "PHONE"),
     ("Jane Doe".data, "PERSON"), ("John Smith".data, "PERSON")]
    "m".data 0 1 (by decide)).1

/-! ## Claim C8 -/

/-- C8 counterexample: after `create_or_load("")` a mapping has been created
in this session, yet `save` still raises, because the Python guard
`if not self._mapping_id` also fires on the empty (falsy) string id.  So
"raises iff no mapping has been loaded or created" is false as stated. -/
theorem C8_counterexample :
    (create_or_load [] [] 0).mapping_id = some [] ∧
      (save [] (create_or_load [] [] 0) 1).isOk = false := by
  decide

/-- C8 (amended): `save` raises exactly when the store's mapping id is unset
or is the empty string (the Python falsy guard); otherwise it rewrites the
updated timestamp, writes the full mapping under its per-id path, and returns
that path. -/
theorem C8_save_amended :
    (∀ (fs : MappingFS) (st : MappingStore) (now : Nat),
      (∃ er, save fs st now = .error er) ↔
        (st.mapping_id = none ∨ st.mapping_id = some [])) ∧
    (∀ (fs : MappingFS) (st : MappingStore) (now : Nat) (mid : Str),
      st.mapping_id = some mid → mid ≠ [] →
      save fs st now = .ok (savePath mid,
        dinsert fs mid { st.data with updated := now },
        { st with data := { st.data with updated := now } })) := by
  constructor
  · intro fs st now
    obtain ⟨mido, data⟩ := st
    cases mido with
    | none =>
      constructor
      · intro _; exact Or.inl rfl
      · intro _; exact ⟨_, rfl⟩
    | some mid =>
      by_cases he : mid.isEmpty
      · have hmid : mid = [] := List.isEmpty_iff.1 he
        subst hmid
        constructor
        · intro _; right; rfl
        · intro _; exact ⟨_, rfl⟩
      · have hne2 : mid ≠ [] := fun hh => he (by rw [hh]; rfl)
        constructor
        · rintro ⟨er, her⟩
          simp only [save, he, Bool.false_eq_true, if_false] at her
          exact absurd her (by simp)
        · intro h
          rcases h with hm | hm
          · exact absurd hm (by simp)
          · have : mid = [] := by injection hm
            exact absurd this hne2
  · intro fs st now mid hm hne
    obtain ⟨mido, data⟩ := st
    cases mido with
    | none => exact absurd hm (by simp)
    | some m =>
      have hmm : m = mid := by injection hm
      subst hmm
      have he : m.isEmpty = false := by
        cases m with
        | nil => exact absurd rfl hne
        | cons c cs => rfl
      simp only [save, he, Bool.false_eq_true, if_false]

/-- C8 witness: a store with a nonempty loaded id saves successfully to its
per-id path. -/
theorem C8_witness :
    save [] ⟨some "m".data, ⟨"m".data, 0, 0, []⟩⟩ 7
      = .ok ("mappings/m.json".data,
             dinsert [] "m".data ⟨"m".data, 0, 7, []⟩,
             ⟨some "m".data, ⟨"m".data, 0, 7, []⟩⟩) := by
  have h := C8_save_amended.2 [] ⟨some "m".data, ⟨"m".data, 0, 0, []⟩⟩ 7 "m".data rfl
    (by decide)
  exact h

/-! ## Claim C3 -/

/-- C3 counterexample: with no mapping persisted under the id,
`deanonymize_text` does not fail: `create_or_load` silently creates a fresh
empty mapping (the docstring's FileNotFoundError is never raised on this
path, as the unit test test_empty_mapping_returns_text also confirms) and
the input text is returned unchanged as a normal result. -/
theorem C3_counterexample :
    deanonymize_text [] "Person_A went to the store.".data "nonexistent-id".data 0
      = .ok "Person_A went to the store.".data := rfl

/-- C3 (amended): for a mapping id under which nothing is persisted, the core
`deanonymize_text` returns the input unchanged without any error; the
distinct, identifiable "Mapping not found" failure for a missing mapping id
is produced by the CLI layer guard (`cmd_deanonymize` in main.py), which
checks the mapping path before calling the core and exits with code 1. -/
theorem C3_deanonymize_missing_mapping :
    (∀ (fs : MappingFS) (text mid : Str) (now : Nat), dlookup fs mid = none →
      deanonymize_text fs text mid now = .ok text) ∧
    (∀ (fs : MappingFS) (text mid : Str) (now : Nat), dlookup fs mid = none →
      cmd_deanonymize fs (some text) mid now = (1, none)) := by
  constructor
  · intro fs text mid now h
    unfold deanonymize_text create_or_load
    rw [h]
    rfl
  · intro fs text mid now h
    unfold cmd_deanonymize
    rw [h]
    rfl

/-- C3 witness: concrete empty mappings directory. -/
theorem C3_witness :
    deanonymize_text [] "abc".data "missing".data 5 = .ok "abc".data ∧
      cmd_deanonymize [] (some "abc".data) "missing".data 5 = (1, none) :=
  ⟨C3_deanonymize_missing_mapping.1 [] "abc".data "missing".data 5 rfl,
   C3_deanonymize_missing_mapping.2 [] "abc".data "missing".data 5 rfl⟩

/-! ## Claim C9 -/

theorem folder_fold_counts (proc : Str → MappingStore → (Str × Nat × MappingStore)) :
    ∀ (files : List (Str × Str × Except Str Str)) (acc : FolderSummary × MappingStore),
      (files.foldl (fun acc file =>
        match file.2.2 with
        | .error ekind =>
          ({ acc.1 with
              files_failed := acc.1.files_failed + 1,
              failed_files := acc.1.failed_files ++ [(file.1, ekind)] }, acc.2)
        | .ok content =>
          let r := proc content acc.2
          ({ acc.1 with
              output_sections := acc.1.output_sections ++ [sectionHeader file.1 file.2.1 ++ r.1],
              total_entities := acc.1.total_entities + r.2.1,
              files_processed := acc.1.files_processed + 1 }, r.2.2)) acc).1.files_processed
          = acc.1.files_processed + (files.filter (fun f => f.2.2.isOk)).length ∧
      (files.foldl (fun acc file =>
        match file.2.2 with
        | .error ekind =>
          ({ acc.1 with
              files_failed := acc.1.files_failed + 1,
              failed_files := acc.1.failed_files ++ [(file.1, ekind)] }, acc.2)
        | .ok content =>
          let r := proc content acc.2
          ({ acc.1 with
              output_sections := acc.1.output_sections ++ [sectionHeader file.1 file.2.1 ++ r.1],
              total_entities := acc.1.total_entities + r.2.1,
              files_processed := acc.1.files_processed + 1 }, r.2.2)) acc).1.files_failed
          = acc.1.files_failed + (files.filter (fun f => !f.2.2.isOk)).length ∧
      (files.foldl (fun acc file =>
        match file.2.2 with
        | .error ekind =>
          ({ acc.1 with
              files_failed := acc.1.files_failed + 1,
              failed_files := acc.1.failed_files ++ [(file.1, ekind)] }, acc.2)
        | .ok content =>
          let r := proc content acc.2
          ({ acc.1 with
              output_sections := acc.1.output_sections ++ [sectionHeader file.1 file.2.1 ++ r.1],
              total_entities := acc.1.total_entities + r.2.1,
              files_processed := acc.1.files_processed + 1 }, r.2.2)) acc).1.failed_files
          = acc.1.failed_files ++ (files.filterMap (fun f =>
              match f.2.2 with
              | .error e => some (f.1, e)
              | .ok _ => none)) := by
  intro files
  induction files with
  | nil => intro acc; refine ⟨by simp, by simp, by simp⟩
  | cons file rest ih =>
    intro acc
    rw [List.foldl_cons]
    cases hf : file.2.2 with
    | error ekind =>
      have h := ih ({ acc.1 with
          files_failed := acc.1.files_failed + 1,
          failed_files := acc.1.failed_files ++ [(file.1, ekind)] }, acc.2)
      simp only [hf] at h ⊢
      refine ⟨?_, ?_, ?_⟩
      · rw [h.1]; simp [List.filter_cons, hf, Except.isOk, Except.toBool]
      · rw [h.2.1]; simp [List.filter_cons, hf, Except.isOk, Except.toBool]; omega
      · rw [h.2.2]; simp [List.filterMap_cons, hf]
    | ok content =>
      have h := ih ({ acc.1 with
          output_sections := acc.1.output_sections ++
            [sectionHeader file.1 file.2.1 ++ (proc content acc.2).1],
          total_entities := acc.1.total_entities + (proc content acc.2).2.1,
          files_processed := acc.1.files_processed + 1 }, (proc content acc.2).2.2)
      simp only [hf] at h ⊢
      refine ⟨?_, ?_, ?_⟩
      · rw [h.1]; simp [List.filter_cons, hf, Except.isOk, Except.toBool]; omega
      · rw [h.2.1]; simp [List.filter_cons, hf, Except.isOk, Except.toBool]
      · rw [h.2.2]; simp [List.filterMap_cons, hf]

/-- C9: bulk fault isolation (spec-modelled, see `anonymize_folder`).  For
every folder run, the number of processed files is the number of readable
files, the number of failed files is the number of unreadable ones, the
failure list records exactly the `(filename, error kind)` pairs of the
failing files in order — so a failing file never aborts the batch — and, in
particular, a folder with two decodable files and one undecodable file yields
`files_processed = 2`, `files_failed = 1`, with the failing filename in
`failed_files`. -/
theorem C9_bulk_fault_isolation :
    (∀ (proc : Str → MappingStore → (Str × Nat × MappingStore))
       (files : List (Str × Str × Except Str Str)) (st : MappingStore),
      (anonymize_folder proc files st).1.files_processed
          = (files.filter (fun f => f.2.2.isOk)).length ∧
      (anonymize_folder proc files st).1.files_failed
          = (files.filter (fun f => !f.2.2.isOk)).length ∧
      (anonymize_folder proc files st).1.failed_files
          = files.filterMap (fun f =>
              match f.2.2 with
              | .error e => some (f.1, e)
              | .ok _ => none)) ∧
    ((anonymize_folder (fun c st => (c, 0, st))
        [("good1.txt".data, "2024-01-01".data, .ok "x".data),
         ("bad.bin".data, "2024-01-02".data, .error "UnsupportedInput".data),
         ("good2.txt".data, "2024-01-03".data, .ok "y".data)] initStore).1.files_processed = 2 ∧
     (anonymize_folder (fun c st => (c, 0, st))
        [("good1.txt".data, "2024-01-01".data, .ok "x".data),
         ("bad.bin".data, "2024-01-02".data, .error "UnsupportedInput".data),
         ("good2.txt".data, "2024-01-03".data, .ok "y".data)] initStore).1.files_failed = 1 ∧
     (anonymize_folder (fun c st => (c, 0, st))
        [("good1.txt".data, "2024-01-01".data, .ok "x".data),
         ("bad.bin".data, "2024-01-02".data, .error "UnsupportedInput".data),
         ("good2.txt".data, "2024-01-03".data, .ok "y".data)] initStore).1.failed_files
       = [("bad.bin".data, "UnsupportedInput".data)]) := by
  constructor
  · intro proc files st
    have h := folder_fold_counts proc files (⟨[], 0, 0, 0, []⟩, st)
    unfold anonymize_folder
    simpa using h
  · refine ⟨by decide, by decide, by decide⟩

/-! ## Chunking lemmas (claim C10) -/

theorem rfindNlF_bound {text : Str} {s : Nat} :
    ∀ {e j : Nat}, rfindNlF text s e = some j → s ≤ j ∧ j < e := by
  intro e
  induction e with
  | zero => intro j h; simp [rfindNlF] at h
  | succ e2 ih =>
    intro j h
    unfold rfindNlF at h
    split at h
    · split at h
      · have hj : e2 = j := by injection h
        omega
      · have := ih h
        omega
    · exact absurd h (by simp)

theorem chunkSplitAt_bounds (text : Str) (start : Nat) :
    start < chunkSplitAt text start ∧ chunkSplitAt text start ≤ start + MAX_CHUNK_SIZE := by
  unfold chunkSplitAt
  have hmax : 0 < MAX_CHUNK_SIZE := by norm_num [MAX_CHUNK_SIZE]
  split
  next => omega
  next j hr =>
    have hb := rfindNlF_bound hr
    split
    next => omega
    next => omega

theorem chunksF_eq_nil {text : Str} {start : Nat} (h : text.length ≤ start) :
    ∀ fuel, split_into_chunksF text fuel start = [] := by
  intro fuel
  cases fuel with
  | zero => rfl
  | succ f => simp [split_into_chunksF, h]

theorem chunksF_last {text : Str} {fuel start : Nat} (h1 : start < text.length)
    (h2 : text.length ≤ start + MAX_CHUNK_SIZE) :
    split_into_chunksF text (fuel + 1) start = [(text.drop start, start)] := by
  simp [split_into_chunksF, Nat.not_le.2 h1, h2]

theorem chunksF_step {text : Str} {fuel start : Nat} (h1 : start < text.length)
    (h2 : start + MAX_CHUNK_SIZE < text.length) :
    split_into_chunksF text (fuel + 1) start =
      ((text.drop start).take (chunkSplitAt text start - start), start) ::
        split_into_chunksF text fuel (chunkSplitAt text start) := by
  simp [split_into_chunksF, Nat.not_le.2 h1, Nat.not_le.2 h2]

theorem chunksF_join (text : Str) :
    ∀ fuel start, text.length - start ≤ fuel →
      ((split_into_chunksF text fuel start).map Prod.fst).flatten = text.drop start := by
  intro fuel
  induction fuel with
  | zero =>
    intro start h
    rw [chunksF_eq_nil (by omega)]
    simp [List.drop_eq_nil_of_le (by omega : text.length ≤ start)]
  | succ f ih =>
    intro start h
    by_cases h1 : text.length ≤ start
    · rw [chunksF_eq_nil h1]
      simp [List.drop_eq_nil_of_le h1]
    · by_cases h2 : text.length ≤ start + MAX_CHUNK_SIZE
      · rw [chunksF_last (Nat.not_le.1 h1) h2]
        simp
      · have hs := chunkSplitAt_bounds text start
        rw [chunksF_step (Nat.not_le.1 h1) (Nat.not_le.1 h2)]
        rw [List.map_cons, List.flatten_cons]
        rw [ih (chunkSplitAt text start) (by omega)]
        have : text.drop (chunkSplitAt text start)
            = (text.drop start).drop (chunkSplitAt text start - start) := by
          rw [List.drop_drop]
          congr 1
          omega
        rw [this, List.take_append_drop]

theorem chunksF_chain (text : Str) :
    ∀ fuel start, text.length - start ≤ fuel →
      chunksChain start (split_into_chunksF text fuel start) := by
  intro fuel
  induction fuel with
  | zero =>
    intro start h
    rw [chunksF_eq_nil (by omega)]
    trivial
  | succ f ih =>
    intro start h
    by_cases h1 : text.length ≤ start
    · rw [chunksF_eq_nil h1]; trivial
    · by_cases h2 : text.length ≤ start + MAX_CHUNK_SIZE
      · rw [chunksF_last (Nat.not_le.1 h1) h2]
        exact ⟨rfl, trivial⟩
      · have hs := chunkSplitAt_bounds text start
        rw [chunksF_step (Nat.not_le.1 h1) (Nat.not_le.1 h2)]
        refine ⟨rfl, ?_⟩
        have hlen : ((text.drop start).take (chunkSplitAt text start - start)).length
            = chunkSplitAt text start - start := by
          rw [List.length_take, List.length_drop]
          omega
        rw [hlen]
        have harith : start + (chunkSplitAt text start - start) = chunkSplitAt text start := by
          omega
        rw [harith]
        exact ih (chunkSplitAt text start) (by omega)

theorem chunksF_le_max (text : Str) :
    ∀ fuel start, ∀ c ∈ split_into_chunksF text fuel start, c.1.length ≤ MAX_CHUNK_SIZE := by
  intro fuel
  induction fuel with
  | zero => intro start c hc; simp [split_into_chunksF] at hc
  | succ f ih =>
    intro start c hc
    by_cases h1 : text.length ≤ start
    · rw [chunksF_eq_nil h1] at hc
      exact absurd hc (List.not_mem_nil c)
    · by_cases h2 : text.length ≤ start + MAX_CHUNK_SIZE
      · rw [chunksF_last (Nat.not_le.1 h1) h2] at hc
        have hcv : c = (text.drop start, start) := by simpa using hc
        rw [hcv]
        simp only [List.length_drop]
        omega
      · have hs := chunkSplitAt_bounds text start
        rw [chunksF_step (Nat.not_le.1 h1) (Nat.not_le.1 h2)] at hc
        rcases List.mem_cons.1 hc with hcv | hcr
        · rw [hcv]
          simp only [List.length_take, List.length_drop]
          omega
        · exact ih _ c hcr

theorem chunksF_facts (text : Str) :
    ∀ fuel start, text.length - start ≤ fuel →
      ∀ c ∈ split_into_chunksF text fuel start,
        c.2 + c.1.length ≤ text.length ∧ c.1 = (text.drop c.2).take c.1.length := by
  intro fuel
  induction fuel with
  | zero => intro start h c hc; simp [split_into_chunksF] at hc
  | succ f ih =>
    intro start h c hc
    by_cases h1 : text.length ≤ start
    · rw [chunksF_eq_nil h1] at hc
      exact absurd hc (List.not_mem_nil c)
    · by_cases h2 : text.length ≤ start + MAX_CHUNK_SIZE
      · rw [chunksF_last (Nat.not_le.1 h1) h2] at hc
        have hcv : c = (text.drop start, start) := by simpa using hc
        subst hcv
        constructor
        · simp only [List.length_drop]
          omega
        · simp only [List.length_drop]
          rw [List.take_of_length_le (by simp)]
      · have hs := chunkSplitAt_bounds text start
        rw [chunksF_step (Nat.not_le.1 h1) (Nat.not_le.1 h2)] at hc
        rcases List.mem_cons.1 hc with hcv | hcr
        · subst hcv
          have hlen : ((text.drop start).take (chunkSplitAt text start - start)).length
              = chunkSplitAt text start - start := by
            rw [List.length_take, List.length_drop]
            omega
          constructor
          · simp only [hlen]
            omega
          · simp only [hlen]
        · exact ih _ (by omega) c hcr

theorem split_chunks_facts (text : Str) :
    ∀ c ∈ split_into_chunks text,
      c.2 + c.1.length ≤ text.length ∧ c.1 = (text.drop c.2).take c.1.length := by
  intro c hc
  unfold split_into_chunks at hc
  split at hc
  · have hcv : c = (text, 0) := by simpa using hc
    subst hcv
    exact ⟨by simp, by simp⟩
  · exact chunksF_facts text text.length 0 (by omega) c hc

/-- C10: implicit chunking soundness.  The chunks concatenate in order to
exactly the original text, each chunk's recorded offset is the sum of the
lengths of all preceding chunks, and every chunk is at most 900000 characters
long. -/
theorem C10_chunking_soundness (text : Str) :
    ((split_into_chunks text).map Prod.fst).flatten = text ∧
    chunksChain 0 (split_into_chunks text) ∧
    ∀ c ∈ split_into_chunks text, c.1.length ≤ MAX_CHUNK_SIZE := by
  unfold split_into_chunks
  split
  next h =>
    refine ⟨by simp, ⟨rfl, trivial⟩, ?_⟩
    intro c hc
    have hcv : c = (text, 0) := by simpa using hc
    rw [hcv]
    exact h
  next h =>
    refine ⟨?_, ?_, ?_⟩
    · have hj := chunksF_join text text.length 0 (by omega)
      simpa using hj
    · exact chunksF_chain text text.length 0 (by omega)
    · exact fun c hc => chunksF_le_max text text.length 0 c hc

/-! ## Span validity lemmas (claim C6) -/

theorem pySlice_eq_take_drop (t : Str) (s e : Nat) :
    pySlice t s e = (t.drop s).take (e - s) := by
  unfold pySlice
  rw [List.drop_take]

theorem slice_in_chunk {text chunk : Str} {off : Nat}
    (hoff : off + chunk.length ≤ text.length)
    (hc : chunk = (text.drop off).take chunk.length)
    {s e : Nat} (he : e ≤ chunk.length) :
    pySlice text (s + off) (e + off) = pySlice chunk s e := by
  rw [pySlice_eq_take_drop, pySlice_eq_take_drop]
  have h1 : (e + off) - (s + off) = e - s := by omega
  rw [h1]
  have hdd : text.drop (s + off) = (text.drop off).drop s := by
    rw [List.drop_drop]
    congr 1
    omega
  rw [hdd]
  have hsplit : text.drop off = chunk ++ (text.drop off).drop chunk.length := by
    conv_lhs => rw [← List.take_append_drop chunk.length (text.drop off)]
    rw [← hc]
  rw [hsplit]
  by_cases hs : s ≤ chunk.length
  · rw [List.drop_append_of_le_length hs]
    have hlen : e - s ≤ (chunk.drop s).length := by
      rw [List.length_drop]
      omega
    rw [List.take_append_of_le_length hlen]
  · have hz : e - s = 0 := by omega
    rw [hz]
    simp

theorem dedup_fold_mem :
    ∀ (l acc : List DetectedEntity) (text : Str) (x : DetectedEntity),
      x ∈ l.foldl (fun result ent =>
        if !text.isEmpty && is_inside_email ent text then result
        else if result.any (fun accepted => overlapsB ent accepted) then result
        else result ++ [ent]) acc → x ∈ acc ∨ x ∈ l := by
  intro l
  induction l with
  | nil => intro acc text x h; exact Or.inl h
  | cons ent rest ih =>
    intro acc text x h
    rw [List.foldl_cons] at h
    by_cases hc1 : (!text.isEmpty && is_inside_email ent text) = true
    · rw [if_pos hc1] at h
      rcases ih acc text x h with h1 | h2
      · exact Or.inl h1
      · exact Or.inr (List.mem_cons_of_mem _ h2)
    · rw [if_neg hc1] at h
      by_cases hc2 : (acc.any fun accepted => overlapsB ent accepted) = true
      · rw [if_pos hc2] at h
        rcases ih acc text x h with h1 | h2
        · exact Or.inl h1
        · exact Or.inr (List.mem_cons_of_mem _ h2)
      · rw [if_neg hc2] at h
        rcases ih _ text x h with h1 | h2
        · rcases List.mem_append.1 h1 with h3 | h4
          · exact Or.inl h3
          · have hx : x = ent := by simpa using h4
            exact Or.inr (hx ▸ List.mem_cons_self _ _)
        · exact Or.inr (List.mem_cons_of_mem _ h2)

theorem deduplicate_subset {ents : List DetectedEntity} {text : Str} {x : DetectedEntity}
    (h : x ∈ deduplicate ents text) : x ∈ ents := by
  cases ents with
  | nil => simp [deduplicate] at h
  | cons a l =>
    unfold deduplicate at h
    rcases dedup_fold_mem _ _ _ _ h with h1 | h2
    · exact absurd h1 (List.not_mem_nil x)
    · exact (List.mem_insertionSort EntKeyLE).1 h2

theorem detect_entities_mem {em ph : Str → List (Nat × Nat)} {ner : Str → List RawEnt}
    {text : Str} {minc : Nat} {x : DetectedEntity}
    (h : x ∈ detect_entities em ph ner text minc) :
    x ∈ detect_regex em ph text ∨ x ∈ detect_ner ner text := by
  unfold detect_entities at h
  have h1 := (List.mem_insertionSort StartLE).1 h
  have h2 := (List.mem_filter.1 h1).1
  exact List.mem_append.1 (deduplicate_subset h2)

theorem detect_regex_valid {em ph : Str → List (Nat × Nat)} {text : Str} {x : DetectedEntity}
    (h : x ∈ detect_regex em ph text) :
    pySlice text x.start x.end_ = x.text := by
  unfold detect_regex at h
  rcases List.mem_append.1 h with h1 | h1 <;>
    · obtain ⟨m, hm, he⟩ := List.mem_map.1 h1
      rw [← he]

theorem detect_ner_valid {ner : Str → List RawEnt} {text : Str}
    (hner : ∀ chunk r, r ∈ ner chunk → r.end_char ≤ chunk.length) {x : DetectedEntity}
    (h : x ∈ detect_ner ner text) : pySlice text x.start x.end_ = x.text := by
  unfold detect_ner at h
  obtain ⟨l, hl, hx⟩ := List.mem_flatten.1 h
  obtain ⟨chunk, hchunk, hle⟩ := List.mem_map.1 hl
  rw [← hle] at hx
  obtain ⟨r, hr, he⟩ := List.mem_map.1 hx
  have hrm : r ∈ ner chunk.1 := (List.mem_filter.1 hr).1
  have hre := hner chunk.1 r hrm
  obtain ⟨hb, hcc⟩ := split_chunks_facts text chunk hchunk
  rw [← he]
  exact slice_in_chunk hb hcc hre

/-- C6: span offset correctness.  Under the recognizer capability contract
(spans are within their chunk), every entity returned by the full detection
pipeline — chunk re-offsetting included — satisfies
`text[e.start:e.end] == e.text`.  The regex layer needs no side condition
because a regex match's group is its slice by construction. -/
theorem C6_span_offset_correctness
    (emailMatches phoneMatches : Str → List (Nat × Nat)) (ner : Str → List RawEnt)
    (text : Str) (min_confidence : Nat)
    (hner : ∀ chunk r, r ∈ ner chunk → r.end_char ≤ chunk.length) :
    ∀ e ∈ detect_entities emailMatches phoneMatches ner text min_confidence,
      pySlice text e.start e.end_ = e.text := by
  intro e he
  rcases detect_entities_mem he with h | h
  · exact detect_regex_valid h
  · exact detect_ner_valid hner h

/-- C6 witness: a concrete recognizer on a concrete text. -/
theorem C6_witness :
    pySlice "John Smith met Jane.".data 0 10 = "John Smith".data := by
  have h := C6_span_offset_correctness (fun _ => []) (fun _ => [])
    (fun chunk => if 10 ≤ chunk.length then [⟨"PERSON", 0, 10⟩] else [])
    "John Smith met Jane.".data 65
    (by
      intro chunk r hr
      simp only [] at hr
      by_cases h10 : 10 ≤ chunk.length
      · rw [if_pos h10] at hr
        have hrv : r = ⟨"PERSON", 0, 10⟩ := by simpa using hr
        rw [hrv]
        exact h10
      · rw [if_neg h10] at hr
        exact absurd hr (List.not_mem_nil r))
    ⟨"John Smith".data, "PERSON", 0, 10, 90, "spacy"⟩ (by decide)
  exact h

/-! ## Overlap resolution lemmas (claim C5) -/

theorem greedy_fold_pairwise :
    ∀ (l acc : List DetectedEntity) (text : Str),
      List.Pairwise (fun a b => ¬(a.start < b.end_ ∧ b.start < a.end_)) acc →
      List.Pairwise (fun a b => ¬(a.start < b.end_ ∧ b.start < a.end_))
        (l.foldl (fun result ent =>
          if !text.isEmpty && is_inside_email ent text then result
          else if result.any (fun accepted => overlapsB ent accepted) then result
          else result ++ [ent]) acc) := by
  intro l
  induction l with
  | nil => intro acc text h; exact h
  | cons ent rest ih =>
    intro acc text h
    rw [List.foldl_cons]
    by_cases hc1 : (!text.isEmpty && is_inside_email ent text) = true
    · rw [if_pos hc1]; exact ih acc text h
    · rw [if_neg hc1]
      by_cases hc2 : (acc.any fun accepted => overlapsB ent accepted) = true
      · rw [if_pos hc2]; exact ih acc text h
      · rw [if_neg hc2]
        apply ih
        rw [List.pairwise_append]
        refine ⟨h, by simp, ?_⟩
        intro a ha b hb
        have hbv : b = ent := by simpa using hb
        subst hbv
        have hno : ¬ (overlapsB b a = true) := by
          intro hcontra
          exact hc2 (List.any_eq_true.2 ⟨a, ha, hcontra⟩)
        unfold overlapsB at hno
        intro hcontra
        exact hno (by simp [hcontra.2, hcontra.1])

theorem deduplicate_pairwise (ents : List DetectedEntity) (text : Str) :
    List.Pairwise (fun a b => ¬(a.start < b.end_ ∧ b.start < a.end_))
      (deduplicate ents text) := by
  cases ents with
  | nil => simp [deduplicate]
  | cons a l =>
    unfold deduplicate
    exact greedy_fold_pairwise _ [] text (List.Pairwise.nil)

theorem detect_entities_pairwise (em ph : Str → List (Nat × Nat)) (ner : Str → List RawEnt)
    (text : Str) (minc : Nat) :
    List.Pairwise (fun a b => ¬(a.start < b.end_ ∧ b.start < a.end_))
      (detect_entities em ph ner text minc) := by
  unfold detect_entities
  have hsymm : ∀ {x y : DetectedEntity},
      (¬(x.start < y.end_ ∧ y.start < x.end_)) → ¬(y.start < x.end_ ∧ x.start < y.end_) :=
    fun h hc => h ⟨hc.2, hc.1⟩
  have hfil := List.Pairwise.filter
    (fun e => decide (minc ≤ e.confidence) || decide (1 < (pySplit e.text).length))
    (deduplicate_pairwise (detect_regex em ph text ++ detect_ner ner text) text)
  exact ((List.perm_insertionSort StartLE _).pairwise_iff hsymm).2 hfil

theorem orderedInsert_eq_cons {x : DetectedEntity} {m : List DetectedEntity}
    (h : ∀ z ∈ m, EntKeyLE x z) : List.orderedInsert EntKeyLE x m = x :: m := by
  cases m with
  | nil => rfl
  | cons z l => rw [List.orderedInsert, if_pos (h z (List.mem_cons_self _ _))]

theorem orderedInsert_filter (p : DetectedEntity → Bool) (x : DetectedEntity) :
    ∀ (l : List DetectedEntity), l.Sorted EntKeyLE →
      (List.orderedInsert EntKeyLE x l).filter p
        = if p x then List.orderedInsert EntKeyLE x (l.filter p) else l.filter p := by
  intro l
  induction l with
  | nil =>
    intro _
    by_cases hp : p x = true <;> simp [List.orderedInsert, List.filter, hp]
  | cons y l ih =>
    intro hs
    have hsl : l.Sorted EntKeyLE := (List.sorted_cons.1 hs).2
    have hyall : ∀ b ∈ l, EntKeyLE y b := (List.sorted_cons.1 hs).1
    by_cases hr : EntKeyLE x y
    · rw [List.orderedInsert, if_pos hr]
      by_cases hp : p x = true
      · have hall : ∀ z ∈ (y :: l).filter p, EntKeyLE x z := by
          intro z hz
          rcases List.mem_cons.1 (List.mem_of_mem_filter hz) with hzy | hzl
          · exact hzy ▸ hr
          · exact Trans.trans hr (hyall z hzl)
        rw [if_pos hp, orderedInsert_eq_cons hall]
        rw [List.filter_cons, if_pos hp]
      · rw [if_neg hp, List.filter_cons, if_neg hp]
    · rw [List.orderedInsert, if_neg hr]
      rw [List.filter_cons]
      by_cases hpy : p y = true
      · rw [if_pos hpy, List.filter_cons, if_pos hpy]
        rw [ih hsl]
        by_cases hp : p x = true
        · rw [if_pos hp, if_pos hp, List.orderedInsert, if_neg hr]
        · rw [if_neg hp, if_neg hp]
      · rw [if_neg hpy, List.filter_cons, if_neg hpy]
        rw [ih hsl]

theorem insertionSort_filter (p : DetectedEntity → Bool) (l : List DetectedEntity) :
    (List.insertionSort EntKeyLE l).filter p = List.insertionSort EntKeyLE (l.filter p) := by
  induction l with
  | nil => rfl
  | cons x l ih =>
    rw [List.insertionSort,
      orderedInsert_filter p x _ (List.sorted_insertionSort EntKeyLE l), ih,
      List.filter_cons]
    by_cases hp : p x = true
    · rw [if_pos hp, if_pos hp, List.insertionSort]
    · rw [if_neg hp, if_neg hp]

theorem greedy_fold_filter :
    ∀ (l acc : List DetectedEntity) (text : Str),
      l.foldl (fun result ent =>
        if !text.isEmpty && is_inside_email ent text then result
        else if result.any (fun accepted => overlapsB ent accepted) then result
        else result ++ [ent]) acc
      = (l.filter (fun ent => !(!text.isEmpty && is_inside_email ent text))).foldl
          (fun accepted ent =>
            if accepted.any (fun a => overlapsB ent a) then accepted
            else accepted ++ [ent]) acc := by
  intro l
  induction l with
  | nil => intro acc text; rfl
  | cons ent rest ih =>
    intro acc text
    rw [List.foldl_cons, List.filter_cons]
    by_cases hc1 : (!text.isEmpty && is_inside_email ent text) = true
    · rw [if_pos hc1]
      rw [show (!(!text.isEmpty && is_inside_email ent text)) = false by simp [hc1]]
      simp only [Bool.false_eq_true, if_false]
      exact ih acc text
    · rw [if_neg hc1]
      rw [show (!(!text.isEmpty && is_inside_email ent text)) = true by
        simp only [Bool.not_eq_true] at hc1
        simp [hc1]]
      simp only [if_true]
      rw [List.foldl_cons]
      by_cases hc2 : (acc.any fun accepted => overlapsB ent accepted) = true
      · rw [if_pos hc2]
        exact ih acc text
      · rw [if_neg hc2]
        exact ih _ text

theorem deduplicate_eq_spec (ents : List DetectedEntity) (text : Str) :
    deduplicate ents text = overlap_resolution_spec ents text := by
  cases ents with
  | nil => rfl
  | cons a l =>
    unfold deduplicate overlap_resolution_spec
    rw [greedy_fold_filter]
    rw [insertionSort_filter]

/-- C5: overlap resolution.  (a) The full pipeline never returns two
overlapping spans; (b) `_deduplicate` computes exactly the spec's procedure:
suppress email-embedded spans, sort the remaining candidates by
(start ascending, length descending, confidence descending) with a stable
sort, and greedily accept each span that overlaps no already-accepted span;
(c) in particular, of the overlapping candidates "John"[0,4] with confidence
0.80 and "John Smith"[0,10] with confidence 0.90, only "John Smith"
survives. -/
theorem C5_overlap_resolution :
    (∀ (em ph : Str → List (Nat × Nat)) (ner : Str → List RawEnt) (text : Str) (minc : Nat),
      List.Pairwise (fun a b => ¬(a.start < b.end_ ∧ b.start < a.end_))
        (detect_entities em ph ner text minc)) ∧
    (∀ (ents : List DetectedEntity) (text : Str),
      deduplicate ents text = overlap_resolution_spec ents text) ∧
    (deduplicate
        [⟨"John".data, "PERSON", 0, 4, 80, "spacy"⟩,
         ⟨"John Smith".data, "PERSON", 0, 10, 90, "spacy"⟩]
        "John Smith called.".data
      = [⟨"John Smith".data, "PERSON", 0, 10, 90, "spacy"⟩]) := by
  refine ⟨detect_entities_pairwise, deduplicate_eq_spec, ?_⟩
  decide

/-! ## replaceAll lemmas (claim C1) -/

theorem rAF_nil (pat rep : Str) (fuel : Nat) :
    replaceAllF pat rep fuel [] = if pat.isEmpty then rep else [] := by
  cases fuel <;> rfl

theorem rAF_neg {pat : Str} {c : Char} {rest : Str}
    (h : pat.isPrefixOf (c :: rest) = false) (rep : Str) (fuel : Nat) :
    replaceAllF pat rep (fuel + 1) (c :: rest) = c :: replaceAllF pat rep fuel rest := by
  cases pat with
  | nil => simp [List.isPrefixOf] at h
  | cons p0 ptail => simp [replaceAllF, h]

theorem rAF_pos {pat : Str} {c : Char} {rest : Str} (hp : pat ≠ [])
    (h : pat.isPrefixOf (c :: rest) = true) (rep : Str) (fuel : Nat) :
    replaceAllF pat rep (fuel + 1) (c :: rest)
      = rep ++ replaceAllF pat rep fuel (rest.drop (pat.length - 1)) := by
  cases pat with
  | nil => exact absurd rfl hp
  | cons p0 ptail => simp [replaceAllF, h]

theorem replaceAllF_fuel_aux (pat rep : Str) :
    ∀ (n : Nat) (s : Str), s.length ≤ n → ∀ f1 f2, s.length ≤ f1 → s.length ≤ f2 →
      replaceAllF pat rep f1 s = replaceAllF pat rep f2 s := by
  intro n
  induction n with
  | zero =>
    intro s hs f1 f2 _ _
    have : s = [] := List.length_eq_zero.1 (by omega)
    subst this
    rw [rAF_nil, rAF_nil]
  | succ n ih =>
    intro s hs f1 f2 h1 h2
    cases s with
    | nil => rw [rAF_nil, rAF_nil]
    | cons c rest =>
      have hl : rest.length + 1 = (c :: rest).length := rfl
      cases f1 with
      | zero => simp at h1
      | succ g1 =>
        cases f2 with
        | zero => simp at h2
        | succ g2 =>
          cases hpre : pat.isPrefixOf (c :: rest) with
          | false =>
            rw [rAF_neg hpre, rAF_neg hpre]
            have := ih rest (by simp at hs; omega) g1 g2 (by simp at h1; omega)
              (by simp at h2; omega)
            rw [this]
          | true =>
            cases pat with
            | nil =>
              simp only [replaceAllF]
              have := ih rest (by simp at hs; omega) g1 g2 (by simp at h1; omega)
                (by simp at h2; omega)
              rw [this]
            | cons p0 ptail =>
              rw [rAF_pos (by simp) hpre, rAF_pos (by simp) hpre]
              have hd : (rest.drop ((p0 :: ptail).length - 1)).length ≤ rest.length := by
                rw [List.length_drop]
                omega
              have := ih (rest.drop ((p0 :: ptail).length - 1))
                (by simp at hs; omega) g1 g2 (by simp at h1; omega) (by simp at h2; omega)
              rw [this]

theorem replaceAllF_eq_replaceAll {pat rep : Str} {s : Str} {fuel : Nat}
    (h : s.length ≤ fuel) : replaceAllF pat rep fuel s = replaceAll s pat rep :=
  replaceAllF_fuel_aux pat rep s.length s le_rfl fuel s.length h le_rfl

theorem replaceAll_nil (pat rep : Str) :
    replaceAll [] pat rep = if pat.isEmpty then rep else [] := rfl

theorem replaceAll_cons_neg {pat : Str} {c : Char} {rest : Str}
    (h : pat.isPrefixOf (c :: rest) = false) (rep : Str) :
    replaceAll (c :: rest) pat rep = c :: replaceAll rest pat rep := by
  unfold replaceAll
  rw [show (c :: rest).length = rest.length + 1 from rfl, rAF_neg h]

theorem replaceAll_head {pat s rep : Str} (hp : pat ≠ []) (h : pat <+: s) :
    replaceAll s pat rep = rep ++ replaceAll (s.drop pat.length) pat rep := by
  obtain ⟨t, ht⟩ := h
  subst ht
  rw [List.drop_left]
  cases pat with
  | nil => exact absurd rfl hp
  | cons p0 ptail =>
    have hpre : (p0 :: ptail).isPrefixOf (p0 :: (ptail ++ t)) = true :=
      List.isPrefixOf_iff_prefix.2 ⟨t, by simp⟩
    show replaceAllF (p0 :: ptail) rep ((p0 :: ptail) ++ t).length ((p0 :: ptail) ++ t) = _
    rw [show (p0 :: ptail) ++ t = p0 :: (ptail ++ t) from rfl,
      show (p0 :: (ptail ++ t)).length = (ptail ++ t).length + 1 from rfl,
      rAF_pos (by simp) hpre]
    congr 1
    rw [show ((p0 :: ptail) : Str).length - 1 = ptail.length from by simp, List.drop_left]
    exact replaceAllF_eq_replaceAll (by simp)

theorem occursAt_cons_succ {c : Str} {x : Char} {s : Str} {i : Nat} :
    occursAt c (x :: s) (i + 1) ↔ occursAt c s i := by
  unfold occursAt
  rw [List.drop_succ_cons]

theorem occursAt_zero {c s : Str} : occursAt c s 0 ↔ c <+: s := by
  unfold occursAt
  rw [List.drop_zero]

theorem prefix_shorten {p X Y : Str} (h : p <+: X ++ Y) (hl : p.length ≤ X.length) :
    p <+: X := by
  have h1 : p = (X ++ Y).take p.length := List.prefix_iff_eq_take.1 h
  rw [List.take_append_of_le_length hl] at h1
  rw [h1]
  exact List.take_prefix _ _

theorem prefix_longer {p X Y : Str} (h : p <+: X ++ Y) (hl : X.length ≤ p.length) :
    X <+: p ∧ p.drop X.length <+: Y := by
  constructor
  · exact List.prefix_of_prefix_length_le (List.prefix_append X Y) h hl
  · obtain ⟨t, ht⟩ := h
    have h2 : p.drop X.length ++ t = Y := by
      have := congrArg (List.drop X.length) ht
      rw [List.drop_append_of_le_length hl, List.drop_left] at this
      exact this
    exact ⟨t, h2⟩

theorem replaceAll_noOccur {pat s rep : Str} (hp : pat ≠ []) (h : ¬ pat <:+: s) :
    replaceAll s pat rep = s := by
  induction s with
  | nil =>
    rw [replaceAll_nil, if_neg (by simpa [List.isEmpty_iff] using hp)]
  | cons c rest ih =>
    cases hpre : pat.isPrefixOf (c :: rest) with
    | true =>
      exact absurd (List.isPrefixOf_iff_prefix.1 hpre).isInfix h
    | false =>
      rw [replaceAll_cons_neg hpre]
      rw [ih (fun hc => h (List.infix_cons hc))]

theorem replaceAll_split (pat rep : Str) (hp : pat ≠ []) :
    ∀ (n : Nat) (A B : Str), A.length ≤ n →
      (∀ i, i < A.length → occursAt pat (A ++ B) i → i + pat.length ≤ A.length) →
      replaceAll (A ++ B) pat rep = replaceAll A pat rep ++ replaceAll B pat rep := by
  intro n
  induction n with
  | zero =>
    intro A B hA _
    have : A = [] := List.length_eq_zero.1 (by omega)
    subst this
    rw [List.nil_append, replaceAll_nil, if_neg (by simpa [List.isEmpty_iff] using hp),
      List.nil_append]
  | succ n ih =>
    intro A B hA hyp
    cases A with
    | nil =>
      rw [List.nil_append, replaceAll_nil, if_neg (by simpa [List.isEmpty_iff] using hp),
        List.nil_append]
    | cons c A2 =>
      cases hpre : pat.isPrefixOf (c :: A2 ++ B) with
      | true =>
        have hpn : 0 < pat.length := List.length_pos.2 hp
        have hocc : occursAt pat ((c :: A2) ++ B) 0 :=
          occursAt_zero.2 (List.isPrefixOf_iff_prefix.1 hpre)
        have hlen : pat.length ≤ (c :: A2).length := by
          have := hyp 0 (by simp) hocc
          omega
        have hpA : pat <+: (c :: A2) :=
          prefix_shorten (List.isPrefixOf_iff_prefix.1 hpre) hlen
        have hpAB : pat <+: (c :: A2) ++ B := List.isPrefixOf_iff_prefix.1 hpre
        have hABsplit : (c :: A2) ++ B = pat ++ ((c :: A2).drop pat.length ++ B) := by
          conv_lhs => rw [← List.take_append_drop pat.length (c :: A2)]
          rw [List.append_assoc]
          congr 1
          rw [← List.prefix_iff_eq_take.1 hpA]
        have hshift : ∀ i, i < ((c :: A2).drop pat.length).length →
            occursAt pat ((c :: A2).drop pat.length ++ B) i →
            i + pat.length ≤ ((c :: A2).drop pat.length).length := by
          intro i hi hocc2
          have hocc3 : occursAt pat ((c :: A2) ++ B) (i + pat.length) := by
            unfold occursAt at hocc2 ⊢
            rw [hABsplit, show i + pat.length = pat.length + i by omega, List.drop_append]
            exact hocc2
          have := hyp (i + pat.length) (by rw [List.length_drop] at hi; omega) hocc3
          rw [List.length_drop] at hi ⊢
          omega
        rw [replaceAll_head hp hpAB, replaceAll_head hp hpA,
          List.drop_append_of_le_length hlen,
          ih ((c :: A2).drop pat.length) B
            (by rw [List.length_drop]; simp only [List.length_cons] at hA ⊢; omega) hshift,
          List.append_assoc]
      | false =>
        have hpre2 : pat.isPrefixOf (c :: A2) = false := by
          cases hpre2 : pat.isPrefixOf (c :: A2) with
          | false => rfl
          | true =>
            obtain ⟨t, ht⟩ := List.isPrefixOf_iff_prefix.1 hpre2
            have : pat <+: (c :: A2) ++ B := ⟨t ++ B, by rw [← List.append_assoc, ht]⟩
            rw [List.isPrefixOf_iff_prefix.2 this] at hpre
            exact absurd hpre (by simp)
        rw [show (c :: A2) ++ B = c :: (A2 ++ B) from rfl] at hpre ⊢
        rw [replaceAll_cons_neg hpre, replaceAll_cons_neg hpre2]
        rw [ih A2 B (by simp at hA; omega) ?_]
        · rw [List.cons_append]
        · intro i hi hocc
          have := hyp (i + 1) (by simp; omega) (by
            rw [show (c :: A2) ++ B = c :: (A2 ++ B) from rfl]
            exact occursAt_cons_succ.2 hocc)
          simp at this ⊢
          omega

/-! ## Splitting along pattern occurrences (round-trip support) -/

theorem intercalate_one (sep a : Str) : List.intercalate sep [a] = a := by
  simp [List.intercalate]

theorem intercalate_two (sep a b : Str) (t : List Str) :
    List.intercalate sep (a :: b :: t) = a ++ sep ++ List.intercalate sep (b :: t) := by
  simp [List.intercalate, List.intersperse_cons_cons]

theorem intercalate_consHead (sep : Str) (c : Char) (g : Str) (gs : List Str) :
    List.intercalate sep ((c :: g) :: gs) = c :: List.intercalate sep (g :: gs) := by
  cases gs with
  | nil => rw [intercalate_one, intercalate_one]
  | cons b t => rw [intercalate_two, intercalate_two]; rfl

theorem spf_ne_nil (pat : Str) : ∀ (fuel : Nat) (s : Str), splitByPatF pat fuel s ≠ [] := by
  intro fuel s
  match fuel, s with
  | 0, s => simp [splitByPatF]
  | _+1, [] => simp [splitByPatF]
  | fuel+1, c :: rest =>
    unfold splitByPatF
    split
    · simp
    · split <;> simp

theorem spf_intercalate_self {pat : Str} (hp : pat ≠ []) :
    ∀ (fuel : Nat) (s : Str), s.length ≤ fuel →
      List.intercalate pat (splitByPatF pat fuel s) = s := by
  intro fuel
  induction fuel with
  | zero =>
    intro s hs
    have : s = [] := List.length_eq_zero.1 (by omega)
    subst this
    rw [show splitByPatF pat 0 [] = [[]] from rfl, intercalate_one]
  | succ fuel ih =>
    intro s hs
    cases s with
    | nil => rw [show splitByPatF pat (fuel+1) [] = [[]] from rfl, intercalate_one]
    | cons c rest =>
      unfold splitByPatF
      cases hpre : pat.isPrefixOf (c :: rest) with
      | true =>
        rw [if_pos (by simp [hpre, List.isEmpty_iff, hp])]
        obtain ⟨g, gs, hgs⟩ : ∃ g gs,
            splitByPatF pat fuel (rest.drop (pat.length - 1)) = g :: gs := by
          cases hsp : splitByPatF pat fuel (rest.drop (pat.length - 1)) with
          | nil => exact absurd hsp (spf_ne_nil pat _ _)
          | cons g gs => exact ⟨g, gs, rfl⟩
        rw [hgs, intercalate_two, List.nil_append, ← hgs,
          ih _ (by rw [List.length_drop]; simp at hs; omega)]
        obtain ⟨t, ht⟩ := List.isPrefixOf_iff_prefix.1 hpre
        cases pat with
        | nil => exact absurd rfl hp
        | cons p0 ptail =>
          have hdrop : rest.drop ((p0 :: ptail).length - 1) = t := by
            have h2 := congrArg (List.drop (p0 :: ptail).length) ht
            rw [List.drop_left] at h2
            simpa using h2.symm
          rw [hdrop, ht]
      | false =>
        rw [if_neg (by simp [hpre])]
        obtain ⟨g, gs, hgs⟩ : ∃ g gs, splitByPatF pat fuel rest = g :: gs := by
          cases hsp : splitByPatF pat fuel rest with
          | nil => exact absurd hsp (spf_ne_nil pat _ _)
          | cons g gs => exact ⟨g, gs, rfl⟩
        rw [hgs, intercalate_consHead, ← hgs, ih _ (by simp at hs; omega)]

theorem spf_intercalate_rep {pat : Str} (hp : pat ≠ []) (rep : Str) :
    ∀ (fuel : Nat) (s : Str), s.length ≤ fuel →
      List.intercalate rep (splitByPatF pat fuel s) = replaceAllF pat rep fuel s := by
  intro fuel
  induction fuel with
  | zero =>
    intro s hs
    have : s = [] := List.length_eq_zero.1 (by omega)
    subst this
    rw [show splitByPatF pat 0 [] = [[]] from rfl, intercalate_one, rAF_nil,
      if_neg (by simpa [List.isEmpty_iff] using hp)]
  | succ fuel ih =>
    intro s hs
    cases s with
    | nil =>
      rw [show splitByPatF pat (fuel+1) [] = [[]] from rfl, intercalate_one, rAF_nil,
        if_neg (by simpa [List.isEmpty_iff] using hp)]
    | cons c rest =>
      unfold splitByPatF
      cases hpre : pat.isPrefixOf (c :: rest) with
      | true =>
        rw [if_pos (by simp [hpre, List.isEmpty_iff, hp])]
        obtain ⟨g, gs, hgs⟩ : ∃ g gs,
            splitByPatF pat fuel (rest.drop (pat.length - 1)) = g :: gs := by
          cases hsp : splitByPatF pat fuel (rest.drop (pat.length - 1)) with
          | nil => exact absurd hsp (spf_ne_nil pat _ _)
          | cons g gs => exact ⟨g, gs, rfl⟩
        rw [hgs, intercalate_two, List.nil_append, ← hgs,
          ih _ (by rw [List.length_drop]; simp at hs; omega)]
        cases pat with
        | nil => exact absurd rfl hp
        | cons p0 ptail =>
          rw [rAF_pos (by simp) hpre]
      | false =>
        rw [if_neg (by simp [hpre])]
        obtain ⟨g, gs, hgs⟩ : ∃ g gs, splitByPatF pat fuel rest = g :: gs := by
          cases hsp : splitByPatF pat fuel rest with
          | nil => exact absurd hsp (spf_ne_nil pat _ _)
          | cons g gs => exact ⟨g, gs, rfl⟩
        rw [hgs, intercalate_consHead, ← hgs, ih _ (by simp at hs; omega), rAF_neg hpre]

theorem splitByPat_self {pat : Str} (hp : pat ≠ []) (s : Str) :
    List.intercalate pat (splitByPat s pat) = s :=
  spf_intercalate_self hp s.length s le_rfl

theorem splitByPat_rep {pat : Str} (hp : pat ≠ []) (rep s : Str) :
    List.intercalate rep (splitByPat s pat) = replaceAll s pat rep :=
  spf_intercalate_rep hp rep s.length s le_rfl

theorem spf_pieces (pat : Str) :
    ∀ (fuel : Nat) (s : Str) (g : Str) (gs : List Str),
      splitByPatF pat fuel s = g :: gs → g <+: s ∧ ∀ u ∈ gs, u <:+: s := by
  intro fuel
  induction fuel with
  | zero =>
    intro s g gs h
    rw [show splitByPatF pat 0 s = [s] from rfl] at h
    injection h with h1 h2
    subst h1
    subst h2
    exact ⟨List.prefix_refl _, by simp⟩
  | succ fuel ih =>
    intro s g gs h
    cases s with
    | nil =>
      rw [show splitByPatF pat (fuel+1) [] = [[]] from rfl] at h
      injection h with h1 h2
      subst h1
      subst h2
      exact ⟨List.nil_prefix, by simp⟩
    | cons c rest =>
      unfold splitByPatF at h
      by_cases hpre : (pat.isPrefixOf (c :: rest) && !pat.isEmpty) = true
      · rw [if_pos hpre] at h
        injection h with h1 h2
        constructor
        · rw [← h1]; exact List.nil_prefix
        · intro u hu
          rw [← h2] at hu
          cases hsp : splitByPatF pat fuel (rest.drop (pat.length - 1)) with
          | nil => exact absurd hsp (spf_ne_nil pat _ _)
          | cons g2 gs2 =>
            rw [hsp] at hu
            have hrs : (rest.drop (pat.length - 1)) <:+: (c :: rest) :=
              ((List.drop_suffix _ _).trans (List.suffix_cons c rest)).isInfix
            rcases List.mem_cons.1 hu with rfl | hu2
            · exact ((ih _ _ _ hsp).1.isInfix).trans hrs
            · exact ((ih _ _ _ hsp).2 u hu2).trans hrs
      · rw [if_neg hpre] at h
        cases hsp : splitByPatF pat fuel rest with
        | nil => exact absurd hsp (spf_ne_nil pat _ _)
        | cons g2 gs2 =>
          rw [hsp] at h
          injection h with h1 h2
          constructor
          · rw [← h1]
            exact List.cons_prefix_cons.2 ⟨rfl, (ih _ _ _ hsp).1⟩
          · intro u hu
            rw [← h2] at hu
            exact List.infix_cons ((ih _ _ _ hsp).2 u hu)

theorem splitByPat_pieceWithin {s pat u : Str} (h : u ∈ splitByPat s pat) : u <:+: s := by
  cases hsp : splitByPat s pat with
  | nil => rw [hsp] at h; exact absurd h (List.not_mem_nil u)
  | cons g gs =>
    rw [hsp] at h
    rcases List.mem_cons.1 h with hug | h2
    · rw [hug]
      exact (spf_pieces pat s.length s g gs hsp).1.isInfix
    · exact (spf_pieces pat s.length s g gs hsp).2 u h2

theorem splitByPat_ne_nil (s pat : Str) : splitByPat s pat ≠ [] := spf_ne_nil pat s.length s

/-! ## Extraction of the collision-freeness conditions -/

theorem straddleFree1_sf {text c q : Str} (h : straddleFree1 text c q = true) :
    SF1 text c q := by
  intro m hm0 hmc hpre hlen hinf
  have ha := List.all_eq_true.1 h m (List.mem_range.2 hmc)
  rw [if_neg (by omega)] at ha
  rw [List.isPrefixOf_iff_prefix.2 hpre, decide_eq_true hlen, decide_eq_true hinf] at ha
  simp at ha

theorem straddleFree2_sf {text c q : Str} (h : straddleFree2 text c q = true) :
    SF2 text c q := by
  intro m hm0 hmc hmq heq hinf
  have ha := List.all_eq_true.1 h m (List.mem_range.2 hmc)
  rw [if_neg (by omega)] at ha
  rw [decide_eq_true hmq, beq_iff_eq.2 heq, decide_eq_true hinf] at ha
  simp at ha

theorem straddleFree3_sf {text c q r : Str} (h : straddleFree3 text c q r = true) :
    SF3 text c q r := by
  intro m j hm0 hmj hmq heq hinf hpre hlen
  have ha := List.all_eq_true.1 h m (List.mem_range.2 (by omega))
  rw [if_neg (by omega)] at ha
  have hb := List.all_eq_true.1 ha j (List.mem_range.2 (by omega))
  rw [decide_eq_true hmq, beq_iff_eq.2 heq, decide_eq_true hinf,
    List.isPrefixOf_iff_prefix.2 hpre, decide_eq_true hlen] at hb
  simp at hb

theorem collisionFree_facts {text : Str} {entries : List (Str × MapEntry)}
    (h : collisionFree text entries = true) :
    (∀ n ∈ entries.map Prod.fst, n ≠ []) ∧
    (∀ p ∈ entries.map (fun kv => kv.2.pseudonym), p ≠ [] ∧ ¬ (p <:+: text)) ∧
    (∀ n ∈ entries.map Prod.fst, ∀ p ∈ entries.map (fun kv => kv.2.pseudonym), n ≠ p) ∧
    (entries.map (fun kv => kv.2.pseudonym)).Nodup ∧
    (∀ c ∈ entries.map Prod.fst ++ entries.map (fun kv => kv.2.pseudonym),
      CFc text (entries.map (fun kv => kv.2.pseudonym)) c) := by
  unfold collisionFree at h
  simp only [Bool.and_eq_true] at h
  obtain ⟨⟨⟨⟨h1, h2⟩, h3⟩, h4⟩, h5⟩ := h
  have hn : ∀ n ∈ entries.map Prod.fst, n ≠ [] := by
    intro n hn hne
    have := List.all_eq_true.1 h1 n hn
    rw [hne] at this
    simp at this
  have hp : ∀ p ∈ entries.map (fun kv => kv.2.pseudonym), p ≠ [] ∧ ¬ (p <:+: text) := by
    intro p hpm
    have := List.all_eq_true.1 h2 p hpm
    rw [Bool.and_eq_true] at this
    constructor
    · intro hne
      have h0 := this.1
      rw [hne] at h0
      simp at h0
    · intro hinf
      have h0 := this.2
      rw [decide_eq_true hinf] at h0
      simp at h0
  refine ⟨hn, hp, ?_, of_decide_eq_true h4, ?_⟩
  · intro n hnm p hpm
    have := List.all_eq_true.1 (List.all_eq_true.1 h3 n hnm) p hpm
    simpa using this
  · intro c hc
    refine ⟨?_, ?_⟩
    · rcases List.mem_append.1 hc with hcm | hcm
      · exact hn c hcm
      · exact (hp c hcm).1
    · intro q hq
      have ha := List.all_eq_true.1 (List.all_eq_true.1 h5 c hc) q hq
      simp only [Bool.and_eq_true] at ha
      obtain ⟨⟨⟨⟨ha1, ha2⟩, ha3⟩, ha4⟩, ha5⟩ := ha
      refine ⟨(hp q hq).1, ?_, ?_, straddleFree1_sf ha3, straddleFree2_sf ha4, ?_⟩
      · rcases Bool.or_eq_true_iff.1 ha1 with he | he
        · exact Or.inl (by simpa using he)
        · refine Or.inr ?_
          intro hinf
          rw [decide_eq_true hinf] at he
          simp at he
      · rcases Bool.or_eq_true_iff.1 ha2 with he | he
        · exact Or.inl (by simpa using he)
        · refine Or.inr ?_
          intro hinf
          rw [decide_eq_true hinf] at he
          simp at he
      · intro r hr
        exact straddleFree3_sf (List.all_eq_true.1 ha5 r hr)

/-! ## Occurrence localization inside a pseudonymized sentence -/

theorem replaceAll_self {c : Str} (hc : c ≠ []) (rep : Str) :
    replaceAll c c rep = rep := by
  rw [replaceAll_head hc (List.prefix_refl c), List.drop_length, replaceAll_nil,
    if_neg (by simpa [List.isEmpty_iff] using hc), List.append_nil]

theorem occ_in_gap {text c q g R : Str}
    (hcq4 : q = c ∨ ¬ q <:+: c) (hsf1 : SF1 text c q) (hgt : g <:+: text)
    {i : Nat} (hi : i < g.length) (hocc : occursAt c (g ++ (q ++ R)) i) :
    i + c.length ≤ g.length := by
  by_contra hcon
  push_neg at hcon
  have hm0 : 0 < g.length - i := by omega
  have hmc : g.length - i < c.length := by omega
  have hocc2 : c <+: (g.drop i) ++ (q ++ R) := by
    unfold occursAt at hocc
    rwa [List.drop_append_of_le_length (le_of_lt hi)] at hocc
  have hlen : (g.drop i).length ≤ c.length := by
    rw [List.length_drop]; omega
  obtain ⟨hgp, hcd⟩ := prefix_longer hocc2 hlen
  have htake : c.take (g.length - i) = g.drop i := by
    have h1 := List.prefix_iff_eq_take.1 hgp
    rw [List.length_drop] at h1
    exact h1.symm
  have htinf : c.take (g.length - i) <:+: text := by
    rw [htake]
    exact (List.drop_suffix i g).isInfix.trans hgt
  have hcd2 : c.drop (g.length - i) <+: q ++ R := by
    rwa [List.length_drop] at hcd
  by_cases hsmall : c.length - (g.length - i) < q.length
  · have hpq : c.drop (g.length - i) <+: q :=
      prefix_shorten hcd2 (by rw [List.length_drop]; omega)
    exact hsf1 (g.length - i) hm0 hmc hpq hsmall htinf
  · push_neg at hsmall
    have hql : q.length ≤ (c.drop (g.length - i)).length := by
      rw [List.length_drop]; omega
    obtain ⟨hqp, _⟩ := prefix_longer hcd2 hql
    have hqinf : q <:+: c := hqp.isInfix.trans (List.drop_suffix _ _).isInfix
    rcases hcq4 with he | he
    · rw [he] at hsmall
      omega
    · exact he hqinf

theorem occ_in_slot {c q R : Str}
    (hcq3 : c = q ∨ ¬ c <:+: q) (hcq4 : q = c ∨ ¬ q <:+: c)
    (hblock : ∀ m, 0 < m → m < c.length → m < q.length →
      c.take m = q.drop (q.length - m) → c.drop m <+: R → False)
    {i : Nat} (hi : i < q.length) (hocc : occursAt c (q ++ R) i) :
    c = q ∧ i = 0 := by
  have hocc2 : c <+: (q.drop i) ++ R := by
    unfold occursAt at hocc
    rwa [List.drop_append_of_le_length (le_of_lt hi)] at hocc
  by_cases hsmall : c.length ≤ q.length - i
  · have hpq : c <+: q.drop i := prefix_shorten hocc2 (by rw [List.length_drop]; omega)
    have hcinf : c <:+: q := hpq.isInfix.trans (List.drop_suffix i q).isInfix
    rcases hcq3 with he | he
    · subst he
      exact ⟨rfl, by omega⟩
    · exact absurd hcinf he
  · push_neg at hsmall
    have hql : (q.drop i).length ≤ c.length := by rw [List.length_drop]; omega
    obtain ⟨hqp, hcd⟩ := prefix_longer hocc2 hql
    by_cases hi0 : i = 0
    · subst hi0
      rw [List.drop_zero] at hqp
      rcases hcq4 with he | he
      · rw [he] at hsmall
        omega
      · exact absurd hqp.isInfix he
    · exfalso
      have hm0 : 0 < q.length - i := by omega
      have htake : c.take (q.length - i) = q.drop i := by
        have h1 := List.prefix_iff_eq_take.1 hqp
        rw [List.length_drop] at h1
        exact h1.symm
      have htake2 : c.take (q.length - i) = q.drop (q.length - (q.length - i)) := by
        rw [htake]
        congr 1
        omega
      have hcd2 : c.drop (q.length - i) <+: R := by
        rwa [List.length_drop] at hcd
      exact hblock (q.length - i) hm0 (by omega) (by omega) htake2 hcd2

theorem block_tail {text c q R : Str} (hsf2 : SF2 text c q) (hRt : R <:+: text) :
    ∀ m, 0 < m → m < c.length → m < q.length →
      c.take m = q.drop (q.length - m) → c.drop m <+: R → False := by
  intro m hm0 hmc hmq heq hpre
  exact hsf2 m hm0 hmc hmq heq (hpre.isInfix.trans hRt)

theorem block_next {text c q g2 q2 R2 : Str}
    (hsf2 : SF2 text c q) (hsf3 : SF3 text c q q2)
    (hcq4' : q2 = c ∨ ¬ q2 <:+: c) (hg2 : g2 <:+: text) :
    ∀ m, 0 < m → m < c.length → m < q.length →
      c.take m = q.drop (q.length - m) → c.drop m <+: g2 ++ (q2 ++ R2) → False := by
  intro m hm0 hmc hmq heq hpre
  by_cases hsmall : c.length - m ≤ g2.length
  · have hp2 : c.drop m <+: g2 := prefix_shorten hpre (by rw [List.length_drop]; omega)
    exact hsf2 m hm0 hmc hmq heq (hp2.isInfix.trans hg2)
  · push_neg at hsmall
    have hgl : g2.length ≤ (c.drop m).length := by rw [List.length_drop]; omega
    obtain ⟨hgp, hcd⟩ := prefix_longer hpre hgl
    have htk : (c.drop m).take g2.length <:+: text := by
      rw [← List.prefix_iff_eq_take.1 hgp]
      exact hg2
    have hcd2 : c.drop (m + g2.length) <+: q2 ++ R2 := by
      rw [← List.drop_drop]
      exact hcd
    by_cases h2 : c.length - (m + g2.length) < q2.length
    · have hp3 : c.drop (m + g2.length) <+: q2 :=
        prefix_shorten hcd2 (by rw [List.length_drop]; omega)
      exact hsf3 m g2.length hm0 (by omega) hmq heq htk hp3 h2
    · push_neg at h2
      have hql : q2.length ≤ (c.drop (m + g2.length)).length := by
        rw [List.length_drop]; omega
      obtain ⟨hq2p, _⟩ := prefix_longer hcd2 hql
      have hq2inf : q2 <:+: c := hq2p.isInfix.trans (List.drop_suffix _ _).isInfix
      rcases hcq4' with he | he
      · rw [he] at h2
        omega
      · exact he hq2inf

/-! ## The literal-replacement pass on a sentence -/

theorem passSplit {text : Str} {P : List Str} {c : Str} (rep : Str)
    (hcf : CFc text P c) :
    ∀ (segs : List (Str × SlotInfo)) (tl : Str),
      (∀ ws ∈ segs, ws.1 <:+: text ∧ ws.2.pseud ∈ P) → tl <:+: text →
      replaceAll (joinCur ⟨segs, tl⟩) c rep =
        (segs.map (fun ws => replaceAll ws.1 c rep ++
          (if ws.2.pseud = c then rep else ws.2.pseud))).flatten
          ++ replaceAll tl c rep := by
  intro segs
  induction segs with
  | nil =>
    intro tl _ _
    simp [joinCur]
  | cons ws rest ih =>
    intro tl hsegs htl
    obtain ⟨hc, hq⟩ := hcf
    obtain ⟨hg, hqp⟩ := hsegs ws (List.mem_cons_self _ _)
    obtain ⟨hqne, hcq3, hcq4, hsf1, hsf2, hsf3all⟩ := hq ws.2.pseud hqp
    have hJ : joinCur ⟨ws :: rest, tl⟩ = (ws.1 ++ ws.2.pseud) ++ joinCur ⟨rest, tl⟩ := by
      simp [joinCur]
    have hblockR : ∀ m, 0 < m → m < c.length → m < ws.2.pseud.length →
        c.take m = ws.2.pseud.drop (ws.2.pseud.length - m) →
        c.drop m <+: joinCur ⟨rest, tl⟩ → False := by
      cases rest with
      | nil =>
        have hjn : joinCur ⟨[], tl⟩ = tl := by simp [joinCur]
        rw [hjn]
        exact block_tail hsf2 htl
      | cons ws2 rest2 =>
        have hJ2 : joinCur ⟨ws2 :: rest2, tl⟩ =
            ws2.1 ++ (ws2.2.pseud ++ joinCur ⟨rest2, tl⟩) := by
          simp [joinCur]
        rw [hJ2]
        obtain ⟨hg2, hq2p⟩ := hsegs ws2 (List.mem_cons_of_mem _ (List.mem_cons_self _ _))
        obtain ⟨_, _, hcq4b, _, _, _⟩ := hq ws2.2.pseud hq2p
        exact block_next hsf2 (hsf3all ws2.2.pseud hq2p) hcq4b hg2
    have hsplit1 : ∀ i, i < (ws.1 ++ ws.2.pseud).length →
        occursAt c ((ws.1 ++ ws.2.pseud) ++ joinCur ⟨rest, tl⟩) i →
        i + c.length ≤ (ws.1 ++ ws.2.pseud).length := by
      intro i hi hocc
      rw [List.append_assoc] at hocc
      by_cases higap : i < ws.1.length
      · have hb := occ_in_gap hcq4 hsf1 hg higap hocc
        rw [List.length_append]
        omega
      · push_neg at higap
        have hiq : i - ws.1.length < ws.2.pseud.length := by
          rw [List.length_append] at hi
          omega
        have hocc2 : occursAt c (ws.2.pseud ++ joinCur ⟨rest, tl⟩) (i - ws.1.length) := by
          unfold occursAt at hocc ⊢
          rw [show i = ws.1.length + (i - ws.1.length) by omega, List.drop_append] at hocc
          exact hocc
        obtain ⟨hceq, hizero⟩ := occ_in_slot hcq3 hcq4 hblockR hiq hocc2
        rw [List.length_append, hceq]
        omega
    have hsplit2 : ∀ i, i < ws.1.length →
        occursAt c (ws.1 ++ ws.2.pseud) i → i + c.length ≤ ws.1.length := by
      intro i hi hocc
      have hocc2 : occursAt c (ws.1 ++ (ws.2.pseud ++ joinCur ⟨rest, tl⟩)) i := by
        unfold occursAt at hocc ⊢
        rw [← List.append_assoc,
          List.drop_append_of_le_length (by rw [List.length_append]; omega)]
        exact hocc.trans (List.prefix_append _ _)
      exact occ_in_gap hcq4 hsf1 hg hi hocc2
    rw [hJ, replaceAll_split c rep hc ((ws.1 ++ ws.2.pseud).length) _ _ le_rfl hsplit1,
      replaceAll_split c rep hc ws.1.length ws.1 ws.2.pseud le_rfl hsplit2,
      ih tl (fun w hw => hsegs w (List.mem_cons_of_mem _ hw)) htl]
    rw [List.map_cons, List.flatten_cons]
    by_cases hceq : ws.2.pseud = c
    · rw [if_pos hceq, hceq, replaceAll_self hc]
      simp [List.append_assoc]
    · rw [if_neg hceq]
      have hnoinf : ¬ c <:+: ws.2.pseud := by
        rcases hcq3 with he | he
        · exact absurd he.symm hceq
        · exact he
      rw [replaceAll_noOccur hc hnoinf]
      simp [List.append_assoc]

/-! ## The second literal pass as a sentence transformation -/

theorem expandGapSegs_join (f : SlotInfo → Str) (np s : SlotInfo) :
    ∀ us : List Str, us ≠ [] →
      ((expandGapSegs np s us).map (fun ws => ws.1 ++ f ws.2)).flatten =
        List.intercalate (f np) us ++ f s := by
  intro us
  induction us with
  | nil => intro h; exact absurd rfl h
  | cons u vrest ih =>
    intro _
    cases vrest with
    | nil =>
      simp [expandGapSegs, intercalate_one]
    | cons v rest2 =>
      rw [show expandGapSegs np s (u :: v :: rest2)
          = (u, np) :: expandGapSegs np s (v :: rest2) from rfl]
      rw [List.map_cons, List.flatten_cons, ih (by simp), intercalate_two]
      simp [List.append_assoc]

theorem expandTailSegs_join (f : SlotInfo → Str) (np : SlotInfo) :
    ∀ us : List Str, us ≠ [] →
      (((expandTailSegs np us).1).map (fun ws => ws.1 ++ f ws.2)).flatten
          ++ (expandTailSegs np us).2 =
        List.intercalate (f np) us := by
  intro us
  induction us with
  | nil => intro h; exact absurd rfl h
  | cons u vrest ih =>
    intro _
    cases vrest with
    | nil => simp [expandTailSegs, intercalate_one]
    | cons v rest2 =>
      rw [show expandTailSegs np (u :: v :: rest2)
          = ((u, np) :: (expandTailSegs np (v :: rest2)).1,
             (expandTailSegs np (v :: rest2)).2) from rfl]
      simp only [List.map_cons, List.flatten_cons, List.append_assoc]
      rw [ih (by simp), intercalate_two]
      simp [List.append_assoc]

theorem expandSent_join (f : SlotInfo → Str) (n p : Str) :
    ∀ (segs : List (Str × SlotInfo)) (tl : Str),
      (((expandSent ⟨segs, tl⟩ n p).segs).map (fun ws => ws.1 ++ f ws.2)).flatten
          ++ (expandSent ⟨segs, tl⟩ n p).tail =
        (segs.map (fun ws =>
          List.intercalate (f ⟨n, p⟩) (splitByPat ws.1 n) ++ f ws.2)).flatten
          ++ List.intercalate (f ⟨n, p⟩) (splitByPat tl n) := by
  intro segs
  induction segs with
  | nil =>
    intro tl
    simp only [expandSent, List.map_nil, List.flatten_nil, List.nil_append]
    exact expandTailSegs_join f ⟨n, p⟩ (splitByPat tl n) (splitByPat_ne_nil tl n)
  | cons ws rest ih =>
    intro tl
    have hsegs : (expandSent ⟨ws :: rest, tl⟩ n p).segs =
        expandGapSegs ⟨n, p⟩ ws.2 (splitByPat ws.1 n) ++ (expandSent ⟨rest, tl⟩ n p).segs := by
      simp [expandSent, List.append_assoc]
    have htail : (expandSent ⟨ws :: rest, tl⟩ n p).tail = (expandSent ⟨rest, tl⟩ n p).tail := by
      simp [expandSent]
    rw [hsegs, htail, List.map_append, List.flatten_append, List.append_assoc, ih tl,
      List.map_cons, List.flatten_cons,
      expandGapSegs_join f ⟨n, p⟩ ws.2 (splitByPat ws.1 n) (splitByPat_ne_nil _ _)]
    simp [List.append_assoc]

theorem expandGapSegs_mem (np s : SlotInfo) :
    ∀ us ws, ws ∈ expandGapSegs np s us →
      (ws.1 ∈ us ∨ ws.1 = []) ∧ (ws.2 = np ∨ ws.2 = s) := by
  intro us
  induction us with
  | nil =>
    intro ws h
    have hv : ws = ([], s) := by simpa [expandGapSegs] using h
    rw [hv]
    exact ⟨Or.inr rfl, Or.inr rfl⟩
  | cons u vrest ih =>
    intro ws h
    cases vrest with
    | nil =>
      have hv : ws = (u, s) := by simpa [expandGapSegs] using h
      rw [hv]
      exact ⟨Or.inl (by simp), Or.inr rfl⟩
    | cons v rest2 =>
      rw [show expandGapSegs np s (u :: v :: rest2)
          = (u, np) :: expandGapSegs np s (v :: rest2) from rfl] at h
      rcases List.mem_cons.1 h with rfl | h2
      · exact ⟨Or.inl (by simp), Or.inl rfl⟩
      · obtain ⟨h1, h2'⟩ := ih ws h2
        refine ⟨?_, h2'⟩
        rcases h1 with hm | hm
        · exact Or.inl (List.mem_cons_of_mem _ hm)
        · exact Or.inr hm

theorem expandTailSegs_mem (np : SlotInfo) :
    ∀ us, (∀ ws ∈ (expandTailSegs np us).1, ws.1 ∈ us ∧ ws.2 = np) ∧
      ((expandTailSegs np us).2 ∈ us ∨ (expandTailSegs np us).2 = []) := by
  intro us
  induction us with
  | nil =>
    refine ⟨?_, Or.inr rfl⟩
    intro ws h
    exact absurd h (by simp [expandTailSegs])
  | cons u vrest ih =>
    cases vrest with
    | nil =>
      refine ⟨?_, ?_⟩
      · intro ws h
        exact absurd h (by simp [expandTailSegs])
      · exact Or.inl (by simp [expandTailSegs])
    | cons v rest2 =>
      refine ⟨?_, ?_⟩
      · intro ws h
        rw [show (expandTailSegs np (u :: v :: rest2)).1
            = (u, np) :: (expandTailSegs np (v :: rest2)).1 from rfl] at h
        rcases List.mem_cons.1 h with rfl | h2
        · exact ⟨by simp, rfl⟩
        · obtain ⟨h1, h2'⟩ := ih.1 ws h2
          exact ⟨List.mem_cons_of_mem _ h1, h2'⟩
      · rw [show (expandTailSegs np (u :: v :: rest2)).2
            = (expandTailSegs np (v :: rest2)).2 from rfl]
        rcases ih.2 with hm | hm
        · exact Or.inl (List.mem_cons_of_mem _ hm)
        · exact Or.inr hm

theorem expandSent_wf {text : Str} {segs : List (Str × SlotInfo)} {tl n p : Str}
    (hsegs : ∀ ws ∈ segs, ws.1 <:+: text) (htl : tl <:+: text) :
    (∀ ws ∈ (expandSent ⟨segs, tl⟩ n p).segs,
       ws.1 <:+: text ∧ (ws.2 = ⟨n, p⟩ ∨ ∃ w0 ∈ segs, ws.2 = w0.2)) ∧
    (expandSent ⟨segs, tl⟩ n p).tail <:+: text := by
  constructor
  · intro ws hws
    have hm : ws ∈ (segs.map
        (fun w0 => expandGapSegs ⟨n, p⟩ w0.2 (splitByPat w0.1 n))).flatten
        ∨ ws ∈ (expandTailSegs ⟨n, p⟩ (splitByPat tl n)).1 := by
      have : (expandSent ⟨segs, tl⟩ n p).segs =
          (segs.map (fun w0 => expandGapSegs ⟨n, p⟩ w0.2 (splitByPat w0.1 n))).flatten
          ++ (expandTailSegs ⟨n, p⟩ (splitByPat tl n)).1 := rfl
      rw [this] at hws
      exact List.mem_append.1 hws
    rcases hm with hm | hm
    · obtain ⟨l, hl, hwl⟩ := List.mem_flatten.1 hm
      obtain ⟨w0, hw0, he⟩ := List.mem_map.1 hl
      rw [← he] at hwl
      obtain ⟨h1, h2⟩ := expandGapSegs_mem _ _ _ ws hwl
      constructor
      · rcases h1 with hp1 | hp1
        · exact (splitByPat_pieceWithin hp1).trans (hsegs w0 hw0)
        · rw [hp1]; exact List.nil_infix
      · rcases h2 with hp2 | hp2
        · exact Or.inl hp2
        · exact Or.inr ⟨w0, hw0, hp2⟩
    · obtain ⟨h1, h2⟩ := (expandTailSegs_mem ⟨n, p⟩ (splitByPat tl n)).1 ws hm
      exact ⟨(splitByPat_pieceWithin h1).trans htl, Or.inl h2⟩
  · have : (expandSent ⟨segs, tl⟩ n p).tail =
        (expandTailSegs ⟨n, p⟩ (splitByPat tl n)).2 := rfl
    rw [this]
    rcases (expandTailSegs_mem ⟨n, p⟩ (splitByPat tl n)).2 with hm | hm
    · exact (splitByPat_pieceWithin hm).trans htl
    · rw [hm]; exact List.nil_infix

theorem dlookup_mem {β : Type} :
    ∀ {d : List (Str × β)} {k : Str} {v : β}, dlookup d k = some v → (k, v) ∈ d := by
  intro d
  induction d with
  | nil => intro k v h; exact absurd h (by simp [dlookup])
  | cons kv rest ih =>
    intro k v h
    rw [dlookup_cons] at h
    by_cases he : (kv.1 == k) = true
    · rw [if_pos he] at h
      have h1 : kv.1 = k := by simpa using he
      have h2 : kv.2 = v := by simpa using h
      have hv : (k, v) = kv := by
        rw [← h1, ← h2]
      rw [hv]
      exact List.mem_cons_self _ _
    · rw [if_neg he] at h
      exact List.mem_cons_of_mem _ (ih h)

theorem dlookup_isSome_of_mem_keys {β : Type} :
    ∀ {d : List (Str × β)} {k : Str}, k ∈ d.map Prod.fst → ∃ v, dlookup d k = some v := by
  intro d
  induction d with
  | nil => intro k h; simp at h
  | cons kv rest ih =>
    intro k h
    rw [dlookup_cons]
    by_cases he : (kv.1 == k) = true
    · exact ⟨kv.2, by rw [if_pos he]⟩
    · have h2 : k ∈ rest.map Prod.fst := by
        rw [List.map_cons] at h
        rcases List.mem_cons.1 h with h1 | h1
        · exact absurd (by simp [h1]) he
        · exact h1
      obtain ⟨v, hv⟩ := ih h2
      exact ⟨v, by rw [if_neg he]; exact hv⟩

theorem nodup_map_inj {α β : Type} (f : α → β) :
    ∀ {l : List α}, (l.map f).Nodup → ∀ {a b : α}, a ∈ l → b ∈ l → f a = f b → a = b := by
  intro l
  induction l with
  | nil => intro _ a b ha; simp at ha
  | cons x rest ih =>
    intro hnd a b ha hb hf
    rw [List.map_cons, List.nodup_cons] at hnd
    rcases List.mem_cons.1 ha with rfl | ha2
    · rcases List.mem_cons.1 hb with rfl | hb2
      · rfl
      · exact absurd (hf ▸ List.mem_map_of_mem f hb2) hnd.1
    · rcases List.mem_cons.1 hb with rfl | hb2
      · exact absurd (hf ▸ List.mem_map_of_mem f ha2) (by
          intro hc
          exact hnd.1 hc)
      · exact ih hnd.2 ha2 hb2 hf

theorem pass2_step {text : Str} {P : List Str} {n : Str} (p : Str)
    (hcf : CFc text P n) (hnP : ∀ q ∈ P, q ≠ n)
    (segs : List (Str × SlotInfo)) (tl : Str)
    (hsegs : ∀ ws ∈ segs, ws.1 <:+: text ∧ ws.2.pseud ∈ P) (htl : tl <:+: text) :
    replaceAll (joinCur ⟨segs, tl⟩) n p = joinCur (expandSent ⟨segs, tl⟩ n p) := by
  rw [passSplit p hcf segs tl hsegs htl]
  have hmap : segs.map (fun ws => replaceAll ws.1 n p ++
      (if ws.2.pseud = n then p else ws.2.pseud))
      = segs.map (fun ws => List.intercalate p (splitByPat ws.1 n) ++ ws.2.pseud) := by
    apply List.map_congr_left
    intro ws hws
    rw [if_neg (hnP ws.2.pseud (hsegs ws hws).2), ← splitByPat_rep hcf.1 p ws.1]
  rw [hmap, ← splitByPat_rep hcf.1 p tl]
  exact (expandSent_join (fun s => s.pseud) n p segs tl).symm

theorem expandSent_orig {n : Str} (hn : n ≠ []) (p : Str)
    (segs : List (Str × SlotInfo)) (tl : Str) :
    joinOrig (expandSent ⟨segs, tl⟩ n p) = joinOrig ⟨segs, tl⟩ := by
  have hj := expandSent_join (fun s => s.name) n p segs tl
  show ((expandSent ⟨segs, tl⟩ n p).segs.map (fun ws => ws.1 ++ ws.2.name)).flatten
      ++ (expandSent ⟨segs, tl⟩ n p).tail = _
  rw [hj]
  show _ ++ List.intercalate n (splitByPat tl n)
      = (segs.map (fun ws => ws.1 ++ ws.2.name)).flatten ++ tl
  rw [splitByPat_self hn tl]
  congr 1
  congr 1
  apply List.map_congr_left
  intro ws _
  show List.intercalate n (splitByPat ws.1 n) ++ ws.2.name = _
  rw [splitByPat_self hn]

theorem pass2_fold {text : Str} {entries : List (Str × MapEntry)}
    (hfacts : ∀ c ∈ entries.map Prod.fst ++ entries.map (fun kv => kv.2.pseudonym),
      CFc text (entries.map (fun kv => kv.2.pseudonym)) c)
    (hdisj : ∀ n ∈ entries.map Prod.fst,
      ∀ p ∈ entries.map (fun kv => kv.2.pseudonym), n ≠ p) :
    ∀ (names : List Str), (∀ n ∈ names, n ∈ entries.map Prod.fst) →
    ∀ (segs : List (Str × SlotInfo)) (tl : Str),
      (∀ ws ∈ segs, ws.1 <:+: text ∧ bindsIn entries ws.2.name ws.2.pseud) →
      tl <:+: text →
      ∃ S' : Sentence,
        names.foldl (fun rt real_name =>
          match dlookup entries real_name with
          | some e => replaceAll rt real_name e.pseudonym
          | none => rt) (joinCur ⟨segs, tl⟩) = joinCur S' ∧
        (∀ ws ∈ S'.segs, ws.1 <:+: text ∧ bindsIn entries ws.2.name ws.2.pseud) ∧
        S'.tail <:+: text ∧ joinOrig S' = joinOrig ⟨segs, tl⟩ := by
  intro names
  induction names with
  | nil =>
    intro _ segs tl hsegs htl
    exact ⟨⟨segs, tl⟩, rfl, hsegs, htl, rfl⟩
  | cons n names ih =>
    intro hmem segs tl hsegs htl
    rw [List.foldl_cons]
    obtain ⟨e, he⟩ := dlookup_isSome_of_mem_keys (hmem n (List.mem_cons_self _ _))
    have hsegsP : ∀ ws ∈ segs, ws.1 <:+: text ∧
        ws.2.pseud ∈ entries.map (fun kv => kv.2.pseudonym) := by
      intro ws hws
      obtain ⟨h1, e2, he2, hp2⟩ := hsegs ws hws
      refine ⟨h1, ?_⟩
      rw [← hp2]
      exact List.mem_map_of_mem _ (dlookup_mem he2)
    have hnN : n ∈ entries.map Prod.fst := hmem n (List.mem_cons_self _ _)
    have hcf : CFc text (entries.map (fun kv => kv.2.pseudonym)) n :=
      hfacts n (List.mem_append_left _ hnN)
    have hstep := pass2_step e.pseudonym hcf
      (fun q hq => Ne.symm (hdisj n hnN q hq)) segs tl hsegsP htl
    simp only [he]
    rw [hstep]
    obtain ⟨hwf1, hwf2⟩ := @expandSent_wf text segs tl n e.pseudonym
      (fun ws hws => (hsegs ws hws).1) htl
    have hslots : ∀ ws ∈ (expandSent ⟨segs, tl⟩ n e.pseudonym).segs,
        ws.1 <:+: text ∧ bindsIn entries ws.2.name ws.2.pseud := by
      intro ws hws
      obtain ⟨h1, h2⟩ := hwf1 ws hws
      refine ⟨h1, ?_⟩
      rcases h2 with hb | ⟨w0, hw0, hb⟩
      · rw [hb]
        exact ⟨e, he, rfl⟩
      · rw [hb]
        exact (hsegs w0 hw0).2
    have happ := ih (fun m hm => hmem m (List.mem_cons_of_mem _ hm))
      (expandSent ⟨segs, tl⟩ n e.pseudonym).segs
      (expandSent ⟨segs, tl⟩ n e.pseudonym).tail hslots hwf2
    obtain ⟨S', h1, h2, h3, h4⟩ := happ
    refine ⟨S', h1, h2, h3, ?_⟩
    rw [h4]
    show joinOrig (expandSent ⟨segs, tl⟩ n e.pseudonym) = _
    exact expandSent_orig hcf.1 e.pseudonym segs tl

/-! ## The deanonymize pass as a sentence restoration -/

theorem prefix_app_left {a b c : Str} (h : b <+: c) : a ++ b <+: a ++ c := by
  obtain ⟨t, ht⟩ := h
  exact ⟨t, by rw [List.append_assoc, ht]⟩

theorem restoreSegs_cons (p : Str) (ws : Str × SlotInfo) (rest : List (Str × SlotInfo))
    (tl : Str) :
    restoreSegs p (ws :: rest) tl =
      if ws.2.pseud == p then
        match (restoreSegs p rest tl).1 with
        | [] => ([], ws.1 ++ ws.2.name ++ (restoreSegs p rest tl).2)
        | w2 :: r2 => ((ws.1 ++ ws.2.name ++ w2.1, w2.2) :: r2, (restoreSegs p rest tl).2)
      else (ws :: (restoreSegs p rest tl).1, (restoreSegs p rest tl).2) := rfl

theorem restore_cur (p : Str) :
    ∀ (segs : List (Str × SlotInfo)) (tl : Str),
      ((restoreSegs p segs tl).1.map (fun ws => ws.1 ++ ws.2.pseud)).flatten
          ++ (restoreSegs p segs tl).2 =
        (segs.map (fun ws => ws.1 ++
          (if ws.2.pseud == p then ws.2.name else ws.2.pseud))).flatten ++ tl := by
  intro segs
  induction segs with
  | nil => intro tl; simp [restoreSegs]
  | cons ws rest ih =>
    intro tl
    rw [restoreSegs_cons]
    by_cases hp : (ws.2.pseud == p) = true
    · rw [if_pos hp]
      cases hr : (restoreSegs p rest tl).1 with
      | nil =>
        have ih2 := ih tl
        rw [hr] at ih2
        simp only [List.map_nil, List.flatten_nil, List.nil_append] at ih2
        simp only [List.map_nil, List.flatten_nil, List.nil_append, List.map_cons,
          List.flatten_cons, hp, if_true, ih2, List.append_assoc]
      | cons w2 r2 =>
        have ih2 := ih tl
        rw [hr] at ih2
        simp only [List.map_cons, List.flatten_cons, List.append_assoc] at ih2 ⊢
        rw [if_pos hp, ih2]
    · rw [if_neg hp]
      have ih2 := ih tl
      simp only [List.map_cons, List.flatten_cons, List.append_assoc] at ih2 ⊢
      rw [ih2, if_neg hp]

theorem restore_orig (p : Str) :
    ∀ (segs : List (Str × SlotInfo)) (tl : Str),
      ((restoreSegs p segs tl).1.map (fun ws => ws.1 ++ ws.2.name)).flatten
          ++ (restoreSegs p segs tl).2 =
        (segs.map (fun ws => ws.1 ++ ws.2.name)).flatten ++ tl := by
  intro segs
  induction segs with
  | nil => intro tl; simp [restoreSegs]
  | cons ws rest ih =>
    intro tl
    rw [restoreSegs_cons]
    by_cases hp : (ws.2.pseud == p) = true
    · rw [if_pos hp]
      cases hr : (restoreSegs p rest tl).1 with
      | nil =>
        have ih2 := ih tl
        rw [hr] at ih2
        simp only [List.map_nil, List.flatten_nil, List.nil_append] at ih2
        simp only [List.map_nil, List.flatten_nil, List.nil_append, List.map_cons,
          List.flatten_cons, ih2, List.append_assoc]
      | cons w2 r2 =>
        have ih2 := ih tl
        rw [hr] at ih2
        simp only [List.map_cons, List.flatten_cons, List.append_assoc] at ih2 ⊢
        rw [ih2]
    · rw [if_neg hp]
      have ih2 := ih tl
      simp only [List.map_cons, List.flatten_cons, List.append_assoc] at ih2 ⊢
      rw [ih2]

theorem restore_slots_mem (p : Str) :
    ∀ (segs : List (Str × SlotInfo)) (tl : Str),
      ∀ ws2 ∈ (restoreSegs p segs tl).1,
        ∃ w0 ∈ segs, ws2.2 = w0.2 ∧ w0.2.pseud ≠ p := by
  intro segs
  induction segs with
  | nil =>
    intro tl ws2 h
    simp [restoreSegs] at h
  | cons ws rest ih =>
    intro tl ws2 h
    rw [restoreSegs_cons] at h
    by_cases hp : (ws.2.pseud == p) = true
    · rw [if_pos hp] at h
      cases hr : (restoreSegs p rest tl).1 with
      | nil =>
        rw [hr] at h
        simp at h
      | cons w2 r2 =>
        rw [hr] at h
        rcases List.mem_cons.1 h with rfl | h2
        · obtain ⟨w0, hw0, he, hne⟩ := ih tl w2 (by rw [hr]; exact List.mem_cons_self _ _)
          exact ⟨w0, List.mem_cons_of_mem _ hw0, he, hne⟩
        · obtain ⟨w0, hw0, he, hne⟩ := ih tl ws2
            (by rw [hr]; exact List.mem_cons_of_mem _ h2)
          exact ⟨w0, List.mem_cons_of_mem _ hw0, he, hne⟩
    · rw [if_neg hp] at h
      rcases List.mem_cons.1 h with rfl | h2
      · exact ⟨ws2, List.mem_cons_self _ _, rfl, fun hc => hp (beq_iff_eq.2 hc)⟩
      · obtain ⟨w0, hw0, he, hne⟩ := ih tl ws2 h2
        exact ⟨w0, List.mem_cons_of_mem _ hw0, he, hne⟩

theorem restore_gaps (p : Str) {text : Str} :
    ∀ (segs : List (Str × SlotInfo)) (tl : Str),
      (∀ ws ∈ segs, ws.1 <:+: text) → tl <:+: text →
      ((segs.map (fun ws => ws.1 ++ ws.2.name)).flatten ++ tl) <:+: text →
      (∀ ws2 ∈ (restoreSegs p segs tl).1, ws2.1 <:+: text) ∧
        (restoreSegs p segs tl).2 <:+: text := by
  intro segs
  induction segs with
  | nil =>
    intro tl _ htl _
    exact ⟨by simp [restoreSegs], htl⟩
  | cons ws rest ih =>
    intro tl hsegs htl hjo
    have hjor : ((rest.map (fun ws => ws.1 ++ ws.2.name)).flatten ++ tl) <:+: text := by
      refine List.IsSuffix.isInfix ?_ |>.trans hjo
      rw [List.map_cons, List.flatten_cons, List.append_assoc]
      exact List.suffix_append _ _
    have ihr := ih tl (fun w hw => hsegs w (List.mem_cons_of_mem _ hw)) htl hjor
    rw [restoreSegs_cons]
    by_cases hp : (ws.2.pseud == p) = true
    · rw [if_pos hp]
      cases hr : (restoreSegs p rest tl).1 with
      | nil =>
        refine ⟨by simp, ?_⟩
        have ho := restore_orig p rest tl
        rw [hr] at ho
        simp only [List.map_nil, List.flatten_nil, List.nil_append] at ho
        have : ws.1 ++ ws.2.name ++ (restoreSegs p rest tl).2 =
            ((ws :: rest).map (fun w => w.1 ++ w.2.name)).flatten ++ tl := by
          rw [ho, List.map_cons, List.flatten_cons]
          simp [List.append_assoc]
        rw [this]
        exact hjo
      | cons w2 r2 =>
        have ho := restore_orig p rest tl
        rw [hr] at ho
        refine ⟨?_, ihr.2⟩
        intro ws2 h2
        rcases List.mem_cons.1 h2 with rfl | h3
        · show ws.1 ++ ws.2.name ++ w2.1 <:+: text
          have hw2p : w2.1 <+: (rest.map (fun w => w.1 ++ w.2.name)).flatten ++ tl := by
            rw [← ho, List.map_cons, List.flatten_cons, List.append_assoc, List.append_assoc]
            exact List.prefix_append _ _
          have hbig : (ws.1 ++ ws.2.name) ++ w2.1 <+:
              (ws.1 ++ ws.2.name) ++ ((rest.map (fun w => w.1 ++ w.2.name)).flatten ++ tl) :=
            prefix_app_left hw2p
          have heq : (ws.1 ++ ws.2.name) ++ ((rest.map (fun w => w.1 ++ w.2.name)).flatten ++ tl)
              = ((ws :: rest).map (fun w => w.1 ++ w.2.name)).flatten ++ tl := by
            rw [List.map_cons, List.flatten_cons]
            simp [List.append_assoc]
          rw [heq] at hbig
          exact hbig.isInfix.trans hjo
        · exact ihr.1 ws2 (by rw [hr]; exact List.mem_cons_of_mem _ h3)
    · rw [if_neg hp]
      refine ⟨?_, ihr.2⟩
      intro ws2 h2
      rcases List.mem_cons.1 h2 with rfl | h3
      · exact hsegs ws2 (List.mem_cons_self _ _)
      · exact ihr.1 ws2 h3

theorem dean_step {text : Str} {P : List Str} {p : Str} (rn : Str)
    (hcf : CFc text P p) (hpt : ¬ p <:+: text)
    (segs : List (Str × SlotInfo)) (tl : Str)
    (hsegs : ∀ ws ∈ segs, ws.1 <:+: text ∧ ws.2.pseud ∈ P) (htl : tl <:+: text)
    (hrn : ∀ ws ∈ segs, ws.2.pseud = p → ws.2.name = rn) :
    replaceAll (joinCur ⟨segs, tl⟩) p rn
      = joinCur ⟨(restoreSegs p segs tl).1, (restoreSegs p segs tl).2⟩ := by
  rw [passSplit rn hcf segs tl hsegs htl]
  have hmap : segs.map (fun ws => replaceAll ws.1 p rn ++
      (if ws.2.pseud = p then rn else ws.2.pseud))
      = segs.map (fun ws => ws.1 ++
          (if ws.2.pseud == p then ws.2.name else ws.2.pseud)) := by
    apply List.map_congr_left
    intro ws hws
    rw [replaceAll_noOccur hcf.1 (fun hc => hpt (hc.trans (hsegs ws hws).1))]
    by_cases hp : ws.2.pseud = p
    · rw [if_pos hp, if_pos (beq_iff_eq.2 hp), hrn ws hws hp]
    · rw [if_neg hp, if_neg (fun hc => hp (beq_iff_eq.1 hc))]
  rw [hmap, replaceAll_noOccur hcf.1 (fun hc => hpt (hc.trans htl))]
  exact (restore_cur p segs tl).symm

theorem dean_fold {text : Str} {entries : List (Str × MapEntry)}
    (hfacts : ∀ c ∈ entries.map Prod.fst ++ entries.map (fun kv => kv.2.pseudonym),
      CFc text (entries.map (fun kv => kv.2.pseudonym)) c)
    (hnoinf : ∀ q ∈ entries.map (fun kv => kv.2.pseudonym), ¬ q <:+: text)
    (hnd : (entries.map (fun kv => kv.2.pseudonym)).Nodup)
    (reverse : List (Str × Str))
    (hrev : ∀ kv ∈ entries, dlookup reverse kv.2.pseudonym = some kv.1) :
    ∀ (ps : List Str), (∀ q ∈ ps, q ∈ entries.map (fun kv => kv.2.pseudonym)) →
    ∀ (segs : List (Str × SlotInfo)) (tl : Str),
      (∀ ws ∈ segs, ws.1 <:+: text ∧ bindsIn entries ws.2.name ws.2.pseud ∧
        ws.2.pseud ∈ ps) →
      tl <:+: text →
      ((segs.map (fun ws => ws.1 ++ ws.2.name)).flatten ++ tl) <:+: text →
      ps.foldl (fun result pseudonym =>
        match dlookup reverse pseudonym with
        | some real_name => replaceAll result pseudonym real_name
        | none => result) (joinCur ⟨segs, tl⟩)
        = (segs.map (fun ws => ws.1 ++ ws.2.name)).flatten ++ tl := by
  intro ps
  induction ps with
  | nil =>
    intro _ segs tl hsegs htl _
    cases segs with
    | nil => simp [joinCur]
    | cons ws rest =>
      have := (hsegs ws (List.mem_cons_self _ _)).2.2
      simp at this
  | cons p ps ih =>
    intro hmemP segs tl hsegs htl hjo
    rw [List.foldl_cons]
    have hpP : p ∈ entries.map (fun kv => kv.2.pseudonym) :=
      hmemP p (List.mem_cons_self _ _)
    obtain ⟨kv, hkv, hkvp⟩ := List.mem_map.1 hpP
    have hlook : dlookup reverse p = some kv.1 := by
      rw [← hkvp]
      exact hrev kv hkv
    simp only [hlook]
    have hcf : CFc text (entries.map (fun kv => kv.2.pseudonym)) p :=
      hfacts p (List.mem_append_right _ hpP)
    have hpt : ¬ p <:+: text := hnoinf p hpP
    have hsegsP : ∀ ws ∈ segs, ws.1 <:+: text ∧
        ws.2.pseud ∈ entries.map (fun kv => kv.2.pseudonym) := by
      intro ws hws
      obtain ⟨h1, ⟨e2, he2, hp2⟩, _⟩ := hsegs ws hws
      refine ⟨h1, ?_⟩
      rw [← hp2]
      exact List.mem_map_of_mem _ (dlookup_mem he2)
    have hrn : ∀ ws ∈ segs, ws.2.pseud = p → ws.2.name = kv.1 := by
      intro ws hws hwp
      obtain ⟨_, ⟨e2, he2, hp2⟩, _⟩ := hsegs ws hws
      have hm2 : (ws.2.name, e2) ∈ entries := dlookup_mem he2
      have heq : (ws.2.name, e2) = kv := by
        apply nodup_map_inj (fun kv => kv.2.pseudonym) hnd hm2 hkv
        show e2.pseudonym = kv.2.pseudonym
        rw [hp2, hwp, hkvp]
      rw [← heq]
    rw [dean_step kv.1 hcf hpt segs tl hsegsP htl hrn]
    have hgaps := restore_gaps p segs tl (fun w hw => (hsegs w hw).1) htl hjo
    have hslots : ∀ ws2 ∈ (restoreSegs p segs tl).1,
        ws2.1 <:+: text ∧ bindsIn entries ws2.2.name ws2.2.pseud ∧ ws2.2.pseud ∈ ps := by
      intro ws2 h2
      obtain ⟨w0, hw0, he0, hne0⟩ := restore_slots_mem p segs tl ws2 h2
      obtain ⟨_, hb0, hv0⟩ := hsegs w0 hw0
      refine ⟨hgaps.1 ws2 h2, by rw [he0]; exact hb0, ?_⟩
      rw [he0]
      rcases List.mem_cons.1 hv0 with he | he
      · exact absurd he hne0
      · exact he
    have horest : (((restoreSegs p segs tl).1.map
        (fun ws => ws.1 ++ ws.2.name)).flatten ++ (restoreSegs p segs tl).2) <:+: text := by
      rw [restore_orig p segs tl]
      exact hjo
    have hcall := ih (fun q hq => hmemP q (List.mem_cons_of_mem _ hq))
      (restoreSegs p segs tl).1 (restoreSegs p segs tl).2 hslots hgaps.2 horest
    rw [hcall, restore_orig p segs tl]

/-! ## The span replacement pass as a sentence construction -/

theorem get_pseudonym_mido (st : MappingStore) (n : Str) (t : String) (now : Nat) :
    (get_pseudonym st n t now).2.mapping_id = st.mapping_id := by
  cases hl : dlookup st.data.entries n with
  | some e => rw [get_pseudonym_hit hl]
  | none => rw [get_pseudonym_miss hl]

theorem get_pseudonym_entries_ne (st : MappingStore) (n : Str) (t : String) (now : Nat) :
    (get_pseudonym st n t now).2.data.entries ≠ [] := by
  cases hl : dlookup st.data.entries n with
  | some e =>
    rw [get_pseudonym_hit hl]
    intro hc
    rw [hc] at hl
    exact absurd hl (by simp [dlookup])
  | none =>
    rw [get_pseudonym_miss hl]
    simp

theorem assignPs_cons (now : Nat) (e : DetectedEntity) (rest : List DetectedEntity)
    (st : MappingStore) :
    assignPs now (e :: rest) st =
      ((e, (get_pseudonym st e.text e.entity_type now).1)
          :: (assignPs now rest (get_pseudonym st e.text e.entity_type now).2).1,
        (assignPs now rest (get_pseudonym st e.text e.entity_type now).2).2) := rfl

theorem assignPs_mono (now : Nat) :
    ∀ (L : List DetectedEntity) (st : MappingStore) {m : Str} {e : MapEntry},
      dlookup st.data.entries m = some e →
      dlookup (assignPs now L st).2.data.entries m = some e := by
  intro L
  induction L with
  | nil => intro st m e h; exact h
  | cons x rest ih =>
    intro st m e h
    rw [assignPs_cons]
    exact ih _ (get_pseudonym_mono h _ _ _)

theorem assignPs_binds (now : Nat) :
    ∀ (L : List DetectedEntity) (st : MappingStore),
      ∀ ep ∈ (assignPs now L st).1,
        bindsIn (assignPs now L st).2.data.entries ep.1.text ep.2 := by
  intro L
  induction L with
  | nil => intro st ep h; exact absurd h (by simp [assignPs])
  | cons x rest ih =>
    intro st ep h
    rw [assignPs_cons] at h ⊢
    rcases List.mem_cons.1 h with rfl | h2
    · obtain ⟨e, he, hp⟩ := get_pseudonym_binds st x.text x.entity_type now
      exact ⟨e, assignPs_mono now rest _ he, hp⟩
    · exact ih _ ep h2

theorem assignPs_fst (now : Nat) :
    ∀ (L : List DetectedEntity) (st : MappingStore),
      (assignPs now L st).1.map Prod.fst = L := by
  intro L
  induction L with
  | nil => intro st; rfl
  | cons x rest ih =>
    intro st
    rw [assignPs_cons, List.map_cons, ih]

theorem assignPs_mem_fst (now : Nat) {L : List DetectedEntity} {st : MappingStore}
    {ep : DetectedEntity × Str} (h : ep ∈ (assignPs now L st).1) : ep.1 ∈ L := by
  have := List.mem_map_of_mem Prod.fst h
  rwa [assignPs_fst] at this

theorem assignPs_mido (now : Nat) :
    ∀ (L : List DetectedEntity) (st : MappingStore),
      (assignPs now L st).2.mapping_id = st.mapping_id := by
  intro L
  induction L with
  | nil => intro st; rfl
  | cons x rest ih =>
    intro st
    rw [assignPs_cons]
    rw [ih, get_pseudonym_mido]

theorem assignPs_entries_ne (now : Nat) :
    ∀ (L : List DetectedEntity) (st : MappingStore), L ≠ [] →
      (assignPs now L st).2.data.entries ≠ [] := by
  intro L
  induction L with
  | nil => intro st h; exact absurd rfl h
  | cons x rest ih =>
    intro st _
    rw [assignPs_cons]
    cases rest with
    | nil => exact get_pseudonym_entries_ne st x.text x.entity_type now
    | cons y rest2 => exact ih _ (by simp)

theorem span_step_eq (now : Nat) (J : Str) (st : MappingStore) (e : DetectedEntity) :
    (fun (acc : Str × MappingStore) (entity : DetectedEntity) =>
      let p := get_pseudonym acc.2 entity.text entity.entity_type now
      ((acc.1.take entity.start) ++ p.1 ++ (acc.1.drop entity.end_), p.2)) (J, st) e
    = ((J.take e.start) ++ (get_pseudonym st e.text e.entity_type now).1
        ++ (J.drop e.end_),
       (get_pseudonym st e.text e.entity_type now).2) := rfl

theorem span_fold_append (now : Nat) :
    ∀ (L : List DetectedEntity) (A B : Str) (st : MappingStore) (n : Nat),
      List.Pairwise (fun a b => b.end_ ≤ a.start) L →
      (∀ e ∈ L, e.start ≤ e.end_ ∧ e.end_ ≤ n) → n ≤ A.length →
      L.foldl (fun acc entity =>
        let p := get_pseudonym acc.2 entity.text entity.entity_type now
        ((acc.1.take entity.start) ++ p.1 ++ (acc.1.drop entity.end_), p.2)) (A ++ B, st)
      = ((L.foldl (fun acc entity =>
          let p := get_pseudonym acc.2 entity.text entity.entity_type now
          ((acc.1.take entity.start) ++ p.1 ++ (acc.1.drop entity.end_), p.2)) (A, st)).1
          ++ B,
         (L.foldl (fun acc entity =>
          let p := get_pseudonym acc.2 entity.text entity.entity_type now
          ((acc.1.take entity.start) ++ p.1 ++ (acc.1.drop entity.end_), p.2)) (A, st)).2) := by
  intro L
  induction L with
  | nil => intro A B st n _ _ _; rfl
  | cons e rest ih =>
    intro A B st n hpw hb hn
    obtain ⟨hse, hen⟩ := hb e (List.mem_cons_self _ _)
    simp only [List.foldl_cons]
    rw [List.take_append_of_le_length (by omega), List.drop_append_of_le_length (by omega)]
    rw [show A.take e.start ++ (get_pseudonym st e.text e.entity_type now).1
        ++ (A.drop e.end_ ++ B)
        = (A.take e.start ++ (get_pseudonym st e.text e.entity_type now).1
          ++ A.drop e.end_) ++ B from by simp [List.append_assoc]]
    exact ih _ B _ e.start (List.pairwise_cons.1 hpw).2
      (fun b hbm => ⟨(hb b (List.mem_cons_of_mem _ hbm)).1,
        (List.pairwise_cons.1 hpw).1 b hbm⟩)
      (by rw [List.length_append, List.length_append, List.length_take]; omega)

theorem entSent_cons (T : Str) (ep : DetectedEntity × Str)
    (rest : List (DetectedEntity × Str)) (pos : Nat) :
    entSent T (ep :: rest) pos =
      ⟨(pySlice T pos ep.1.start, ⟨ep.1.text, ep.2⟩) :: (entSent T rest ep.1.end_).segs,
       (entSent T rest ep.1.end_).tail⟩ := rfl

theorem joinCur_entSent_cons (T : Str) (ep : DetectedEntity × Str)
    (rest : List (DetectedEntity × Str)) (pos : Nat) :
    joinCur (entSent T (ep :: rest) pos) =
      pySlice T pos ep.1.start ++ (ep.2 ++ joinCur (entSent T rest ep.1.end_)) := by
  rw [entSent_cons]
  simp [joinCur, List.append_assoc]

theorem joinOrig_entSent_cons (T : Str) (ep : DetectedEntity × Str)
    (rest : List (DetectedEntity × Str)) (pos : Nat) :
    joinOrig (entSent T (ep :: rest) pos) =
      pySlice T pos ep.1.start ++ (ep.1.text ++ joinOrig (entSent T rest ep.1.end_)) := by
  rw [entSent_cons]
  simp [joinOrig, List.append_assoc]

theorem joinCur_entSent_nil (T : Str) (pos : Nat) :
    joinCur (entSent T [] pos) = T.drop pos := by
  simp [entSent, joinCur]

theorem entSent_snoc (T : Str) (e : DetectedEntity) (p : Str) :
    ∀ (Ps : List (DetectedEntity × Str)) (pos : Nat),
      (∀ q ∈ Ps, q.1.start ≤ q.1.end_ ∧ q.1.end_ ≤ e.start) →
      joinCur (entSent T (Ps ++ [(e, p)]) pos)
        = joinCur (entSent (T.take e.start) Ps pos) ++ p ++ T.drop e.end_ := by
  intro Ps
  induction Ps with
  | nil =>
    intro pos _
    rw [List.nil_append, joinCur_entSent_cons, joinCur_entSent_nil, joinCur_entSent_nil]
    show pySlice T pos e.start ++ (p ++ T.drop e.end_)
        = (T.take e.start).drop pos ++ p ++ T.drop e.end_
    rw [show pySlice T pos e.start = (T.take e.start).drop pos from rfl]
    simp [List.append_assoc]
  | cons qp Ps ih =>
    intro pos hq
    obtain ⟨hqse, hqee⟩ := hq qp (List.mem_cons_self _ _)
    rw [List.cons_append, joinCur_entSent_cons, joinCur_entSent_cons,
      ih qp.1.end_ (fun r hr => hq r (List.mem_cons_of_mem _ hr))]
    have hsl : pySlice (T.take e.start) pos qp.1.start = pySlice T pos qp.1.start := by
      unfold pySlice
      rw [List.take_take, min_eq_left (by omega)]
    rw [hsl]
    simp [List.append_assoc]

theorem glue2 (T : Str) {a b : Nat} (h : a ≤ b) :
    (T.take b).drop a ++ T.drop b = T.drop a := by
  have h1 : (T.take b).drop a = (T.drop a).take (b - a) := by
    rw [show (T.take b).drop a = pySlice T a b from rfl, pySlice_eq_take_drop]
  have h2 : (T.drop a).drop (b - a) = T.drop b := by
    rw [List.drop_drop]
    congr 1
    omega
  rw [h1, ← h2, List.take_append_drop]

theorem entSent_orig_drop (T : Str) :
    ∀ (Ps : List (DetectedEntity × Str)) (pos : Nat), AscOK T pos Ps →
      joinOrig (entSent T Ps pos) = T.drop pos := by
  intro Ps
  induction Ps with
  | nil => intro pos _; simp [entSent, joinOrig]
  | cons qp Ps ih =>
    intro pos hok
    obtain ⟨h1, h2, h3, h4⟩ := hok
    rw [joinOrig_entSent_cons, ih qp.1.end_ h4, h3,
      show pySlice T qp.1.start qp.1.end_ = (T.take qp.1.end_).drop qp.1.start from rfl,
      glue2 T h2,
      show pySlice T pos qp.1.start = (T.take qp.1.start).drop pos from rfl,
      glue2 T h1]

theorem pySlice_within (t : Str) (s e : Nat) : pySlice t s e <:+: t :=
  ((List.drop_suffix s (t.take e)).isInfix).trans (List.take_prefix e t).isInfix

theorem entSent_wf (T : Str) :
    ∀ (Ps : List (DetectedEntity × Str)) (pos : Nat),
      (∀ ws ∈ (entSent T Ps pos).segs, ws.1 <:+: T ∧
        ∃ ep ∈ Ps, ws.2 = ⟨ep.1.text, ep.2⟩) ∧ (entSent T Ps pos).tail <:+: T := by
  intro Ps
  induction Ps with
  | nil =>
    intro pos
    refine ⟨?_, ?_⟩
    · intro ws h
      exact absurd h (by simp [entSent])
    · exact (List.drop_suffix pos T).isInfix
  | cons qp Ps ih =>
    intro pos
    refine ⟨?_, ?_⟩
    · intro ws h
      rw [entSent_cons] at h
      rcases List.mem_cons.1 h with rfl | h2
      · exact ⟨pySlice_within T pos qp.1.start, qp, List.mem_cons_self _ _, rfl⟩
      · obtain ⟨hg, ep, hep, he⟩ := (ih qp.1.end_).1 ws h2
        exact ⟨hg, ep, List.mem_cons_of_mem _ hep, he⟩
    · rw [entSent_cons]
      exact (ih qp.1.end_).2

theorem AscOK_of (T : Str) :
    ∀ (Ps : List (DetectedEntity × Str)) (pos : Nat),
      List.Pairwise (fun a b => a.1.end_ ≤ b.1.start) Ps →
      (∀ ep ∈ Ps, ep.1.start ≤ ep.1.end_ ∧ ep.1.text = pySlice T ep.1.start ep.1.end_) →
      (∀ ep ∈ Ps, pos ≤ ep.1.start) →
      AscOK T pos Ps := by
  intro Ps
  induction Ps with
  | nil => intro pos _ _ _; trivial
  | cons qp Ps ih =>
    intro pos hpw hv hpos
    obtain ⟨h1, h2⟩ := hv qp (List.mem_cons_self _ _)
    refine ⟨hpos qp (List.mem_cons_self _ _), h1, h2, ?_⟩
    exact ih qp.1.end_ (List.pairwise_cons.1 hpw).2
      (fun b hb => hv b (List.mem_cons_of_mem _ hb))
      (fun b hb => (List.pairwise_cons.1 hpw).1 b hb)

theorem span_fold_sent (now : Nat) :
    ∀ (L : List DetectedEntity) (T : Str) (st : MappingStore),
      List.Pairwise (fun a b => b.end_ ≤ a.start) L →
      (∀ e ∈ L, e.start < e.end_ ∧ e.end_ ≤ T.length) →
      L.foldl (fun acc entity =>
        let p := get_pseudonym acc.2 entity.text entity.entity_type now
        ((acc.1.take entity.start) ++ p.1 ++ (acc.1.drop entity.end_), p.2)) (T, st)
      = (joinCur (entSent T ((assignPs now L st).1.reverse) 0), (assignPs now L st).2) := by
  intro L
  induction L with
  | nil =>
    intro T st _ _
    rw [List.foldl_nil, show (assignPs now [] st).1 = [] from rfl, List.reverse_nil,
      joinCur_entSent_nil, List.drop_zero, show (assignPs now [] st).2 = st from rfl]
  | cons e rest ih =>
    intro T st hpw hb
    obtain ⟨hse, hee⟩ := hb e (List.mem_cons_self _ _)
    simp only [List.foldl_cons]
    rw [show T.take e.start ++ (get_pseudonym st e.text e.entity_type now).1
        ++ T.drop e.end_
        = T.take e.start ++ ((get_pseudonym st e.text e.entity_type now).1
          ++ T.drop e.end_) from by simp [List.append_assoc]]
    rw [span_fold_append now rest (T.take e.start) _ _ e.start (List.pairwise_cons.1 hpw).2
      (fun b hbm => ⟨le_of_lt (hb b (List.mem_cons_of_mem _ hbm)).1,
        (List.pairwise_cons.1 hpw).1 b hbm⟩)
      (by rw [List.length_take]; omega)]
    rw [ih (T.take e.start) (get_pseudonym st e.text e.entity_type now).2
      (List.pairwise_cons.1 hpw).2
      (fun b hbm => ⟨(hb b (List.mem_cons_of_mem _ hbm)).1,
        by rw [List.length_take]
           have h1 := (List.pairwise_cons.1 hpw).1 b hbm
           omega⟩)]
    rw [assignPs_cons, List.reverse_cons]
    have hsnoc := entSent_snoc T e (get_pseudonym st e.text e.entity_type now).1
      ((assignPs now rest (get_pseudonym st e.text e.entity_type now).2).1.reverse) 0
      (fun q hq => by
        have hmem : q.1 ∈ rest := assignPs_mem_fst now (List.mem_reverse.1 hq)
        exact ⟨le_of_lt (hb q.1 (List.mem_cons_of_mem _ hmem)).1,
          (List.pairwise_cons.1 hpw).1 q.1 hmem⟩)
    rw [hsnoc]
    simp [List.append_assoc]

/-! ## Pipeline assembly facts for the round trip -/

theorem detect_entities_strong {em ph : Str → List (Nat × Nat)} {ner : Str → List RawEnt}
    {text : Str} {minc : Nat}
    (hem : ∀ m ∈ em text, m.1 < m.2 ∧ m.2 ≤ text.length)
    (hph : ∀ m ∈ ph text, m.1 < m.2 ∧ m.2 ≤ text.length)
    (hner : ∀ ch ∈ split_into_chunks text, ∀ r ∈ ner ch.1,
      r.start_char < r.end_char ∧ r.end_char ≤ ch.1.length) :
    ∀ e ∈ detect_entities em ph ner text minc,
      e.start < e.end_ ∧ e.end_ ≤ text.length ∧ e.text = pySlice text e.start e.end_ := by
  intro e he
  rcases detect_entities_mem he with h | h
  · unfold detect_regex at h
    rcases List.mem_append.1 h with h1 | h1
    · obtain ⟨m, hm, heq⟩ := List.mem_map.1 h1
      obtain ⟨hlt, hle⟩ := hem m hm
      rw [← heq]
      exact ⟨hlt, hle, rfl⟩
    · obtain ⟨m, hm, heq⟩ := List.mem_map.1 h1
      obtain ⟨hlt, hle⟩ := hph m hm
      rw [← heq]
      exact ⟨hlt, hle, rfl⟩
  · unfold detect_ner at h
    obtain ⟨l, hl, hx⟩ := List.mem_flatten.1 h
    obtain ⟨chunk, hchunk, hle⟩ := List.mem_map.1 hl
    rw [← hle] at hx
    obtain ⟨r, hr, heq⟩ := List.mem_map.1 hx
    have hrm : r ∈ ner chunk.1 := (List.mem_filter.1 hr).1
    obtain ⟨hrlt, hrle⟩ := hner chunk hchunk r hrm
    obtain ⟨hb, hcc⟩ := split_chunks_facts text chunk hchunk
    rw [← heq]
    refine ⟨?_, ?_, ?_⟩
    · show r.start_char + chunk.2 < r.end_char + chunk.2
      omega
    · show r.end_char + chunk.2 ≤ text.length
      omega
    · show pySlice chunk.1 r.start_char r.end_char
        = pySlice text (r.start_char + chunk.2) (r.end_char + chunk.2)
      exact (slice_in_chunk hb hcc hrle).symm

theorem sorted_desc_sep (ents : List DetectedEntity)
    (hpw : List.Pairwise (fun a b => ¬(a.start < b.end_ ∧ b.start < a.end_)) ents)
    (hv : ∀ e ∈ ents, e.start < e.end_) :
    List.Pairwise (fun a b => b.end_ ≤ a.start) (List.insertionSort StartGE ents) := by
  have hperm := List.perm_insertionSort StartGE ents
  have hpw2 : List.Pairwise (fun a b => ¬(a.start < b.end_ ∧ b.start < a.end_))
      (List.insertionSort StartGE ents) :=
    (hperm.pairwise_iff (fun h hc => h ⟨hc.2, hc.1⟩)).2 hpw
  have hsort : List.Pairwise StartGE (List.insertionSort StartGE ents) :=
    List.sorted_insertionSort StartGE ents
  have hv2 : ∀ e ∈ List.insertionSort StartGE ents, e.start < e.end_ :=
    fun e he => hv e (hperm.mem_iff.1 he)
  refine (hsort.and hpw2).imp_of_mem ?_
  intro a b ha _ hab
  obtain ⟨hge, hno⟩ := hab
  by_contra hcon
  push_neg at hcon
  exact hno ⟨hcon, lt_of_le_of_lt hge (hv2 a ha)⟩

theorem create_or_load_mido (fs : MappingFS) (mid : Str) (now : Nat) :
    (create_or_load fs mid now).mapping_id = some mid := by
  unfold create_or_load
  split <;> rfl

theorem create_or_load_hit {fs : MappingFS} {mid : Str} {d : MappingData}
    (h : dlookup fs mid = some d) (now : Nat) :
    create_or_load fs mid now = { mapping_id := some mid, data := d } := by
  unfold create_or_load
  simp only [h]

theorem save_ok {st : MappingStore} {mid : Str} (fs : MappingFS) (now : Nat)
    (hm : st.mapping_id = some mid) (hne : mid ≠ []) :
    save fs st now = .ok (savePath mid, dinsert fs mid { st.data with updated := now },
      { st with data := { st.data with updated := now } }) := by
  unfold save
  simp only [hm]
  rw [if_neg (by simpa [List.isEmpty_iff] using hne)]

theorem dlookup_some_mem_keys {β : Type} {d : List (Str × β)} {k : Str} {v : β}
    (h : dlookup d k = some v) : k ∈ d.map Prod.fst :=
  List.mem_map_of_mem Prod.fst (dlookup_mem h)

theorem dinsert_keys {β : Type} (d : List (Str × β)) (k : Str) (v : β) :
    ∀ k2 ∈ (dinsert d k v).map Prod.fst, k2 ∈ d.map Prod.fst ∨ k2 = k := by
  unfold dinsert
  split
  · intro k2 h2
    obtain ⟨kv, hkv, he⟩ := List.mem_map.1 h2
    obtain ⟨kv0, hkv0, he0⟩ := List.mem_map.1 hkv
    by_cases hc : (kv0.1 == k) = true
    · rw [if_pos hc] at he0
      right
      rw [← he, ← he0]
    · rw [if_neg hc] at he0
      left
      rw [← he, ← he0]
      exact List.mem_map_of_mem _ hkv0
  · intro k2 h2
    rw [List.map_append] at h2
    rcases List.mem_append.1 h2 with h3 | h3
    · exact Or.inl h3
    · right
      simpa using h3

theorem revfold_keys :
    ∀ (l : List (Str × MapEntry)) (acc : List (Str × Str)),
      ∀ k ∈ (l.foldl (fun acc kv => dinsert acc kv.2.pseudonym kv.1) acc).map Prod.fst,
        k ∈ acc.map Prod.fst ∨ k ∈ l.map (fun kv => kv.2.pseudonym) := by
  intro l
  induction l with
  | nil => intro acc k h; exact Or.inl h
  | cons kv rest ih =>
    intro acc k h
    rw [List.foldl_cons] at h
    rcases ih _ k h with h2 | h2
    · rcases dinsert_keys acc kv.2.pseudonym kv.1 k h2 with h3 | h3
      · exact Or.inl h3
      · refine Or.inr ?_
        rw [List.map_cons, h3]
        exact List.mem_cons_self _ _
    · refine Or.inr ?_
      rw [List.map_cons]
      exact List.mem_cons_of_mem _ h2

theorem reverse_lookup_keys_sub (st : MappingStore) :
    ∀ k ∈ (get_reverse_lookup st).map Prod.fst,
      k ∈ st.data.entries.map (fun kv => kv.2.pseudonym) := by
  intro k h
  rcases revfold_keys st.data.entries [] k h with h2 | h2
  · exact absurd h2 (by simp)
  · exact h2

theorem round_trip_core (text : Str) (E : List (Str × MapEntry)) (st2 : MappingStore)
    (hst2 : st2.data.entries = E)
    (hcf : collisionFree text E = true)
    (S0 : Sentence)
    (h0segs : ∀ ws ∈ S0.segs, ws.1 <:+: text ∧ bindsIn E ws.2.name ws.2.pseud)
    (h0tail : S0.tail <:+: text)
    (h0orig : joinOrig S0 = text)
    (names : List Str)
    (hnames : ∀ n ∈ names, n ∈ E.map Prod.fst) :
    (List.insertionSort LenGE ((get_reverse_lookup st2).map Prod.fst)).foldl
      (fun result pseudonym =>
        match dlookup (get_reverse_lookup st2) pseudonym with
        | some real_name => replaceAll result pseudonym real_name
        | none => result)
      (names.foldl (fun rt real_name =>
        match dlookup E real_name with
        | some e => replaceAll rt real_name e.pseudonym
        | none => rt) (joinCur S0))
      = text := by
  obtain ⟨segs0, tl0⟩ := S0
  obtain ⟨hn, hp, hnp, hnd, hcfc⟩ := collisionFree_facts hcf
  obtain ⟨S1, h1eq, h1segs, h1tail, h1orig⟩ := pass2_fold hcfc hnp names hnames segs0 tl0
    h0segs h0tail
  rw [h1eq]
  obtain ⟨segs1, tl1⟩ := S1
  have hpw : List.Pairwise (fun a b : Str × MapEntry => a.2.pseudonym ≠ b.2.pseudonym)
      st2.data.entries := by
    rw [hst2]
    exact List.pairwise_map.1 hnd
  have hrev : ∀ kv ∈ E, dlookup (get_reverse_lookup st2) kv.2.pseudonym = some kv.1 := by
    intro kv hkv
    exact reverse_lookup_sound hpw (by rw [hst2]; exact hkv)
  have hmemPs : ∀ q ∈ List.insertionSort LenGE ((get_reverse_lookup st2).map Prod.fst),
      q ∈ E.map (fun kv => kv.2.pseudonym) := by
    intro q hq
    have h2 := reverse_lookup_keys_sub st2 q ((List.mem_insertionSort LenGE).1 hq)
    rwa [hst2] at h2
  have hsl : ∀ ws ∈ segs1, ws.1 <:+: text ∧ bindsIn E ws.2.name ws.2.pseud ∧
      ws.2.pseud ∈ List.insertionSort LenGE ((get_reverse_lookup st2).map Prod.fst) := by
    intro ws hws
    obtain ⟨h1, h2⟩ := h1segs ws hws
    refine ⟨h1, h2, ?_⟩
    obtain ⟨e2, he2, hp2⟩ := h2
    have hPm : ws.2.pseud ∈ E.map (fun kv => kv.2.pseudonym) := by
      rw [← hp2]
      exact List.mem_map_of_mem _ (dlookup_mem he2)
    obtain ⟨kv, hkv, hkvp⟩ := List.mem_map.1 hPm
    have hl : dlookup (get_reverse_lookup st2) ws.2.pseud = some kv.1 := by
      rw [← hkvp]
      exact hrev kv hkv
    exact (List.mem_insertionSort LenGE).2 (dlookup_some_mem_keys hl)
  have hjo : ((segs1.map (fun ws => ws.1 ++ ws.2.name)).flatten ++ tl1) <:+: text := by
    show joinOrig ⟨segs1, tl1⟩ <:+: text
    rw [h1orig, h0orig]
  rw [dean_fold hcfc (fun q hq => (hp q hq).2) hnd (get_reverse_lookup st2) hrev
    (List.insertionSort LenGE ((get_reverse_lookup st2).map Prod.fst)) hmemPs
    segs1 tl1 hsl h1tail hjo]
  show joinOrig ⟨segs1, tl1⟩ = text
  rw [h1orig, h0orig]
/-- C1: round trip.  For any mappings directory, any text, and any matcher and
recognizer capabilities obeying their span contracts on this text, if
`anonymize_text` succeeds and the saved mapping's entries are free of
pseudonym-colliding literal substrings with respect to the original text
(`collisionFree`), then `deanonymize_text` on the anonymized text under the
saved mappings directory restores the original text exactly. -/
theorem C1_round_trip
    (em ph : Str → List (Nat × Nat)) (ner : Str → List RawEnt)
    (fs : MappingFS) (text mid : Str) (now now2 : Nat)
    (hmid : mid ≠ [])
    (hem : ∀ m ∈ em text, m.1 < m.2 ∧ m.2 ≤ text.length)
    (hph : ∀ m ∈ ph text, m.1 < m.2 ∧ m.2 ≤ text.length)
    (hner : ∀ ch ∈ split_into_chunks text, ∀ r ∈ ner ch.1,
      r.start_char < r.end_char ∧ r.end_char ≤ ch.1.length)
    (res : AnonymizeResult) (fs2 : MappingFS) (d : MappingData)
    (hanon : anonymize_text em ph ner fs text mid now = .ok (res, fs2))
    (hload : dlookup fs2 mid = some d)
    (hcf : collisionFree text d.entries = true) :
    deanonymize_text fs2 res.anonymized_text mid now2 = .ok text := by
  have hdet := @detect_entities_strong em ph ner text 65 hem hph hner
  have hpwno := detect_entities_pairwise em ph ner text 65
  have hdesc := sorted_desc_sep (detect_entities em ph ner text 65) hpwno
    (fun e he => (hdet e he).1)
  have hbnds : ∀ e ∈ List.insertionSort StartGE (detect_entities em ph ner text 65),
      e.start < e.end_ ∧ e.end_ ≤ text.length := by
    intro e he
    have hm := (List.mem_insertionSort StartGE).1 he
    exact ⟨(hdet e hm).1, (hdet e hm).2.1⟩
  have hsf := span_fold_sent now
    (List.insertionSort StartGE (detect_entities em ph ner text 65)) text
    (create_or_load fs mid now) hdesc hbnds
  simp only [anonymize_text] at hanon
  rw [hsf] at hanon
  simp only [get_entries] at hanon
  have hmido : (assignPs now
      (List.insertionSort StartGE (detect_entities em ph ner text 65))
      (create_or_load fs mid now)).2.mapping_id = some mid := by
    rw [assignPs_mido]
    exact create_or_load_mido fs mid now
  rw [save_ok fs now hmido hmid] at hanon
  simp only [Except.ok.injEq, Prod.mk.injEq] at hanon
  obtain ⟨hres, hfs2⟩ := hanon
  have hload0 := hload
  rw [← hfs2, dlookup_dinsert_self] at hload
  have hd := Option.some.inj hload
  have hden : d.entries = (assignPs now
      (List.insertionSort StartGE (detect_entities em ph ner text 65))
      (create_or_load fs mid now)).2.data.entries := by
    rw [← hd]
  simp only [deanonymize_text]
  rw [create_or_load_hit hload0 now2]
  by_cases hE : d.entries = []
  · rw [if_pos (show ({ mapping_id := some mid, data := d }
        : MappingStore).data.entries.isEmpty = true from by
      show d.entries.isEmpty = true
      rw [hE]
      rfl)]
    have hsort_nil : List.insertionSort StartGE (detect_entities em ph ner text 65) = [] := by
      cases hs : List.insertionSort StartGE (detect_entities em ph ner text 65) with
      | nil => rfl
      | cons e r =>
        have hne := assignPs_entries_ne now
          (List.insertionSort StartGE (detect_entities em ph ner text 65))
          (create_or_load fs mid now) (by rw [hs]; simp)
        rw [← hden] at hne
        exact absurd hE hne
    rw [hsort_nil] at hres hden
    simp only [assignPs] at hres hden
    have hst0 : (create_or_load fs mid now).data.entries = [] := by
      rw [← hden]
      exact hE
    rw [hst0] at hres
    simp only [List.map_nil, List.reverse_nil, joinCur_entSent_nil, List.drop_zero,
      List.foldl_nil] at hres
    rw [← hres]
    rfl
  · rw [if_neg (show ¬ ({ mapping_id := some mid, data := d }
        : MappingStore).data.entries.isEmpty = true from by
      show ¬ d.entries.isEmpty = true
      simpa [List.isEmpty_iff] using hE)]
    have hra : res.anonymized_text =
        List.foldl
          (fun rt real_name =>
            match
              dlookup
                (assignPs now (List.insertionSort StartGE (detect_entities em ph ner text 65))
                        (create_or_load fs mid now)).2.data.entries
                real_name with
            | some e => replaceAll rt real_name e.pseudonym
            | none => rt)
          (joinCur
            (entSent text
              (assignPs now (List.insertionSort StartGE (detect_entities em ph ner text 65))
                    (create_or_load fs mid now)).1.reverse
              0))
          (List.insertionSort LenGE
            (List.map Prod.fst
              (assignPs now (List.insertionSort StartGE (detect_entities em ph ner text 65))
                      (create_or_load fs mid now)).2.data.entries)) := by
      rw [← hres]
    rw [hra]
    congr 1
    have hwf := entSent_wf text
      ((assignPs now (List.insertionSort StartGE (detect_entities em ph ner text 65))
        (create_or_load fs mid now)).1.reverse) 0
    have h0segs : ∀ ws ∈ (entSent text
        ((assignPs now (List.insertionSort StartGE (detect_entities em ph ner text 65))
          (create_or_load fs mid now)).1.reverse) 0).segs,
        ws.1 <:+: text ∧ bindsIn (assignPs now
          (List.insertionSort StartGE (detect_entities em ph ner text 65))
          (create_or_load fs mid now)).2.data.entries ws.2.name ws.2.pseud := by
      intro ws hws
      obtain ⟨hg, ep, hep, he⟩ := hwf.1 ws hws
      refine ⟨hg, ?_⟩
      rw [he]
      show bindsIn _ ep.1.text ep.2
      exact assignPs_binds now _ _ ep (List.mem_reverse.1 hep)
    have hasc : AscOK text 0
        ((assignPs now (List.insertionSort StartGE (detect_entities em ph ner text 65))
          (create_or_load fs mid now)).1.reverse) := by
      apply AscOK_of
      · rw [List.pairwise_reverse]
        have hd2 := hdesc
        rw [← assignPs_fst now
          (List.insertionSort StartGE (detect_entities em ph ner text 65))
          (create_or_load fs mid now)] at hd2
        exact List.pairwise_map.1 hd2
      · intro ep hep
        have hm : ep.1 ∈ List.insertionSort StartGE (detect_entities em ph ner text 65) :=
          assignPs_mem_fst now (List.mem_reverse.1 hep)
        have hm2 := (List.mem_insertionSort StartGE).1 hm
        exact ⟨le_of_lt (hdet ep.1 hm2).1, (hdet ep.1 hm2).2.2⟩
      · intro ep _
        exact Nat.zero_le _
    have h0orig : joinOrig (entSent text
        ((assignPs now (List.insertionSort StartGE (detect_entities em ph ner text 65))
          (create_or_load fs mid now)).1.reverse) 0) = text := by
      rw [entSent_orig_drop text _ 0 hasc, List.drop_zero]
    exact round_trip_core text
      (assignPs now (List.insertionSort StartGE (detect_entities em ph ner text 65))
        (create_or_load fs mid now)).2.data.entries
      { mapping_id := some mid, data := d }
      (show d.entries = _ from hden)
      (by rw [← hden]; exact hcf)
      (entSent text
        ((assignPs now (List.insertionSort StartGE (detect_entities em ph ner text 65))
          (create_or_load fs mid now)).1.reverse) 0)
      h0segs hwf.2 h0orig
      (List.insertionSort LenGE
        (List.map Prod.fst
          (assignPs now (List.insertionSort StartGE (detect_entities em ph ner text 65))
            (create_or_load fs mid now)).2.data.entries))
      (fun n hn => (List.mem_insertionSort LenGE).1 hn)

/-- C1 witness: a concrete round trip.  Two PERSON spans in "Jo met Ed." are
anonymized right-to-left to Person_B/Person_A under a fresh mapping saved as
"m", and deanonymizing the result under the saved directory restores the
original text. -/
theorem C1_witness :
    deanonymize_text
      [("m".data, ⟨"m".data, 5, 5,
        [("Ed".data, ⟨"Person_A".data, "PERSON"⟩),
         ("Jo".data, ⟨"Person_B".data, "PERSON"⟩)]⟩)]
      "Person_B met Person_A.".data "m".data 7 = .ok "Jo met Ed.".data :=
  C1_round_trip (fun _ => []) (fun _ => [])
    (fun t => if t == "Jo met Ed.".data then [⟨"PERSON", 0, 2⟩, ⟨"PERSON", 7, 9⟩] else [])
    [] "Jo met Ed.".data "m".data 5 7 (by decide) (by decide) (by decide) (by decide)
    { anonymized_text := "Person_B met Person_A.".data,
      entities_found :=
        [⟨"Jo".data, "PERSON", 0, 2, 80, "spacy"⟩,
         ⟨"Ed".data, "PERSON", 7, 9, 80, "spacy"⟩],
      mapping_id := "m".data }
    [("m".data, ⟨"m".data, 5, 5,
      [("Ed".data, ⟨"Person_A".data, "PERSON"⟩),
       ("Jo".data, ⟨"Person_B".data, "PERSON"⟩)]⟩)]
    ⟨"m".data, 5, 5,
      [("Ed".data, ⟨"Person_A".data, "PERSON"⟩),
       ("Jo".data, ⟨"Person_B".data, "PERSON"⟩)]⟩
    (by rfl) (by rfl) (by decide)
